import Mathlib

/-!
# wookie: the crawl engine

A shallow embedding of `src/lib/engine.cpp` (class `engine_data`, the filter
factories, the groups option of `engine::parse_command_line`) and of
`src/include/wookie/url.hpp` (class `url_processor`), with the classification
call of `document_parser::feed` (`src/test/similarity.hpp`), the groups
parsing of `loader::loader` (`src/test/elliptics_parse_docs.cpp`), and the
record `index_data` with its msgpack operators
(`src/include/wookie/index_data.hpp`).

* The inflight set `std::set<std::string>` is a `Finset String`; the mutex makes
  every `inflight_insert` / `infligt_erase` atomic and nothing more.  Completion
  handlers run on several worker threads: a handler is the sequence of its
  accesses to the shared members, and `engine_step` interleaves the accesses
  of the running handlers with downloads and completions.
* Every call the handler makes to a collaborator (store, downloader, hooks,
  `std::cout`) is recorded, in program order, in a list of `event`s.
* Hooks are `std::function`s and `process_url` catches nothing.  In
  `engine_hooks` every hook returns its result or throws (a function into
  `Except String _`), and an exception leaves the handler at the call.
  `engine_env` is the case in which filters, url-filters and parsers return
  and only a processor may throw; there the two handlers agree
  (`eh_process_url_hooks`).
* `swarm::network_url`, `wookie::storage`, `wookie::parser` and libmagic live
  outside `src/`; their behaviour is a parameter.
* A `std::string` is the list of its characters; sizes and offsets count
  characters.
* A msgpack buffer is the list of the items the packer wrote (a scalar, a raw
  header with its body, an array header), not their bytes; the unpacker builds
  objects from the items.  The adaptors of `dnet_time` are declared in
  `wookie/document.hpp`, outside `src/`, and are a parameter.
-/

namespace wookie

/-! ## Data model -/

/-- The elliptics time stamp `struct dnet_time`. -/
structure dnet_time where
  tsec : Nat
  tnsec : Nat
deriving DecidableEq, Repr

/-- The part of `swarm::network_reply` the engine reads: `get_request().get_url()`,
`get_url()`, `get_data()`, `get_headers()`, `get_error()`. -/
structure network_reply where
  request_url : String
  url : String
  data : String
  headers : List (String × String)
  error : Int
deriving DecidableEq, Repr

/-- The tag handed to processors (`document_new`, `document_cache`). -/
inductive document_type where
  | document_new
  | document_cache
deriving DecidableEq, Repr

/-- The record `wookie::document` filled by `store_document`. -/
structure document where
  ts : dnet_time
  key : String
  data : String
deriving DecidableEq, Repr

/-- The recursion policy `url::recursion` of `url.hpp`. -/
inductive recursion where
  | none
  | within_domain
  | full
deriving DecidableEq, Repr

/-- One observable action of a handler, in program order. -/
inductive event where
  | cout_error (url : String) (err : Int)
  | cout_processing (request_url url : String) (total : Int)
  | cout_content_type (value : String)
  | filter_call (i : Nat) (result : Bool)
  | write_document (d : document)
  | processor_call (i : Nat) (tag : document_type)
  | fallback_processor_call (i : Nat) (tag : document_type)
  | parser_call (i : Nat)
  | url_filter_call (j : Nat) (url : String) (result : Bool)
  | inflight_insert (url : String) (result : Bool)
  | infligt_erase (url : String)
  | read_data (url : String)
  | cout_page_cache (url : String)
  | cout_downloading (url : String)
  | feed (url : String)
  | wait_write (d : document)
  | cout_storage_error (request_url : String)
  | magic_buffer (data : String)
  | parse (data : String)
  | storage_process (url text : String) (ts : dnet_time) (collection : String)
  | cerr_index_exception (url : String)
  | filter_throw (i : Nat)
  | url_filter_throw (j : Nat) (url : String)
  | parser_throw (i : Nat)
deriving DecidableEq, Repr

abbrev parser_functor := network_reply → List String
abbrev filter_functor := network_reply → Bool
abbrev url_filter_functor := network_reply → String → Bool
abbrev process_functor := network_reply → document_type → Except String Unit

/-- Behaviour of `swarm::network_url`: `set_base u` is the result of
`set_base(u)`, `host u` is `host()` after `set_base(u)`, and `relative base u`
is the pair (returned string, `host` out-parameter) of `relative(u, &host)`
after `set_base(base)`, the out-parameter starting as the empty string. -/
structure network_url where
  set_base : String → Bool
  host : String → String
  relative : String → String → String × String

/-- Behaviour of `wookie::storage` as seen by a handler: whether the awaited
result of `read_data(key)` and of `write_document(d)` carries an error, and
whether `process(...)` (used by `url.hpp`) throws. -/
structure storage where
  read_data_error : String → Bool
  write_document_error : document → Bool
  process_raises : String → String → dnet_time → String → Option String

/-- The registries and collaborators held by `engine_data`, and the clock, for
filters, url-filters and parsers that return; `engine_hooks` is the general
case, in which any hook may throw. -/
structure engine_env where
  parsers : List parser_functor
  filters : List filter_functor
  url_filters : List url_filter_functor
  processors : List process_functor
  fallback_processors : List process_functor
  storage : storage
  net : network_url
  dnet_current_time : dnet_time

/-- The mutable members of `engine_data` (and of `url_processor`):
`inflight` and the counter `total`. -/
structure engine_data where
  inflight : Finset String
  total : Int

instance : DecidableEq engine_data := fun a b =>
  decidable_of_iff (a.inflight = b.inflight ∧ a.total = b.total)
    (by cases a; cases b; simp)

/-- What a handler did: the members afterwards, the actions in order, and the
exception that escaped, if any. -/
structure outcome where
  data : engine_data
  trace : List event
  raised : Option String

/-- The increment `++total` of a `std::atomic_long` (64 bit, wrapping). -/
def atomic_long_increment (total : Int) : Int :=
  (total + 1 + 2 ^ 63) % 2 ^ 64 - 2 ^ 63

/-- The test `s.compare(0, len, str) != 0` of `std::string`: the first `len`
characters of `s` (fewer when `s` is shorter) differ from `str`. -/
def compare_ne (s : String) (len : Nat) (str : String) : Bool :=
  s.data.take len != str.data

/-- The test `!strncmp(s, "text/", 5)`. -/
def strncmp_text (s : String) : Bool :=
  s.data.take 5 == "text/".data

/-- The algorithm `std::unique` on a list: of each run of equal neighbours the
first is kept. -/
def unique : List String → List String
  | [] => []
  | [a] => [a]
  | a :: b :: rest => if a = b then unique (b :: rest) else a :: unique (b :: rest)

/-- The pair `std::sort(urls)`, `urls.erase(std::unique(urls))`; strings are
ordered as `std::string` orders them, lexicographically by character. -/
def sort_unique (urls : List String) : List String :=
  unique (urls.insertionSort (fun a b => a.data ≤ b.data))

/-! ## engine.cpp: class engine_data -/

namespace engine_data

/-- Source: `engine_data::inflight_insert`, engine.cpp 152-163. -/
def inflight_insert (d : engine_data) (url : String) : Bool × engine_data :=
  if url ∈ d.inflight then (false, d)
  else (true, ⟨insert url d.inflight, d.total⟩)

/-- Source: `engine_data::infligt_erase`, engine.cpp 165-172. -/
def infligt_erase (d : engine_data) (url : String) : engine_data :=
  if url ∈ d.inflight then ⟨d.inflight.erase url, d.total⟩ else d

/-- Source: `engine_data::download`, engine.cpp 146-150. -/
def download (url : String) : List event :=
  [event.cout_downloading url, event.feed url]

/-- Source: `engine_data::store_document`, engine.cpp 174-184; the document is
the pending asynchronous write. -/
def store_document (d : engine_data) (url content : String) (ts : dnet_time) :
    engine_data × List event × document :=
  let doc : document := ⟨ts, url, content⟩
  (infligt_erase d url, [event.infligt_erase url, event.write_document doc], doc)

/-- The filter loop of engine.cpp 202-205:
`for (it; accepted_by_filters && it != end; ++it) accepted_by_filters &= (*it)(reply)`. -/
def filter_loop (reply : network_reply) :
    List filter_functor → Nat → Bool → Bool × List event
  | [], _, accepted => (accepted, [])
  | f :: fs, i, accepted =>
    if accepted then
      let r := f reply
      let rest := filter_loop reply fs (i + 1) (accepted && r)
      (rest.1, event.filter_call i r :: rest.2)
    else (accepted, [])

/-- The url-filter loop of engine.cpp 249-252. -/
def url_filter_loop (reply : network_reply) (url : String) :
    List url_filter_functor → Nat → Bool → Bool × List event
  | [], _, ok => (ok, [])
  | f :: fs, j, ok =>
    if ok then
      let r := f reply url
      let rest := url_filter_loop reply url fs (j + 1) (ok && r)
      (rest.1, event.url_filter_call j url r :: rest.2)
    else (ok, [])

/-- The processor loops of engine.cpp 220-221 and 264-265; a throwing
processor ends the loop with its exception. -/
def run_processors (reply : network_reply) (tag : document_type) :
    List process_functor → Nat → List event × Option String
  | [], _ => ([], none)
  | p :: ps, i =>
    match p reply tag with
    | Except.error e => ([event.processor_call i tag], some e)
    | Except.ok _ =>
      let rest := run_processors reply tag ps (i + 1)
      (event.processor_call i tag :: rest.1, rest.2)

/-- The fallback-processor loop of engine.cpp 271-272. -/
def run_fallback_processors (reply : network_reply) :
    List process_functor → Nat → List event × Option String
  | [], _ => ([], none)
  | p :: ps, i =>
    match p reply document_type.document_new with
    | Except.error e => ([event.fallback_processor_call i document_type.document_new], some e)
    | Except.ok _ =>
      let rest := run_fallback_processors reply ps (i + 1)
      (event.fallback_processor_call i document_type.document_new :: rest.1, rest.2)

/-- The parser loop of engine.cpp 225-228: the outputs are appended in
registration order. -/
def run_parsers (reply : network_reply) :
    List parser_functor → Nat → List String × List event
  | [], _ => ([], [])
  | p :: ps, i =>
    let rest := run_parsers reply ps (i + 1)
    (p reply ++ rest.1, event.parser_call i :: rest.2)

/-- The body of the candidate loop, engine.cpp 237-268, for the candidate `url`. -/
def process_candidate (env : engine_env) (reply : network_reply) (d : engine_data)
    (url : String) : outcome :=
  let request_url := (env.net.relative reply.url url).1
  let host := (env.net.relative reply.url url).2
  if compare_ne request_url 6 "https:" && compare_ne request_url 5 "http:" then
    ⟨d, [], none⟩
  else if request_url.data.isEmpty || host.data.isEmpty || request_url == reply.url then
    ⟨d, [], none⟩
  else
    let uf := url_filter_loop reply url env.url_filters 0 true
    if uf.1 then
      let ins := inflight_insert d request_url
      if !ins.1 then
        ⟨ins.2, uf.2 ++ [event.inflight_insert request_url false], none⟩
      else if env.storage.read_data_error request_url then
        ⟨ins.2, uf.2 ++ [event.inflight_insert request_url true, event.read_data request_url,
            event.cout_page_cache request_url] ++ download request_url, none⟩
      else
        let pr := run_processors reply document_type.document_cache env.processors 0
        match pr.2 with
        | some e =>
          ⟨ins.2, uf.2 ++ [event.inflight_insert request_url true, event.read_data request_url]
            ++ pr.1, some e⟩
        | none =>
          ⟨infligt_erase ins.2 request_url,
            uf.2 ++ [event.inflight_insert request_url true, event.read_data request_url]
            ++ pr.1 ++ [event.infligt_erase request_url], none⟩
    else ⟨d, uf.2, none⟩

/-- The candidate loop of engine.cpp 236-269. -/
def candidate_loop (env : engine_env) (reply : network_reply) :
    engine_data → List String → outcome
  | d, [] => ⟨d, [], none⟩
  | d, url :: urls =>
    let o := process_candidate env reply d url
    match o.raised with
    | some e => ⟨o.data, o.trace, some e⟩
    | none =>
      let rest := candidate_loop env reply o.data urls
      ⟨rest.data, o.trace ++ rest.trace, rest.raised⟩

/-- The join of engine.cpp 275-280 over the pending writes. -/
def join_writes (env : engine_env) (reply : network_reply) : List document → List event
  | [] => []
  | w :: ws =>
    (if env.storage.write_document_error w then
      [event.wait_write w, event.cout_storage_error reply.request_url]
    else [event.wait_write w]) ++ join_writes env reply ws

/-- The accepted branch (engine.cpp 220-269) and the rejected branch (271-272). -/
def run_hooks (env : engine_env) (reply : network_reply) (d : engine_data)
    (accepted_by_filters : Bool) : outcome :=
  if accepted_by_filters then
    let pr := run_processors reply document_type.document_new env.processors 0
    match pr.2 with
    | some e => ⟨d, pr.1, some e⟩
    | none =>
      let ps := run_parsers reply env.parsers 0
      let urls := sort_unique ps.1
      let lp := candidate_loop env reply d urls
      ⟨lp.data, pr.1 ++ ps.2 ++ lp.trace, lp.raised⟩
  else
    let fb := run_fallback_processors reply env.fallback_processors 0
    ⟨d, fb.1, fb.2⟩

/-- Source: `engine_data::process_url`, engine.cpp 186-281. -/
def process_url (env : engine_env) (d : engine_data) (reply : network_reply) : outcome :=
  if reply.error ≠ 0 then
    ⟨d, [event.cout_error reply.url reply.error], none⟩
  else
    let fl := filter_loop reply env.filters 0 true
    let d1 : engine_data := ⟨d.inflight, atomic_long_increment d.total⟩
    let ts := env.dnet_current_time
    let s1 := store_document d1 reply.url reply.data ts
    let s2 : engine_data × List event × List document :=
      if reply.url ≠ reply.request_url then
        let s := store_document s1.1 reply.request_url reply.url ts
        (s.1, s.2.1, [s.2.2])
      else (s1.1, [], [])
    let res := s1.2.2 :: s2.2.2
    let hk := run_hooks env reply s2.1 fl.1
    let head := [event.cout_processing reply.request_url reply.url d.total] ++ fl.2
      ++ s1.2.1 ++ s2.2.1 ++ hk.trace
    match hk.raised with
    | some e => ⟨hk.data, head, some e⟩
    | none => ⟨hk.data, head ++ join_writes env reply res, none⟩

end engine_data

/-! ## url.hpp: class url_processor -/

/-- The mutable members of `url_processor`: `m_inflight` and `m_total`. -/
structure url_processor_data where
  m_inflight : Finset String
  m_total : Int

instance : DecidableEq url_processor_data := fun a b =>
  decidable_of_iff (a.m_inflight = b.m_inflight ∧ a.m_total = b.m_total)
    (by cases a; cases b; simp)

/-- The configuration and collaborators of `url_processor`: `m_base`,
`m_recursion`, `m_st`, the behaviour of `swarm::network_url`, of libmagic
(`magic_buffer`, `none` for a null pointer) and of `wookie::parser`
(`urls()` and `text()` after `parse(data)`), and the clock. -/
structure url_processor_env where
  m_base : String
  m_recursion : recursion
  m_st : storage
  net : network_url
  magic_buffer : String → Option String
  parser_urls : String → List String
  parser_text : String → String
  dnet_current_time : dnet_time

/-- What a `url_processor` handler did. -/
structure url_outcome where
  data : url_processor_data
  trace : List event
  raised : Option String

namespace url_processor

/-- Source: `url_processor::inflight_insert`, url.hpp 96-106. -/
def inflight_insert (d : url_processor_data) (url : String) : Bool × url_processor_data :=
  if url ∈ d.m_inflight then (false, d)
  else (true, ⟨insert url d.m_inflight, d.m_total⟩)

/-- Source: `url_processor::infligt_erase`, url.hpp 108-114. -/
def infligt_erase (d : url_processor_data) (url : String) : url_processor_data :=
  if url ∈ d.m_inflight then ⟨d.m_inflight.erase url, d.m_total⟩ else d

/-- Source: `url_processor::download`, url.hpp 91-94. -/
def download (url : String) : List event :=
  [event.cout_downloading url, event.feed url]

/-- Source: `url_processor::store_document`, url.hpp 116-125. -/
def store_document (d : url_processor_data) (url content : String) (ts : dnet_time) :
    url_processor_data × List event × document :=
  let doc : document := ⟨ts, url, content⟩
  (infligt_erase d url, [event.infligt_erase url, event.write_document doc], doc)

/-- Source: `magic::type` and `magic::is_text`, url.hpp 38-49. -/
def is_text (env : url_processor_env) (data : String) : Bool :=
  strncmp_text ((env.magic_buffer data).getD "none")

/-- The body of the candidate loop of `process_text`, url.hpp 151-173. -/
def process_candidate (env : url_processor_env) (reply : network_reply)
    (d : url_processor_data) (url : String) : url_processor_data × List event :=
  let request_url := (env.net.relative reply.url url).1
  let host := (env.net.relative reply.url url).2
  if compare_ne request_url 6 "https:" && compare_ne request_url 5 "http:" then (d, [])
  else if request_url.data.isEmpty || host.data.isEmpty || request_url == reply.url then (d, [])
  else if env.m_recursion == recursion.within_domain && host != env.m_base then (d, [])
  else
    let ins := inflight_insert d request_url
    if !ins.1 then (ins.2, [event.inflight_insert request_url false])
    else if env.m_st.read_data_error request_url then
      (ins.2, [event.inflight_insert request_url true, event.read_data request_url,
        event.cout_page_cache request_url] ++ download request_url)
    else
      (infligt_erase ins.2 request_url,
        [event.inflight_insert request_url true, event.read_data request_url,
          event.infligt_erase request_url])

/-- The candidate loop of `process_text`, url.hpp 150-174. -/
def candidate_loop (env : url_processor_env) (reply : network_reply) :
    url_processor_data → List String → url_processor_data × List event
  | d, [] => (d, [])
  | d, url :: urls =>
    let o := process_candidate env reply d url
    let rest := candidate_loop env reply o.1 urls
    (rest.1, o.2 ++ rest.2)

/-- Source: `url_processor::process_text`, url.hpp 127-176. -/
def process_text (env : url_processor_env) (d : url_processor_data) (reply : network_reply)
    (ts : dnet_time) : url_outcome :=
  let collection := env.m_base ++ ".collection"
  let text := env.parser_text reply.data
  let idx : List event :=
    [event.parse reply.data, event.storage_process reply.url text ts collection] ++
    (match env.m_st.process_raises reply.url text ts collection with
      | some _ => event.cerr_index_exception reply.url :: download reply.request_url
      | none => [])
  if env.m_recursion == recursion.none then ⟨d, idx, none⟩
  else if !env.net.set_base reply.url then
    ⟨d, idx, some "Could not set network-url-base for orig URL"⟩
  else
    let lp := candidate_loop env reply d (env.parser_urls reply.data)
    ⟨lp.1, idx ++ lp.2, none⟩

/-- The header scan of `process_url`, url.hpp 193-207: the value of the first
header named `Content-Type`, if any. -/
def content_type : List (String × String) → Option String
  | [] => none
  | h :: hs => if h.1 == "Content-Type" then some h.2 else content_type hs

/-- The join of url.hpp 226-231 over the pending writes. -/
def join_writes (env : url_processor_env) (reply : network_reply) : List document → List event
  | [] => []
  | w :: ws =>
    (if env.m_st.write_document_error w then
      [event.wait_write w, event.cout_storage_error reply.request_url]
    else [event.wait_write w]) ++ join_writes env reply ws

/-- Source: `url_processor::process_url`, url.hpp 178-232. -/
def process_url (env : url_processor_env) (d : url_processor_data) (reply : network_reply) :
    url_outcome :=
  if reply.error ≠ 0 then
    ⟨d, [event.cout_error reply.url reply.error], none⟩
  else
    let cls : Bool × List event :=
      match content_type reply.headers with
      | some v => (strncmp_text v, [event.cout_content_type v])
      | none => (is_text env reply.data, [event.magic_buffer reply.data])
    let d1 : url_processor_data := ⟨d.m_inflight, atomic_long_increment d.m_total⟩
    let ts := env.dnet_current_time
    let s1 := store_document d1 reply.url reply.data ts
    let s2 : url_processor_data × List event × List document :=
      if reply.url ≠ reply.request_url then
        let s := store_document s1.1 reply.request_url reply.url ts
        (s.1, s.2.1, [s.2.2])
      else (s1.1, [], [])
    let res := s1.2.2 :: s2.2.2
    let collection := env.m_base ++ ".collection"
    let body : url_outcome :=
      if cls.1 then process_text env s2.1 reply ts
      else
        ⟨s2.1, [event.storage_process reply.url "" ts collection],
          env.m_st.process_raises reply.url "" ts collection⟩
    let head := [event.cout_processing reply.request_url reply.url d.m_total] ++ cls.2
      ++ s1.2.1 ++ s2.2.1 ++ body.trace
    match body.raised with
    | some e => ⟨body.data, head, some e⟩
    | none => ⟨body.data, head ++ join_writes env reply res, none⟩

/-- Source: the constructor `url_processor::url_processor`, url.hpp 57-73: the
base host and the first download, or the configuration error thrown. -/
def create (net : network_url) (url : String) : Except String (String × List event) :=
  if !net.set_base url then Except.error "set-base failed"
  else if (net.host url).data.isEmpty then Except.error "base is empty"
  else Except.ok (net.host url, download url)

end url_processor

/-! ## engine.cpp: create_domain_filter -/

/-- Source: `create_domain_filter::filter::check`, engine.cpp 94-102. -/
def domain_filter_check (net : network_url) (base_host : String) : url_filter_functor :=
  fun reply url => (net.relative reply.url url).2 == base_host

/-- Source: `create_domain_filter`, engine.cpp 76-105: the constructor throws
when `set_base` fails or the host of `url` is empty. -/
def create_domain_filter (net : network_url) (url : String) : Except String url_filter_functor :=
  if !net.set_base url then Except.error "set-base failed"
  else if (net.host url).data.isEmpty then Except.error "base is empty"
  else Except.ok (domain_filter_check net (net.host url))

/-! ## Histories of the inflight set -/

/-- A call on the inflight set. -/
inductive inflight_call where
  | insert (url : String)
  | erase (url : String)
deriving DecidableEq, Repr

namespace engine_data

/-- Runs a sequence of calls; an `inflight_insert` answers `some b`. -/
def run_calls : engine_data → List inflight_call → List (Option Bool) × engine_data
  | d, [] => ([], d)
  | d, inflight_call.insert u :: cs =>
    let r := inflight_insert d u
    let rest := run_calls r.2 cs
    (some r.1 :: rest.1, rest.2)
  | d, inflight_call.erase u :: cs =>
    let rest := run_calls (infligt_erase d u) cs
    (none :: rest.1, rest.2)

end engine_data

namespace url_processor

/-- Runs a sequence of calls; an `inflight_insert` answers `some b`. -/
def run_calls : url_processor_data → List inflight_call → List (Option Bool) × url_processor_data
  | d, [] => ([], d)
  | d, inflight_call.insert u :: cs =>
    let r := inflight_insert d u
    let rest := run_calls r.2 cs
    (some r.1 :: rest.1, rest.2)
  | d, inflight_call.erase u :: cs =>
    let rest := run_calls (infligt_erase d u) cs
    (none :: rest.1, rest.2)

end url_processor

/-! ## Projections of the actions -/

/-- The url of a `downloader->feed` call. -/
def event.fed : event → Option String
  | event.feed u => some u
  | _ => none

/-- The document of a `write_document` call. -/
def event.written : event → Option document
  | event.write_document d => some d
  | _ => none

/-- The index and result of a filter call. -/
def event.filtered : event → Option (Nat × Bool)
  | event.filter_call i r => some (i, r)
  | _ => none

/-- The urls handed to `downloader->feed`, in order. -/
def fetches (t : List event) : List String :=
  t.filterMap event.fed

/-- The documents handed to `write_document`, in order. -/
def writes (t : List event) : List document :=
  t.filterMap event.written

/-- The filter calls made, in order. -/
def filter_calls (t : List event) : List (Nat × Bool) :=
  t.filterMap event.filtered

/-- The pending writes of the persist step (engine.cpp 213-217, url.hpp
215-217): the body under the final url and, for a redirect, the final url
under the requested url, with one time stamp. -/
def pending_writes (ts : dnet_time) (reply : network_reply) : List document :=
  ⟨ts, reply.url, reply.data⟩ ::
    (if reply.url ≠ reply.request_url then [⟨ts, reply.request_url, reply.url⟩] else [])

/-- The actions of the persist step, in order. -/
def persist_events (ts : dnet_time) (reply : network_reply) : List event :=
  [event.infligt_erase reply.url, event.write_document ⟨ts, reply.url, reply.data⟩] ++
    (if reply.url ≠ reply.request_url then
      [event.infligt_erase reply.request_url,
        event.write_document ⟨ts, reply.request_url, reply.url⟩]
    else [])

/-- The members of `engine_data` after `++total` and the persist step. -/
def engine_data.after_persist (d : engine_data) (reply : network_reply) : engine_data :=
  if reply.url ≠ reply.request_url then
    engine_data.infligt_erase
      (engine_data.infligt_erase ⟨d.inflight, atomic_long_increment d.total⟩ reply.url)
      reply.request_url
  else engine_data.infligt_erase ⟨d.inflight, atomic_long_increment d.total⟩ reply.url

/-- The members of `url_processor` after `++m_total` and the persist step. -/
def url_processor.after_persist (d : url_processor_data) (reply : network_reply) :
    url_processor_data :=
  if reply.url ≠ reply.request_url then
    url_processor.infligt_erase
      (url_processor.infligt_erase ⟨d.m_inflight, atomic_long_increment d.m_total⟩ reply.url)
      reply.request_url
  else url_processor.infligt_erase ⟨d.m_inflight, atomic_long_increment d.m_total⟩ reply.url

/-- The classification of url.hpp 193-207 with its action. -/
def url_processor.classify (env : url_processor_env) (reply : network_reply) :
    Bool × List event :=
  match url_processor.content_type reply.headers with
  | some v => (strncmp_text v, [event.cout_content_type v])
  | none => (url_processor.is_text env reply.data, [event.magic_buffer reply.data])

/-- The branch of url.hpp 219-224 on the classification. -/
def url_processor.run_body (env : url_processor_env) (d : url_processor_data)
    (reply : network_reply) (text : Bool) : url_outcome :=
  if text then url_processor.process_text env d reply env.dnet_current_time
  else
    ⟨d, [event.storage_process reply.url "" env.dnet_current_time (env.m_base ++ ".collection")],
      env.m_st.process_raises reply.url "" env.dnet_current_time (env.m_base ++ ".collection")⟩

/-- The calls a short-circuiting conjunction makes on the filters from index
`i` on: each filter is asked only when all filters before it accepted. -/
def short_circuit_calls (reply : network_reply) : List filter_functor → Nat → List (Nat × Bool)
  | [], _ => []
  | f :: fs, i => (i, f reply) :: (if f reply then short_circuit_calls reply fs (i + 1) else [])

/-! ## Sample collaborators for concrete runs -/

/-- The host of an absolute url `scheme://host/path`; empty when there is no
`//`. -/
def sample_host (u : String) : String :=
  String.mk (((u.data.dropWhile (fun c => c != '/')).drop 2).takeWhile (fun c => c != '/'))

/-- A resolver for absolute urls: a candidate resolves to itself. -/
def sample_net : network_url :=
  ⟨fun u => !(sample_host u).data.isEmpty, sample_host, fun _ u => (u, sample_host u)⟩

/-- A store that holds a record for `http://example.com/cached` only and whose
writes succeed. -/
def sample_storage : storage :=
  ⟨fun u => u != "http://example.com/cached", fun _ => false, fun _ _ _ _ => none⟩

/-- The lines of a text, for the sample link extractor (one url a line). -/
def sample_lines : List Char → List Char → List String
  | acc, [] => [String.mk acc.reverse]
  | acc, c :: cs =>
    if c = '\n' then String.mk acc.reverse :: sample_lines [] cs
    else sample_lines (c :: acc) cs

/-- A processor that returns normally. -/
def sample_processor : process_functor :=
  fun _ _ => Except.ok ()

/-- A processor that throws when handed a cached document. -/
def failing_processor : process_functor :=
  fun _ tag =>
    match tag with
    | document_type.document_cache => Except.error "processor failed"
    | document_type.document_new => Except.ok ()

/-- An engine with one parser, which returns the lines of the body, no
filters, and one processor. -/
def sample_env : engine_env :=
  ⟨[fun reply => sample_lines [] reply.data.data], [], [], [sample_processor], [],
    sample_storage, sample_net, ⟨1000, 0⟩⟩

/-- A `url_processor` for `example.com` whose parser returns the lines of the
body. -/
def sample_url_env (rec : recursion) : url_processor_env :=
  ⟨"example.com", rec, sample_storage, sample_net, fun _ => some "text/html",
    fun data => sample_lines [] data.data, fun data => data, ⟨1000, 0⟩⟩

/-- An error-free reply: `request_url` answered from `url` with body `data`. -/
def sample_reply (request_url url data : String) : network_reply :=
  ⟨request_url, url, data, [], 0⟩

/-- The sample engine with three filters: the first accepts, the second
rejects replies with an empty body, the third accepts. -/
def sample_filter_env : engine_env :=
  ⟨sample_env.parsers, [fun _ => true, fun reply => !reply.data.data.isEmpty, fun _ => true],
    [], [sample_processor], [sample_processor], sample_storage, sample_net, ⟨1000, 0⟩⟩

/-- The sample engine with the failing processor in place of the sample one. -/
def failing_env : engine_env :=
  ⟨sample_env.parsers, [], [], [failing_processor], [], sample_storage, sample_net, ⟨1000, 0⟩⟩

/-- The index of a processor call with the `document_new` tag. -/
def event.processed_new : event → Option Nat
  | event.processor_call i document_type.document_new => some i
  | _ => none

/-- The index and tag of a fallback-processor call. -/
def event.fell_back : event → Option (Nat × document_type)
  | event.fallback_processor_call i tag => some (i, tag)
  | _ => none

/-- The processors called with the `document_new` tag, in order. -/
def new_processor_calls (t : List event) : List Nat :=
  t.filterMap event.processed_new

/-- The fallback-processor calls made, in order. -/
def fallback_calls (t : List event) : List (Nat × document_type) :=
  t.filterMap event.fell_back

/-! ## engine.cpp: magic_data and create_text_filter; similarity.hpp: document_parser::feed -/

/-- Source: `magic_data::type`, engine.cpp 28-35 (`magic::type`, url.hpp 38-45):
libmagic is handed the first `size` characters of `buffer`; a null result reads
`none`.  The parameter `magic_buffer` is libmagic, `none` its null pointer. -/
def magic_data.type (magic_buffer : String → Option String) (buffer : String) (size : Nat) :
    String :=
  match magic_buffer (String.mk (buffer.data.take size)) with
  | some ret => ret
  | none => "none"

/-- Source: `magic_data::is_text`, engine.cpp 37-39 (`magic::is_text`, url.hpp 47-49). -/
def magic_data.is_text (magic_buffer : String → Option String) (buffer : String) (size : Nat) :
    Bool :=
  strncmp_text (magic_data.type magic_buffer buffer size)

/-- The header loop of `create_text_filter::filter::check`, engine.cpp 55-63: the
value of the first header named `Content-Type`, if any. -/
def text_filter_scan : List (String × String) → Option String
  | [] => none
  | h :: hs => if h.1 == "Content-Type" then some h.2 else text_filter_scan hs

/-- Source: `create_text_filter::filter::check`, engine.cpp 51-70: the result,
and the log line or the call of libmagic. -/
def text_filter_check (magic_buffer : String → Option String) (reply : network_reply) :
    Bool × List event :=
  match text_filter_scan reply.headers with
  | some v => (strncmp_text v, [event.cout_content_type v])
  | none =>
    (magic_data.is_text magic_buffer reply.data reply.data.data.length,
      [event.magic_buffer (String.mk (reply.data.data.take reply.data.data.length))])

/-- Source: `create_text_filter`, engine.cpp 45-74. -/
def create_text_filter (magic_buffer : String → Option String) : filter_functor :=
  fun reply => (text_filter_check magic_buffer reply).1

/-- The classification of `document_parser::feed`, similarity.hpp 98-99:
`m_magic.is_text(text.c_str(), std::min<int>(text.size(), 1024))`. -/
def document_parser_is_text (magic_buffer : String → Option String) (text : String) : Bool :=
  magic_data.is_text magic_buffer text (min text.data.length 1024)

/-- A libmagic that calls a buffer text when it is at most 1024 characters
long, and reports nothing otherwise. -/
def short_is_text_magic : String → Option String :=
  fun buffer => if buffer.data.length ≤ 1024 then some "text/plain" else none

/-- A libmagic that reports every buffer as binary. -/
def binary_magic : String → Option String :=
  fun _ => some "application/octet-stream"

/-- The document of a wait on a pending write. -/
def event.waited : event → Option document
  | event.wait_write d => some d
  | _ => none

/-- The pending writes waited on, in order. -/
def waits (t : List event) : List document :=
  t.filterMap event.waited

/-- Whether the action is a call of a processor, fallback-processor, parser or
url-filter. -/
def event.is_hook_call : event → Bool
  | event.processor_call _ _ => true
  | event.fallback_processor_call _ _ => true
  | event.parser_call _ => true
  | event.url_filter_call _ _ _ => true
  | _ => false

/-- Whether the action is the log line for a failed write. -/
def event.is_storage_error_log : event → Bool
  | event.cout_storage_error _ => true
  | _ => false

/-- The engine `env` with a store whose writes fail as `write_error` says. -/
def engine_env.with_write_error (env : engine_env) (write_error : document → Bool) :
    engine_env :=
  ⟨env.parsers, env.filters, env.url_filters, env.processors, env.fallback_processors,
    ⟨env.storage.read_data_error, write_error, env.storage.process_raises⟩, env.net,
    env.dnet_current_time⟩

/-- The sample engine with a store whose writes all fail. -/
def failing_write_env : engine_env :=
  sample_env.with_write_error (fun _ => true)

/-- The C locale's `isspace`. -/
def isspace (c : Char) : Bool :=
  c = ' ' || c = '\t' || c = '\n' || c = '\x0b' || c = '\x0c' || c = '\r'

/-- The strings an `std::istream_iterator<std::string>` yields: the maximal
runs of non-whitespace characters, in order (`acc` is the run being read,
reversed). -/
def istream_tokens : List Char → List Char → List String
  | acc, [] => if acc.isEmpty then [] else [String.mk acc.reverse]
  | acc, c :: cs =>
    if isspace c then
      if acc.isEmpty then istream_tokens [] cs
      else String.mk acc.reverse :: istream_tokens [] cs
    else istream_tokens (c :: acc) cs

/-- The digits loop of `atoi`: it stops at the first character that is no
digit. -/
def atoi_digits : Int → List Char → Int
  | acc, [] => acc
  | acc, c :: cs =>
    if c.isDigit then atoi_digits (acc * 10 + ((c.toNat : Int) - 48)) cs else acc

/-- The C function `atoi`: leading whitespace, an optional sign, then digits;
0 when there is no digit.  (A value out of the range of `int` is undefined
behaviour and is not modelled.) -/
def atoi (s : String) : Int :=
  match s.data.dropWhile isspace with
  | '-' :: rest => - atoi_digits 0 rest
  | '+' :: rest => atoi_digits 0 rest
  | rest => atoi_digits 0 rest

/-- The call `boost::split(gr, s, boost::is_any_of(":"))`: the pieces between
the colons, empty ones included (`acc` is the piece being read, reversed). -/
def boost_split_colon : List Char → List Char → List String
  | acc, [] => [String.mk acc.reverse]
  | acc, c :: cs =>
    if c = ':' then String.mk acc.reverse :: boost_split_colon [] cs
    else boost_split_colon (c :: acc) cs

/-- Source: `engine::parse_command_line`, engine.cpp 345 and 376-388: the
groups handed to `set_groups` at line 405; the default is 1, 2, 3. -/
def parse_command_line_groups (group_string : String) : List Int :=
  if group_string.data.length ≠ 0 then (istream_tokens [] group_string.data).map atoi
  else [1, 2, 3]

/-- Source: the constructor `loader::loader`, elliptics_parse_docs.cpp 22-31:
the groups `m_groups`. -/
def loader_groups (group_string : String) : List Int :=
  (boost_split_colon [] group_string.data).map atoi

/-! ## Candidate merging -/

/-- The value of a `msgpack::object` (msgpack.hpp): its type tag with the
member of the union the tag selects.  `DOUBLE` and `MAP` objects, which the
code of this file neither writes nor accepts, are left out. -/
inductive msgpack_object where
  | NIL
  | BOOLEAN (b : Bool)
  | POSITIVE_INTEGER (u64 : Nat)
  | NEGATIVE_INTEGER (i64 : Int)
  | RAW (bytes : String)
  | ARRAY (items : List msgpack_object)
deriving Repr

/-- One item of the buffer a `msgpack::packer` writes: a scalar, a raw header
with the body that follows it, or an array header.  The size in a header is the
32 bit number the format has room for. -/
inductive msgpack_token where
  | nil
  | boolean (b : Bool)
  | uint (v : Nat)
  | int (v : Int)
  | raw (size : Nat) (body : String)
  | array (size : Nat)
deriving DecidableEq, Repr

/-- The record `wookie::index_data`: time stamp, token name and the positions
of the token in the document (a `std::vector<int>`). -/
structure index_data where
  ts : dnet_time
  key : String
  pos : List Int
deriving DecidableEq, Repr

/-- The constant `index_data::version`. -/
def index_data.version : Int := 2

/-- The msgpack adaptors of `dnet_time`, which `wookie/document.hpp` declares:
`pack ts` is the object that the items written by `o.pack(ts)` make up, and
`convert o` is the outcome of `o.convert(&ts)`. -/
structure dnet_time_adaptor where
  pack : dnet_time → msgpack_object
  convert : msgpack_object → Except String dnet_time

namespace msgpack

/-- The call `packer::pack_array(n)`: the header keeps 32 bit of the size. -/
def pack_array (n : Nat) : List msgpack_token :=
  [msgpack_token.array (n % 2 ^ 32)]

/-- The call `packer::pack(int)` (and `pack_int64`): a value that is not
negative is written in an unsigned format. -/
def pack_int (d : Int) : List msgpack_token :=
  if 0 ≤ d then [msgpack_token.uint d.toNat] else [msgpack_token.int d]

/-- The call `packer::pack(const std::string &)`: `pack_raw(size)`, whose header
keeps 32 bit of the size, then `pack_raw_body`. -/
def pack_string (v : String) : List msgpack_token :=
  [msgpack_token.raw (v.length % 2 ^ 32) v]

/-- The call `packer::pack(const std::vector<int> &)`: `pack_array(size)`, then
every element. -/
def pack_vector_int (v : List Int) : List msgpack_token :=
  pack_array v.length ++ v.flatMap pack_int

mutual
/-- The call `packer::pack(const msgpack::object &)`. -/
def pack_object : msgpack_object → List msgpack_token
  | msgpack_object.NIL => [msgpack_token.nil]
  | msgpack_object.BOOLEAN b => [msgpack_token.boolean b]
  | msgpack_object.POSITIVE_INTEGER v => [msgpack_token.uint v]
  | msgpack_object.NEGATIVE_INTEGER v => pack_int v
  | msgpack_object.RAW s => pack_string s
  | msgpack_object.ARRAY items => pack_array items.length ++ pack_objects items
/-- The items of an array, one after the other. -/
def pack_objects : List msgpack_object → List msgpack_token
  | [] => []
  | o :: os => pack_object o ++ pack_objects os
end

/-- The object of an item that is complete in itself: a scalar, a raw, an
empty array.  A raw header that does not cover its body is a parse error
(`none`), the stream after it being out of step; the header of an array that
has items is no object yet. -/
def unpack_scalar : msgpack_token → Option msgpack_object
  | msgpack_token.nil => some msgpack_object.NIL
  | msgpack_token.boolean b => some (msgpack_object.BOOLEAN b)
  | msgpack_token.uint v => some (msgpack_object.POSITIVE_INTEGER v)
  | msgpack_token.int v =>
    some (if 0 ≤ v then msgpack_object.POSITIVE_INTEGER v.toNat
      else msgpack_object.NEGATIVE_INTEGER v)
  | msgpack_token.raw size body =>
    if size = body.length then some (msgpack_object.RAW body) else none
  | msgpack_token.array 0 => some (msgpack_object.ARRAY [])
  | msgpack_token.array (_ + 1) => none

/-- The unpacker hands a finished object to the array it is filling: the stack
holds, innermost first, the arrays begun, each with the number of items still
to come and the items read, last first.  An array that is complete is handed on
in turn; `Sum.inl` is the finished outermost object. -/
def unpack_push : msgpack_object → List (Nat × List msgpack_object) →
    msgpack_object ⊕ List (Nat × List msgpack_object)
  | o, [] => Sum.inl o
  | o, (n, acc) :: stack =>
    if n ≤ 1 then unpack_push (msgpack_object.ARRAY (acc.reverse ++ [o])) stack
    else Sum.inr ((n - 1, o :: acc) :: stack)

/-- The loop of the unpacker over the buffer: it stops at the end of the first
object, whatever follows. -/
def unpack_execute : List (Nat × List msgpack_object) → List msgpack_token →
    Except String msgpack_object
  | _, [] => Except.error "insufficient bytes"
  | stack, t :: ts =>
    match t with
    | msgpack_token.array (n + 1) => unpack_execute ((n + 1, []) :: stack) ts
    | _ =>
      match unpack_scalar t with
      | none => Except.error "parse error"
      | some o =>
        match unpack_push o stack with
        | Sum.inl r => Except.ok r
        | Sum.inr rest => unpack_execute rest ts

/-- The call `msgpack::unpack(&msg, data, size)` with `msg.get()`. -/
def unpack (buffer : List msgpack_token) : Except String msgpack_object :=
  unpack_execute [] buffer

/-- The call `object::convert(int *)`: a value outside the range of `int`
throws `type_error`. -/
def convert_int : msgpack_object → Except String Int
  | msgpack_object.POSITIVE_INTEGER u64 =>
    if u64 > 2 ^ 31 - 1 then Except.error "type_error" else Except.ok u64
  | msgpack_object.NEGATIVE_INTEGER i64 =>
    if i64 < -2 ^ 31 then Except.error "type_error"
    else Except.ok ((i64 + 2 ^ 31) % 2 ^ 32 - 2 ^ 31)
  | _ => Except.error "type_error"

/-- The call `object::convert(std::string *)`. -/
def convert_string : msgpack_object → Except String String
  | msgpack_object.RAW bytes => Except.ok bytes
  | _ => Except.error "type_error"

/-- The element loop of `object::convert(std::vector<int> *)`. -/
def convert_items : List msgpack_object → Except String (List Int)
  | [] => Except.ok []
  | p :: ps =>
    match convert_int p with
    | Except.error e => Except.error e
    | Except.ok v =>
      match convert_items ps with
      | Except.error e => Except.error e
      | Except.ok vs => Except.ok (v :: vs)

/-- The call `object::convert(std::vector<int> *)`. -/
def convert_vector_int : msgpack_object → Except String (List Int)
  | msgpack_object.ARRAY items => convert_items items
  | _ => Except.error "type_error"

/-- Source: `msgpack::operator <<` for `index_data`, index_data.hpp 98-108. -/
def pack_index_data (a : dnet_time_adaptor) (d : index_data) : List msgpack_token :=
  pack_array 4 ++ pack_int index_data.version ++ pack_object (a.pack d.ts) ++
    pack_vector_int d.pos ++ pack_string d.key

/-- Source: `msgpack::operator >>` for `index_data`, index_data.hpp 76-96. -/
def convert_index_data (a : dnet_time_adaptor) (o : msgpack_object) :
    Except String index_data :=
  match o with
  | msgpack_object.ARRAY [p0, p1, p2, p3] =>
    match convert_int p0 with
    | Except.error e => Except.error e
    | Except.ok version =>
      if version ≠ index_data.version then
        Except.error "msgpack: index data version mismatch"
      else
        match a.convert p1 with
        | Except.error e => Except.error e
        | Except.ok ts =>
          match convert_vector_int p2 with
          | Except.error e => Except.error e
          | Except.ok pos =>
            match convert_string p3 with
            | Except.error e => Except.error e
            | Except.ok key => Except.ok ⟨ts, key, pos⟩
  | _ => Except.error "msgpack: index data array size mismatch"

end msgpack

/-- Source: `index_data::convert()`, index_data.hpp 52-57: the buffer that
`msgpack::pack` fills. -/
def index_data.convert (a : dnet_time_adaptor) (d : index_data) : List msgpack_token :=
  msgpack.pack_index_data a d

/-- Source: the constructor `index_data(const elliptics::data_pointer &)`,
index_data.hpp 46-50. -/
def index_data.unpack (a : dnet_time_adaptor) (buffer : List msgpack_token) :
    Except String index_data :=
  match msgpack.unpack buffer with
  | Except.error e => Except.error e
  | Except.ok o => msgpack.convert_index_data a o

mutual
/-- The ranges of the members of a `msgpack::object` the unpacker builds:
`u64` is a `uint64_t`, `i64` a negative `int64_t`, a size a `uint32_t`. -/
def msgpack_object.valid : msgpack_object → Bool
  | msgpack_object.NIL => true
  | msgpack_object.BOOLEAN _ => true
  | msgpack_object.POSITIVE_INTEGER u64 => decide (u64 < 2 ^ 64)
  | msgpack_object.NEGATIVE_INTEGER i64 => decide (-2 ^ 63 ≤ i64) && decide (i64 < 0)
  | msgpack_object.RAW bytes => decide (bytes.length < 2 ^ 32)
  | msgpack_object.ARRAY items => decide (items.length < 2 ^ 32) && msgpack_object.all_valid items
/-- Every object of the list is in range. -/
def msgpack_object.all_valid : List msgpack_object → Bool
  | [] => true
  | o :: os => msgpack_object.valid o && msgpack_object.all_valid os
end

/-- The object a packed `int` is unpacked to. -/
def msgpack.int_object (d : Int) : msgpack_object :=
  if 0 ≤ d then msgpack_object.POSITIVE_INTEGER d.toNat else msgpack_object.NEGATIVE_INTEGER d

/-- What the unpacker does with a finished object and the rest of the buffer. -/
def msgpack.unpack_feed (stack : List (Nat × List msgpack_object)) (o : msgpack_object)
    (ts : List msgpack_token) : Except String msgpack_object :=
  match msgpack.unpack_push o stack with
  | Sum.inl r => Except.ok r
  | Sum.inr rest => msgpack.unpack_execute rest ts

/-- Sample adaptors of `dnet_time`: an array of the seconds and the
nanoseconds. -/
def sample_adaptor : dnet_time_adaptor :=
  ⟨fun ts => msgpack_object.ARRAY
      [msgpack_object.POSITIVE_INTEGER ts.tsec, msgpack_object.POSITIVE_INTEGER ts.tnsec],
    fun o =>
      match o with
      | msgpack_object.ARRAY
          [msgpack_object.POSITIVE_INTEGER tsec, msgpack_object.POSITIVE_INTEGER tnsec] =>
        Except.ok ⟨tsec, tnsec⟩
      | _ => Except.error "type_error"⟩

/-- A sample record: a token found at three positions. -/
def sample_index_data : index_data :=
  ⟨⟨1000, 5⟩, "crawler", [0, 17, 42]⟩

/-! ## engine.cpp: `process_url` with hooks that may throw -/

/-- The registries of `engine_data` with every hook as the `std::function` it
is: a filter, a url-filter or a parser returns its result or throws, as a
processor does.  `engine_env` is the case in which filters, url-filters and
parsers return. -/
structure engine_hooks where
  parsers : List (network_reply → Except String (List String))
  filters : List (network_reply → Except String Bool)
  url_filters : List (network_reply → String → Except String Bool)
  processors : List process_functor
  fallback_processors : List process_functor
  storage : storage
  net : network_url
  dnet_current_time : dnet_time

/-- The registries of `engine_env` as hooks that never throw. -/
def engine_env.hooks (env : engine_env) : engine_hooks :=
  ⟨env.parsers.map (fun p => fun reply => Except.ok (p reply)),
    env.filters.map (fun f => fun reply => Except.ok (f reply)),
    env.url_filters.map (fun f => fun reply url => Except.ok (f reply url)),
    env.processors, env.fallback_processors, env.storage, env.net, env.dnet_current_time⟩

namespace engine_hooks

/-- The filter loop of engine.cpp 202-205; an exception of a filter leaves the
loop and `process_url`. -/
def filter_loop (reply : network_reply) :
    List (network_reply → Except String Bool) → Nat → Bool → Except String Bool × List event
  | [], _, accepted => (Except.ok accepted, [])
  | f :: fs, i, accepted =>
    if accepted then
      match f reply with
      | Except.error e => (Except.error e, [event.filter_throw i])
      | Except.ok r =>
        let rest := filter_loop reply fs (i + 1) (accepted && r)
        (rest.1, event.filter_call i r :: rest.2)
    else (Except.ok accepted, [])

/-- The url-filter loop of engine.cpp 249-252. -/
def url_filter_loop (reply : network_reply) (url : String) :
    List (network_reply → String → Except String Bool) → Nat → Bool →
      Except String Bool × List event
  | [], _, ok => (Except.ok ok, [])
  | f :: fs, j, ok =>
    if ok then
      match f reply url with
      | Except.error e => (Except.error e, [event.url_filter_throw j url])
      | Except.ok r =>
        let rest := url_filter_loop reply url fs (j + 1) (ok && r)
        (rest.1, event.url_filter_call j url r :: rest.2)
    else (Except.ok ok, [])

/-- The parser loop of engine.cpp 225-228. -/
def run_parsers (reply : network_reply) :
    List (network_reply → Except String (List String)) → Nat →
      Except String (List String) × List event
  | [], _ => (Except.ok [], [])
  | p :: ps, i =>
    match p reply with
    | Except.error e => (Except.error e, [event.parser_throw i])
    | Except.ok new_urls =>
      let rest := run_parsers reply ps (i + 1)
      (match rest.1 with
        | Except.error e => Except.error e
        | Except.ok urls => Except.ok (new_urls ++ urls),
        event.parser_call i :: rest.2)

/-- The body of the candidate loop, engine.cpp 237-268, for the candidate `url`. -/
def process_candidate (env : engine_hooks) (reply : network_reply) (d : engine_data)
    (url : String) : outcome :=
  let request_url := (env.net.relative reply.url url).1
  let host := (env.net.relative reply.url url).2
  if compare_ne request_url 6 "https:" && compare_ne request_url 5 "http:" then
    ⟨d, [], none⟩
  else if request_url.data.isEmpty || host.data.isEmpty || request_url == reply.url then
    ⟨d, [], none⟩
  else
    let uf := url_filter_loop reply url env.url_filters 0 true
    match uf.1 with
    | Except.error e => ⟨d, uf.2, some e⟩
    | Except.ok false => ⟨d, uf.2, none⟩
    | Except.ok true =>
      let ins := engine_data.inflight_insert d request_url
      if !ins.1 then
        ⟨ins.2, uf.2 ++ [event.inflight_insert request_url false], none⟩
      else if env.storage.read_data_error request_url then
        ⟨ins.2, uf.2 ++ [event.inflight_insert request_url true, event.read_data request_url,
            event.cout_page_cache request_url] ++ engine_data.download request_url, none⟩
      else
        let pr := engine_data.run_processors reply document_type.document_cache env.processors 0
        match pr.2 with
        | some e =>
          ⟨ins.2, uf.2 ++ [event.inflight_insert request_url true, event.read_data request_url]
            ++ pr.1, some e⟩
        | none =>
          ⟨engine_data.infligt_erase ins.2 request_url,
            uf.2 ++ [event.inflight_insert request_url true, event.read_data request_url]
            ++ pr.1 ++ [event.infligt_erase request_url], none⟩

/-- The candidate loop of engine.cpp 236-269. -/
def candidate_loop (env : engine_hooks) (reply : network_reply) :
    engine_data → List String → outcome
  | d, [] => ⟨d, [], none⟩
  | d, url :: urls =>
    let o := process_candidate env reply d url
    match o.raised with
    | some e => ⟨o.data, o.trace, some e⟩
    | none =>
      let rest := candidate_loop env reply o.data urls
      ⟨rest.data, o.trace ++ rest.trace, rest.raised⟩

/-- The join of engine.cpp 275-280 over the pending writes. -/
def join_writes (env : engine_hooks) (reply : network_reply) : List document → List event
  | [] => []
  | w :: ws =>
    (if env.storage.write_document_error w then
      [event.wait_write w, event.cout_storage_error reply.request_url]
    else [event.wait_write w]) ++ join_writes env reply ws

/-- The accepted branch (engine.cpp 220-269) and the rejected branch (271-272). -/
def run_hooks (env : engine_hooks) (reply : network_reply) (d : engine_data)
    (accepted_by_filters : Bool) : outcome :=
  if accepted_by_filters then
    let pr := engine_data.run_processors reply document_type.document_new env.processors 0
    match pr.2 with
    | some e => ⟨d, pr.1, some e⟩
    | none =>
      let ps := run_parsers reply env.parsers 0
      match ps.1 with
      | Except.error e => ⟨d, pr.1 ++ ps.2, some e⟩
      | Except.ok urls =>
        let lp := candidate_loop env reply d (sort_unique urls)
        ⟨lp.data, pr.1 ++ ps.2 ++ lp.trace, lp.raised⟩
  else
    let fb := engine_data.run_fallback_processors reply env.fallback_processors 0
    ⟨d, fb.1, fb.2⟩

/-- Source: `engine_data::process_url`, engine.cpp 186-281; there is no
`try` in it, so an exception of a hook leaves it at the call. -/
def process_url (env : engine_hooks) (d : engine_data) (reply : network_reply) : outcome :=
  if reply.error ≠ 0 then
    ⟨d, [event.cout_error reply.url reply.error], none⟩
  else
    let fl := filter_loop reply env.filters 0 true
    match fl.1 with
    | Except.error e =>
      ⟨d, [event.cout_processing reply.request_url reply.url d.total] ++ fl.2, some e⟩
    | Except.ok accepted_by_filters =>
      let d1 : engine_data := ⟨d.inflight, atomic_long_increment d.total⟩
      let ts := env.dnet_current_time
      let s1 := engine_data.store_document d1 reply.url reply.data ts
      let s2 : engine_data × List event × List document :=
        if reply.url ≠ reply.request_url then
          let s := engine_data.store_document s1.1 reply.request_url reply.url ts
          (s.1, s.2.1, [s.2.2])
        else (s1.1, [], [])
      let res := s1.2.2 :: s2.2.2
      let hk := run_hooks env reply s2.1 accepted_by_filters
      let head := [event.cout_processing reply.request_url reply.url d.total] ++ fl.2
        ++ s1.2.1 ++ s2.2.1 ++ hk.trace
      match hk.raised with
      | some e => ⟨hk.data, head, some e⟩
      | none => ⟨hk.data, head ++ join_writes env reply res, none⟩

end engine_hooks

/-- The number of processors a processor loop calls on `(reply, tag)`: those
before the first that throws, and that one. -/
def processors_invoked (reply : network_reply) (tag : document_type) :
    List process_functor → Nat
  | [] => 0
  | p :: ps =>
    match p reply tag with
    | Except.error _ => 1
    | Except.ok _ => processors_invoked reply tag ps + 1

/-- A processor that throws whatever it is handed. -/
def throwing_processor : process_functor :=
  fun _ _ => Except.error "processor failed"

/-- The sample engine with two filters, of which the first accepts and the
second throws. -/
def throwing_filter_hooks : engine_hooks :=
  ⟨sample_env.hooks.parsers, [fun _ => Except.ok true, fun _ => Except.error "filter failed"],
    [], [sample_processor], [sample_processor], sample_storage, sample_net, ⟨1000, 0⟩⟩

/-- The sample engine with two processors and two fallback-processors; the
first of each throws. -/
def throwing_processor_hooks (accept : Bool) : engine_hooks :=
  ⟨sample_env.hooks.parsers, [fun _ => Except.ok accept], [],
    [throwing_processor, sample_processor], [throwing_processor, sample_processor],
    sample_storage, sample_net, ⟨1000, 0⟩⟩

/-- The sample engine with two processors; the first throws when handed a
cached document. -/
def failing_cache_hooks : engine_hooks :=
  ⟨sample_env.hooks.parsers, [], [], [failing_processor, sample_processor], [],
    sample_storage, sample_net, ⟨1000, 0⟩⟩

/-! ## The engine under concurrent handlers -/

/-- What the candidate loop does after an `inflight_insert` that returned true,
once the lookup has returned: the download (engine.cpp 262), the release after
the processors (266), or an exception of a processor (265), which ends the
handler with the url acquired. -/
inductive follow_up where
  | download
  | release
  | raise
deriving DecidableEq, Repr

/-- An access of a running `process_url` to the members the worker threads
share, each atomic: `++total` (engine.cpp 207), the `infligt_erase` of
`store_document` (176), and the `inflight_insert` of the candidate loop (255)
with what follows the lookup when the insert returns true. -/
inductive shared_access where
  | increment
  | erase (url : String)
  | insert (url : String) (next : follow_up)
deriving DecidableEq, Repr

namespace engine_hooks

/-- The accesses of the candidate loop, engine.cpp 236-269, in program order;
what the hooks and the store answer does not depend on the shared members. -/
def candidate_accesses (env : engine_hooks) (reply : network_reply) :
    List String → List shared_access
  | [] => []
  | url :: urls =>
    let request_url := (env.net.relative reply.url url).1
    let host := (env.net.relative reply.url url).2
    if compare_ne request_url 6 "https:" && compare_ne request_url 5 "http:" then
      candidate_accesses env reply urls
    else if request_url.data.isEmpty || host.data.isEmpty || request_url == reply.url then
      candidate_accesses env reply urls
    else
      match (url_filter_loop reply url env.url_filters 0 true).1 with
      | Except.error _ => []
      | Except.ok false => candidate_accesses env reply urls
      | Except.ok true =>
        if env.storage.read_data_error request_url then
          shared_access.insert request_url follow_up.download ::
            candidate_accesses env reply urls
        else
          match (engine_data.run_processors reply document_type.document_cache
              env.processors 0).2 with
          | some _ =>
            shared_access.insert request_url follow_up.raise ::
              candidate_accesses env reply urls
          | none =>
            shared_access.insert request_url follow_up.release ::
              candidate_accesses env reply urls

/-- The accesses of the accepted branch, engine.cpp 220-269; the rejected
branch has none. -/
def hook_accesses (env : engine_hooks) (reply : network_reply)
    (accepted_by_filters : Bool) : List shared_access :=
  if accepted_by_filters then
    match (engine_data.run_processors reply document_type.document_new env.processors 0).2 with
    | some _ => []
    | none =>
      match (run_parsers reply env.parsers 0).1 with
      | Except.error _ => []
      | Except.ok urls => candidate_accesses env reply (sort_unique urls)
  else []

/-- The accesses of `process_url`, engine.cpp 186-281, in program order. -/
def accesses (env : engine_hooks) (reply : network_reply) : List shared_access :=
  if reply.error ≠ 0 then []
  else
    match (filter_loop reply env.filters 0 true).1 with
    | Except.error _ => []
    | Except.ok accepted_by_filters =>
      [shared_access.increment, shared_access.erase reply.url] ++
        (if reply.url ≠ reply.request_url then [shared_access.erase reply.request_url]
          else []) ++
        hook_accesses env reply accepted_by_filters

end engine_hooks

/-- A `process_url` in progress on a worker thread: the url it has acquired
and not yet downloaded or released (it is waiting for the lookup), with what it
will do next, and the accesses still to come. -/
structure handler where
  holding : Option (String × follow_up)
  rest : List shared_access
deriving Repr

instance : DecidableEq handler := fun a b =>
  decidable_of_iff (a.holding = b.holding ∧ a.rest = b.rest)
    (by cases a; cases b; simp)

/-- The url a handler has acquired and not yet downloaded or released. -/
def handler.held (t : handler) : Option String :=
  t.holding.map Prod.fst

/-- Whether the handler has returned. -/
def handler.finished (t : handler) : Bool :=
  t.holding.isNone && t.rest.isEmpty

/-- The next atomic step of a handler on the shared members: the members
afterwards, the url handed to the downloader (if any) and the handler
afterwards; `none` when the handler has returned. -/
def handler.step (d : engine_data) (t : handler) :
    Option (engine_data × Option String × handler) :=
  match t.holding with
  | some (url, follow_up.download) => some (d, some url, ⟨none, t.rest⟩)
  | some (url, follow_up.release) => some (engine_data.infligt_erase d url, none, ⟨none, t.rest⟩)
  | some (_, follow_up.raise) => some (d, none, ⟨none, []⟩)
  | none =>
    match t.rest with
    | [] => none
    | shared_access.increment :: rest =>
      some (⟨d.inflight, atomic_long_increment d.total⟩, none, ⟨none, rest⟩)
    | shared_access.erase url :: rest =>
      some (engine_data.infligt_erase d url, none, ⟨none, rest⟩)
    | shared_access.insert url next :: rest =>
      if (engine_data.inflight_insert d url).1 then
        some ((engine_data.inflight_insert d url).2, none, ⟨some (url, next), rest⟩)
      else some ((engine_data.inflight_insert d url).2, none, ⟨none, rest⟩)

/-- A handler run to its end with no other handler in between: the members
afterwards and the urls handed to the downloader. -/
def handler.run_alone : Nat → engine_data → handler → engine_data × List String
  | 0, d, _ => (d, [])
  | fuel + 1, d, t =>
    match t.step d with
    | none => (d, [])
    | some (d1, fed, t1) =>
      ((handler.run_alone fuel d1 t1).1, fed.toList ++ (handler.run_alone fuel d1 t1).2)

/-- The accesses of a list run one after the other with no other handler in
between. -/
def run_accesses : engine_data → List shared_access → engine_data × List String
  | d, [] => (d, [])
  | d, shared_access.increment :: rest =>
    run_accesses ⟨d.inflight, atomic_long_increment d.total⟩ rest
  | d, shared_access.erase url :: rest => run_accesses (engine_data.infligt_erase d url) rest
  | d, shared_access.insert url next :: rest =>
    if (engine_data.inflight_insert d url).1 then
      match next with
      | follow_up.download =>
        ((run_accesses (engine_data.inflight_insert d url).2 rest).1,
          url :: (run_accesses (engine_data.inflight_insert d url).2 rest).2)
      | follow_up.release =>
        run_accesses (engine_data.infligt_erase (engine_data.inflight_insert d url).2 url) rest
      | follow_up.raise => ((engine_data.inflight_insert d url).2, [])
    else run_accesses (engine_data.inflight_insert d url).2 rest

/-- The engine with its worker threads: the shared members, the fetches handed
to the fetch service and not yet completed, and the handlers started so far
(a handler that has returned stays in the list). -/
structure engine_state where
  data : engine_data
  outstanding : List String
  handlers : List handler

instance : DecidableEq engine_state := fun a b =>
  decidable_of_iff
    (a.data = b.data ∧ a.outstanding = b.outstanding ∧ a.handlers = b.handlers)
    (by cases a; cases b; simp)

instance : DecidableEq (Option engine_state) := fun a b =>
  match a, b with
  | none, none => isTrue rfl
  | none, some _ => isFalse (fun h => Option.noConfusion h)
  | some _, none => isFalse (fun h => Option.noConfusion h)
  | some x, some y => decidable_of_iff (x = y) (by simp)

/-- A step of the engine: the caller invokes `engine.download(url)`; the fetch
service completes an outstanding fetch and a worker thread starts
`process_url` on the reply, the behaviour of hooks, store and clock for that
reply being `env`; or the handler at index `i` makes its next atomic step. -/
inductive engine_action where
  | download (url : String)
  | complete (env : engine_hooks) (reply : network_reply)
  | advance (i : Nat)

/-- One step; a completion is possible only for an outstanding request, an
advance only for a handler that has not returned. -/
def engine_step (s : engine_state) : engine_action → Option engine_state
  | engine_action.download url => some ⟨s.data, s.outstanding ++ [url], s.handlers⟩
  | engine_action.complete env reply =>
    if reply.request_url ∈ s.outstanding then
      some ⟨s.data, s.outstanding.erase reply.request_url,
        s.handlers ++ [⟨none, engine_hooks.accesses env reply⟩]⟩
    else none
  | engine_action.advance i =>
    match s.handlers[i]? with
    | none => none
    | some t =>
      match t.step s.data with
      | none => none
      | some (d, fed, t1) => some ⟨d, s.outstanding ++ fed.toList, s.handlers.set i t1⟩

/-- A sequence of steps. -/
def engine_run : engine_state → List engine_action → Option engine_state
  | s, [] => some s
  | s, a :: as =>
    match engine_step s a with
    | some s1 => engine_run s1 as
    | none => none

/-- The state built by the constructor `engine_data()`: nothing outstanding,
no handler. -/
def engine_init : engine_state := ⟨⟨∅, 0⟩, [], []⟩

/-- The urls that handlers have acquired and not yet downloaded or released. -/
def engine_state.held (s : engine_state) : List String :=
  s.handlers.filterMap handler.held

/-- The restriction under which the inflight set does prevent duplicate
fetches: the caller invokes `download` only while nothing is outstanding and
every handler has returned, and the `infligt_erase` of a `store_document`
happens only while no fetch of its url is outstanding and no handler has
acquired that url and not yet downloaded or released it. -/
def admissible_action (s : engine_state) : engine_action → Bool
  | engine_action.download _ => s.outstanding.isEmpty && s.handlers.all handler.finished
  | engine_action.complete _ _ => true
  | engine_action.advance i =>
    match s.handlers[i]? with
    | some ⟨none, shared_access.erase url :: _⟩ =>
      !decide (url ∈ s.outstanding) && !decide (url ∈ s.held)
    | _ => true

/-- Every step of the run is admissible in the state it is taken from. -/
def admissible_run : engine_state → List engine_action → Bool
  | _, [] => true
  | s, a :: as =>
    admissible_action s a &&
      (match engine_step s a with
        | some s1 => admissible_run s1 as
        | none => true)

/-- The handler at index `i` makes `n` steps in a row. -/
def advances (i n : Nat) : List engine_action :=
  List.replicate n (engine_action.advance i)

/-- The caller downloads one url twice. -/
def double_download_run : List engine_action :=
  [engine_action.download "http://example.com/", engine_action.download "http://example.com/"]

/-- One handler at a time.  The seed links to `/a`, `/b`, `/u`; the fetch of
`/a` is redirected to `/u` while the fetch of `/u` is outstanding; then `/b`,
which links to `/u`, completes. -/
def redirect_run : List engine_action :=
  [engine_action.download "http://example.com/",
    engine_action.complete sample_env.hooks
      (sample_reply "http://example.com/" "http://example.com/"
        "http://example.com/a\nhttp://example.com/b\nhttp://example.com/u")] ++
    advances 0 8 ++
    [engine_action.complete sample_env.hooks
      (sample_reply "http://example.com/a" "http://example.com/u" "")] ++
    advances 1 3 ++
    [engine_action.complete sample_env.hooks
      (sample_reply "http://example.com/b" "http://example.com/b" "http://example.com/u")] ++
    advances 2 4

/-- Two handlers interleaved.  The seed links to `/a`, `/p`, `/q`.  The
handler of `/p`, which links to `/u`, acquires `/u` and waits for the lookup;
the fetch of `/a` completes as a redirect to `/u` and its handler releases
`/u`; the handler of `/p` downloads `/u`; then `/q`, which links to `/u`,
completes. -/
def interleaved_run : List engine_action :=
  [engine_action.download "http://example.com/",
    engine_action.complete sample_env.hooks
      (sample_reply "http://example.com/" "http://example.com/"
        "http://example.com/a\nhttp://example.com/p\nhttp://example.com/q")] ++
    advances 0 8 ++
    [engine_action.complete sample_env.hooks
      (sample_reply "http://example.com/p" "http://example.com/p" "http://example.com/u")] ++
    advances 1 3 ++
    [engine_action.complete sample_env.hooks
      (sample_reply "http://example.com/a" "http://example.com/u" "")] ++
    advances 2 3 ++
    advances 1 1 ++
    [engine_action.complete sample_env.hooks
      (sample_reply "http://example.com/q" "http://example.com/q" "http://example.com/u")] ++
    advances 3 4

/-- An admissible run with two handlers interleaved: the seed links to `/a`
and `/b`; `/a` links to `/c` and `/d`, `/b` links to `/c` and `/e`; the
handlers of `/a` and `/b` take turns. -/
def sample_run : List engine_action :=
  [engine_action.download "http://example.com/",
    engine_action.complete sample_env.hooks
      (sample_reply "http://example.com/" "http://example.com/"
        "http://example.com/a\nhttp://example.com/b")] ++
    advances 0 6 ++
    [engine_action.complete sample_env.hooks
      (sample_reply "http://example.com/a" "http://example.com/a"
        "http://example.com/c\nhttp://example.com/d"),
      engine_action.complete sample_env.hooks
      (sample_reply "http://example.com/b" "http://example.com/b"
        "http://example.com/c\nhttp://example.com/e")] ++
    advances 1 3 ++ advances 2 3 ++ advances 1 1 ++ advances 2 2 ++ advances 1 2

/-- The caller downloads two seeds `/a` and `/b` before any completion; `/a`
links to `/b`. -/
def two_seeds_run : List engine_action :=
  [engine_action.download "http://example.com/a",
    engine_action.download "http://example.com/b",
    engine_action.complete sample_env.hooks
      (sample_reply "http://example.com/a" "http://example.com/a" "http://example.com/b")] ++
    advances 0 4

/-- The caller downloads `/a` while the handler of the seed, which links to
`/a`, is running. -/
def download_during_handler_run : List engine_action :=
  [engine_action.download "http://example.com/",
    engine_action.complete sample_env.hooks
      (sample_reply "http://example.com/" "http://example.com/" "http://example.com/a")] ++
    advances 0 2 ++
    [engine_action.download "http://example.com/a"] ++
    advances 0 2

/-! # Theorems -/

/-! ## The inflight set -/

theorem ed_mem_inflight_insert (d : engine_data) (u v : String) :
    v ∈ (engine_data.inflight_insert d u).2.inflight ↔ v = u ∨ v ∈ d.inflight := by
  unfold engine_data.inflight_insert
  by_cases h : u ∈ d.inflight
  · simp only [h, if_true]
    constructor
    · exact fun hv => Or.inr hv
    · rintro (rfl | hv)
      · exact h
      · exact hv
  · simp [h]

theorem ed_inflight_insert_fst (d : engine_data) (u : String) :
    (engine_data.inflight_insert d u).1 = true ↔ u ∉ d.inflight := by
  unfold engine_data.inflight_insert
  by_cases h : u ∈ d.inflight <;> simp [h]

theorem ed_mem_infligt_erase (d : engine_data) (u v : String) :
    v ∈ (engine_data.infligt_erase d u).inflight ↔ v ≠ u ∧ v ∈ d.inflight := by
  unfold engine_data.infligt_erase
  by_cases h : u ∈ d.inflight
  · simp [h]
  · simp only [h, if_false]
    constructor
    · intro hv
      exact ⟨fun e => h (e ▸ hv), hv⟩
    · exact fun hv => hv.2

theorem ed_inflight_insert_total (d : engine_data) (u : String) :
    (engine_data.inflight_insert d u).2.total = d.total := by
  unfold engine_data.inflight_insert
  by_cases h : u ∈ d.inflight <;> simp [h]

theorem ed_infligt_erase_total (d : engine_data) (u : String) :
    (engine_data.infligt_erase d u).total = d.total := by
  unfold engine_data.infligt_erase
  by_cases h : u ∈ d.inflight <;> simp [h]

theorem up_mem_inflight_insert (d : url_processor_data) (u v : String) :
    v ∈ (url_processor.inflight_insert d u).2.m_inflight ↔ v = u ∨ v ∈ d.m_inflight := by
  unfold url_processor.inflight_insert
  by_cases h : u ∈ d.m_inflight
  · simp only [h, if_true]
    constructor
    · exact fun hv => Or.inr hv
    · rintro (rfl | hv)
      · exact h
      · exact hv
  · simp [h]

theorem up_inflight_insert_fst (d : url_processor_data) (u : String) :
    (url_processor.inflight_insert d u).1 = true ↔ u ∉ d.m_inflight := by
  unfold url_processor.inflight_insert
  by_cases h : u ∈ d.m_inflight <;> simp [h]

theorem up_mem_infligt_erase (d : url_processor_data) (u v : String) :
    v ∈ (url_processor.infligt_erase d u).m_inflight ↔ v ≠ u ∧ v ∈ d.m_inflight := by
  unfold url_processor.infligt_erase
  by_cases h : u ∈ d.m_inflight
  · simp [h]
  · simp only [h, if_false]
    constructor
    · intro hv
      exact ⟨fun e => h (e ▸ hv), hv⟩
    · exact fun hv => hv.2

/-- C3: `inflight_insert(u)` on a set `S` returns true exactly when `u` was
not in `S`; afterwards the set is `S ∪ {u}`, so `u` is a member and the
membership of every other url is unchanged, and the counter is untouched.
This holds for `engine_data::inflight_insert` and for
`url_processor::inflight_insert`. -/
theorem inflight_insert_contract (S : Finset String) (total : Int) (u : String) :
    (((engine_data.inflight_insert ⟨S, total⟩ u).1 = true ↔ u ∉ S) ∧
      (engine_data.inflight_insert ⟨S, total⟩ u).2 = ⟨S ∪ {u}, total⟩ ∧
      u ∈ (engine_data.inflight_insert ⟨S, total⟩ u).2.inflight ∧
      ∀ v, v ≠ u → (v ∈ (engine_data.inflight_insert ⟨S, total⟩ u).2.inflight ↔ v ∈ S)) ∧
    (((url_processor.inflight_insert ⟨S, total⟩ u).1 = true ↔ u ∉ S) ∧
      (url_processor.inflight_insert ⟨S, total⟩ u).2 = ⟨S ∪ {u}, total⟩ ∧
      u ∈ (url_processor.inflight_insert ⟨S, total⟩ u).2.m_inflight ∧
      ∀ v, v ≠ u → (v ∈ (url_processor.inflight_insert ⟨S, total⟩ u).2.m_inflight ↔ v ∈ S)) := by
  refine ⟨⟨ed_inflight_insert_fst _ u, ?_, ?_, ?_⟩,
    ⟨up_inflight_insert_fst _ u, ?_, ?_, ?_⟩⟩
  · unfold engine_data.inflight_insert
    by_cases h : u ∈ S
    · simp [h]
    · simp only [h, if_false, engine_data.mk.injEq, and_true]
      ext v
      simp [or_comm]
  · exact (ed_mem_inflight_insert _ u u).2 (Or.inl rfl)
  · intro v hv
    rw [ed_mem_inflight_insert]
    simp [hv]
  · unfold url_processor.inflight_insert
    by_cases h : u ∈ S
    · simp [h]
    · simp only [h, if_false, url_processor_data.mk.injEq, and_true]
      ext v
      simp [or_comm]
  · exact (up_mem_inflight_insert _ u u).2 (Or.inl rfl)
  · intro v hv
    rw [up_mem_inflight_insert]
    simp [hv]

/-- C4: `infligt_erase(u)` on a set `S` yields `S \ {u}` (it is a total
function: there is no failing case); releasing an absent url changes nothing,
releasing twice equals releasing once, and an `inflight_insert(u)` after the
release returns true.  This holds for `engine_data::infligt_erase` and for
`url_processor::infligt_erase`. -/
theorem infligt_erase_contract (S : Finset String) (total : Int) (u : String) :
    (engine_data.infligt_erase ⟨S, total⟩ u = ⟨S \ {u}, total⟩ ∧
      (u ∉ S → engine_data.infligt_erase ⟨S, total⟩ u = ⟨S, total⟩) ∧
      engine_data.infligt_erase (engine_data.infligt_erase ⟨S, total⟩ u) u =
        engine_data.infligt_erase ⟨S, total⟩ u ∧
      (engine_data.inflight_insert (engine_data.infligt_erase ⟨S, total⟩ u) u).1 = true) ∧
    (url_processor.infligt_erase ⟨S, total⟩ u = ⟨S \ {u}, total⟩ ∧
      (u ∉ S → url_processor.infligt_erase ⟨S, total⟩ u = ⟨S, total⟩) ∧
      url_processor.infligt_erase (url_processor.infligt_erase ⟨S, total⟩ u) u =
        url_processor.infligt_erase ⟨S, total⟩ u ∧
      (url_processor.inflight_insert (url_processor.infligt_erase ⟨S, total⟩ u) u).1 = true) := by
  have e1 : engine_data.infligt_erase ⟨S, total⟩ u = ⟨S \ {u}, total⟩ := by
    unfold engine_data.infligt_erase
    by_cases h : u ∈ S
    · simp [h, Finset.sdiff_singleton_eq_erase]
    · simp [h]
  have e2 : url_processor.infligt_erase ⟨S, total⟩ u = ⟨S \ {u}, total⟩ := by
    unfold url_processor.infligt_erase
    by_cases h : u ∈ S
    · simp [h, Finset.sdiff_singleton_eq_erase]
    · simp [h]
  refine ⟨⟨e1, ?_, ?_, ?_⟩, ⟨e2, ?_, ?_, ?_⟩⟩
  · intro h
    simp [engine_data.infligt_erase, h]
  · rw [e1]
    simp [engine_data.infligt_erase]
  · rw [ed_inflight_insert_fst, ed_mem_infligt_erase]
    simp
  · intro h
    simp [url_processor.infligt_erase, h]
  · rw [e2]
    simp [url_processor.infligt_erase]
  · rw [up_inflight_insert_fst, up_mem_infligt_erase]
    simp

/-! ## Histories of calls -/

theorem ed_run_calls_append (d : engine_data) (a b : List inflight_call) :
    engine_data.run_calls d (a ++ b) =
      ((engine_data.run_calls d a).1 ++ (engine_data.run_calls (engine_data.run_calls d a).2 b).1,
        (engine_data.run_calls (engine_data.run_calls d a).2 b).2) := by
  induction a generalizing d with
  | nil => simp [engine_data.run_calls]
  | cons c cs ih =>
    cases c with
    | insert u => simp [engine_data.run_calls, ih]
    | erase u => simp [engine_data.run_calls, ih]

theorem ed_run_calls_length (d : engine_data) (a : List inflight_call) :
    (engine_data.run_calls d a).1.length = a.length := by
  induction a generalizing d with
  | nil => simp [engine_data.run_calls]
  | cons c cs ih =>
    cases c with
    | insert u => simp [engine_data.run_calls, ih]
    | erase u => simp [engine_data.run_calls, ih]

theorem ed_run_calls_keeps (d : engine_data) (U : String) (a : List inflight_call)
    (hU : U ∈ d.inflight) (ha : inflight_call.erase U ∉ a) :
    U ∈ (engine_data.run_calls d a).2.inflight := by
  induction a generalizing d with
  | nil => simpa [engine_data.run_calls] using hU
  | cons c cs ih =>
    have hcs : inflight_call.erase U ∉ cs := fun h => ha (List.mem_cons_of_mem _ h)
    cases c with
    | insert u =>
      simp only [engine_data.run_calls]
      exact ih _ ((ed_mem_inflight_insert d u U).2 (Or.inr hU)) hcs
    | erase u =>
      simp only [engine_data.run_calls]
      have hne : U ≠ u := by
        rintro rfl
        exact ha (List.mem_cons_self _ _)
      exact ih _ ((ed_mem_infligt_erase d u U).2 ⟨hne, hU⟩) hcs

theorem ed_run_calls_second_insert (d : engine_data) (U : String)
    (pre mid post : List inflight_call) (hmid : inflight_call.erase U ∉ mid) :
    (engine_data.run_calls d
        (pre ++ inflight_call.insert U :: (mid ++ inflight_call.insert U :: post))).1[
      pre.length + 1 + mid.length]? = some (some false) := by
  rw [ed_run_calls_append]
  simp only [engine_data.run_calls]
  rw [ed_run_calls_append]
  simp only [engine_data.run_calls]
  have hlen1 := ed_run_calls_length d pre
  have hmem : U ∈ (engine_data.run_calls
      (engine_data.inflight_insert (engine_data.run_calls d pre).2 U).2 mid).2.inflight :=
    ed_run_calls_keeps _ U mid
      ((ed_mem_inflight_insert _ U U).2 (Or.inl rfl)) hmid
  have hfalse : (engine_data.inflight_insert (engine_data.run_calls
      (engine_data.inflight_insert (engine_data.run_calls d pre).2 U).2 mid).2 U).1 = false := by
    cases hb : (engine_data.inflight_insert (engine_data.run_calls
      (engine_data.inflight_insert (engine_data.run_calls d pre).2 U).2 mid).2 U).1
    · rfl
    · exact absurd hmem ((ed_inflight_insert_fst _ U).1 hb)
  rw [List.getElem?_append_right (by omega)]
  have h1 : pre.length + 1 + mid.length - (engine_data.run_calls d pre).1.length
      = mid.length + 1 := by omega
  rw [h1, List.getElem?_cons_succ,
    List.getElem?_append_right (by rw [ed_run_calls_length])]
  rw [ed_run_calls_length, Nat.sub_self, List.getElem?_cons_zero, hfalse]

theorem ed_run_calls_replicate_present (d : engine_data) (U : String) (N : Nat)
    (hU : U ∈ d.inflight) :
    (engine_data.run_calls d (List.replicate N (inflight_call.insert U))).1.count (some true) = 0
      := by
  induction N with
  | zero => simp [engine_data.run_calls]
  | succ n ih =>
    simp only [List.replicate_succ, engine_data.run_calls]
    have hd : engine_data.inflight_insert d U = (false, d) := by
      simp [engine_data.inflight_insert, hU]
    rw [hd]
    simpa using ih

theorem ed_run_calls_replicate_absent (d : engine_data) (U : String) (N : Nat)
    (hU : U ∉ d.inflight) (hN : 0 < N) :
    (engine_data.run_calls d (List.replicate N (inflight_call.insert U))).1.count (some true) = 1
      := by
  obtain ⟨n, rfl⟩ : ∃ n, N = n + 1 := ⟨N - 1, by omega⟩
  simp only [List.replicate_succ, engine_data.run_calls]
  have h1 : (engine_data.inflight_insert d U).1 = true :=
    (ed_inflight_insert_fst d U).2 hU
  have h2 : U ∈ (engine_data.inflight_insert d U).2.inflight :=
    (ed_mem_inflight_insert d U U).2 (Or.inl rfl)
  rw [h1, List.count_cons_self, ed_run_calls_replicate_present _ U n h2]

theorem up_run_calls_append (d : url_processor_data) (a b : List inflight_call) :
    url_processor.run_calls d (a ++ b) =
      ((url_processor.run_calls d a).1 ++ (url_processor.run_calls (url_processor.run_calls d a).2 b).1,
        (url_processor.run_calls (url_processor.run_calls d a).2 b).2) := by
  induction a generalizing d with
  | nil => simp [url_processor.run_calls]
  | cons c cs ih =>
    cases c with
    | insert u => simp [url_processor.run_calls, ih]
    | erase u => simp [url_processor.run_calls, ih]

theorem up_run_calls_length (d : url_processor_data) (a : List inflight_call) :
    (url_processor.run_calls d a).1.length = a.length := by
  induction a generalizing d with
  | nil => simp [url_processor.run_calls]
  | cons c cs ih =>
    cases c with
    | insert u => simp [url_processor.run_calls, ih]
    | erase u => simp [url_processor.run_calls, ih]

theorem up_run_calls_keeps (d : url_processor_data) (U : String) (a : List inflight_call)
    (hU : U ∈ d.m_inflight) (ha : inflight_call.erase U ∉ a) :
    U ∈ (url_processor.run_calls d a).2.m_inflight := by
  induction a generalizing d with
  | nil => simpa [url_processor.run_calls] using hU
  | cons c cs ih =>
    have hcs : inflight_call.erase U ∉ cs := fun h => ha (List.mem_cons_of_mem _ h)
    cases c with
    | insert u =>
      simp only [url_processor.run_calls]
      exact ih _ ((up_mem_inflight_insert d u U).2 (Or.inr hU)) hcs
    | erase u =>
      simp only [url_processor.run_calls]
      have hne : U ≠ u := by
        rintro rfl
        exact ha (List.mem_cons_self _ _)
      exact ih _ ((up_mem_infligt_erase d u U).2 ⟨hne, hU⟩) hcs

theorem up_run_calls_second_insert (d : url_processor_data) (U : String)
    (pre mid post : List inflight_call) (hmid : inflight_call.erase U ∉ mid) :
    (url_processor.run_calls d
        (pre ++ inflight_call.insert U :: (mid ++ inflight_call.insert U :: post))).1[
      pre.length + 1 + mid.length]? = some (some false) := by
  rw [up_run_calls_append]
  simp only [url_processor.run_calls]
  rw [up_run_calls_append]
  simp only [url_processor.run_calls]
  have hlen1 := up_run_calls_length d pre
  have hmem : U ∈ (url_processor.run_calls
      (url_processor.inflight_insert (url_processor.run_calls d pre).2 U).2 mid).2.m_inflight :=
    up_run_calls_keeps _ U mid
      ((up_mem_inflight_insert _ U U).2 (Or.inl rfl)) hmid
  have hfalse : (url_processor.inflight_insert (url_processor.run_calls
      (url_processor.inflight_insert (url_processor.run_calls d pre).2 U).2 mid).2 U).1 = false := by
    cases hb : (url_processor.inflight_insert (url_processor.run_calls
      (url_processor.inflight_insert (url_processor.run_calls d pre).2 U).2 mid).2 U).1
    · rfl
    · exact absurd hmem ((up_inflight_insert_fst _ U).1 hb)
  rw [List.getElem?_append_right (by omega)]
  have h1 : pre.length + 1 + mid.length - (url_processor.run_calls d pre).1.length
      = mid.length + 1 := by omega
  rw [h1, List.getElem?_cons_succ,
    List.getElem?_append_right (by rw [up_run_calls_length])]
  rw [up_run_calls_length, Nat.sub_self, List.getElem?_cons_zero, hfalse]

theorem up_run_calls_replicate_present (d : url_processor_data) (U : String) (N : Nat)
    (hU : U ∈ d.m_inflight) :
    (url_processor.run_calls d (List.replicate N (inflight_call.insert U))).1.count (some true) = 0
      := by
  induction N with
  | zero => simp [url_processor.run_calls]
  | succ n ih =>
    simp only [List.replicate_succ, url_processor.run_calls]
    have hd : url_processor.inflight_insert d U = (false, d) := by
      simp [url_processor.inflight_insert, hU]
    rw [hd]
    simpa using ih

theorem up_run_calls_replicate_absent (d : url_processor_data) (U : String) (N : Nat)
    (hU : U ∉ d.m_inflight) (hN : 0 < N) :
    (url_processor.run_calls d (List.replicate N (inflight_call.insert U))).1.count (some true) = 1
      := by
  obtain ⟨n, rfl⟩ : ∃ n, N = n + 1 := ⟨N - 1, by omega⟩
  simp only [List.replicate_succ, url_processor.run_calls]
  have h1 : (url_processor.inflight_insert d U).1 = true :=
    (up_inflight_insert_fst d U).2 hU
  have h2 : U ∈ (url_processor.inflight_insert d U).2.m_inflight :=
    (up_mem_inflight_insert d U U).2 (Or.inl rfl)
  rw [h1, List.count_cons_self, up_run_calls_replicate_present _ U n h2]

/-- C2: inflight exclusivity.  In every sequence of `inflight_insert` /
`infligt_erase` calls, from every starting set, an `inflight_insert(U)` that
follows an earlier `inflight_insert(U)` with no `infligt_erase(U)` in between
returns false (whatever calls on `U` or other urls surround them); and `N ≥ 1`
acquire attempts on `U` against a set that does not contain `U`, with no
release in between, yield exactly one true.  This holds for the inflight set
of `engine_data` and for that of `url_processor`. -/
theorem inflight_exclusivity (d0 : engine_data) (e0 : url_processor_data)
    (S : Finset String) (total : Int) (U : String)
    (pre mid post : List inflight_call) (N : Nat)
    (hmid : inflight_call.erase U ∉ mid) (hU : U ∉ S) (hN : 0 < N) :
    ((engine_data.run_calls d0
          (pre ++ inflight_call.insert U :: (mid ++ inflight_call.insert U :: post))).1[
        pre.length + 1 + mid.length]? = some (some false) ∧
      (engine_data.run_calls ⟨S, total⟩
          (List.replicate N (inflight_call.insert U))).1.count (some true) = 1) ∧
    ((url_processor.run_calls e0
          (pre ++ inflight_call.insert U :: (mid ++ inflight_call.insert U :: post))).1[
        pre.length + 1 + mid.length]? = some (some false) ∧
      (url_processor.run_calls ⟨S, total⟩
          (List.replicate N (inflight_call.insert U))).1.count (some true) = 1) :=
  ⟨⟨ed_run_calls_second_insert d0 U pre mid post hmid,
      ed_run_calls_replicate_absent ⟨S, total⟩ U N hU hN⟩,
    ⟨up_run_calls_second_insert e0 U pre mid post hmid,
      up_run_calls_replicate_absent ⟨S, total⟩ U N hU hN⟩⟩

/-- Witness for C2: after `insert a` answered true, with calls on `b` and a
further `insert a` in between, the fifth call `insert a` answers false; three
attempts on `a` against `{b}` give one true. -/
theorem inflight_exclusivity_witness :
    (engine_data.run_calls ⟨∅, 0⟩
        [inflight_call.erase "http://a/", inflight_call.insert "http://a/",
          inflight_call.insert "http://b/", inflight_call.erase "http://b/",
          inflight_call.insert "http://a/", inflight_call.insert "http://a/",
          inflight_call.erase "http://a/", inflight_call.insert "http://a/"]).1
      = [none, some true, some true, none, some false, some false, none, some true] ∧
    (engine_data.run_calls ⟨{"http://b/"}, 0⟩
        (List.replicate 3 (inflight_call.insert "http://a/"))).1.count (some true) = 1 :=
  ⟨by decide,
    (inflight_exclusivity ⟨∅, 0⟩ ⟨∅, 0⟩ {"http://b/"} 0 "http://a/"
      [inflight_call.erase "http://a/"]
      [inflight_call.insert "http://b/", inflight_call.erase "http://b/",
        inflight_call.insert "http://a/"]
      [inflight_call.erase "http://a/", inflight_call.insert "http://a/"] 3
      (by decide) (by decide) (by decide)).1.2⟩

/-! ## The shape of `process_url` -/

theorem filterMap_nil_of_forall {α β : Type} (f : α → Option β) (l : List α)
    (h : ∀ e ∈ l, f e = none) : l.filterMap f = [] := by
  induction l with
  | nil => rfl
  | cons a as ih =>
    rw [List.filterMap_cons, h a (List.mem_cons_self _ _)]
    exact ih (fun e he => h e (List.mem_cons_of_mem _ he))

/-- For an error-free reply, `engine_data::process_url` is: log, filter loop,
persist step, hooks, and (unless a hook threw) the join. -/
theorem ed_process_url_ok (env : engine_env) (d : engine_data) (reply : network_reply)
    (h : reply.error = 0) :
    engine_data.process_url env d reply =
      ⟨(engine_data.run_hooks env reply (engine_data.after_persist d reply)
          (engine_data.filter_loop reply env.filters 0 true).1).data,
        [event.cout_processing reply.request_url reply.url d.total] ++
          (engine_data.filter_loop reply env.filters 0 true).2 ++
          persist_events env.dnet_current_time reply ++
          (engine_data.run_hooks env reply (engine_data.after_persist d reply)
            (engine_data.filter_loop reply env.filters 0 true).1).trace ++
          (match (engine_data.run_hooks env reply (engine_data.after_persist d reply)
              (engine_data.filter_loop reply env.filters 0 true).1).raised with
            | some _ => []
            | none => engine_data.join_writes env reply
                (pending_writes env.dnet_current_time reply)),
        (engine_data.run_hooks env reply (engine_data.after_persist d reply)
          (engine_data.filter_loop reply env.filters 0 true).1).raised⟩ := by
  unfold engine_data.process_url engine_data.after_persist persist_events pending_writes
  simp only [h, ne_eq, not_true_eq_false, if_false, engine_data.store_document]
  by_cases hr : reply.url = reply.request_url
  · simp only [hr, not_true_eq_false, if_false]
    split <;> simp_all
  · simp only [hr, not_false_eq_true, if_true]
    split <;> simp_all

/-- For a reply carrying an error, `engine_data::process_url` only logs. -/
theorem ed_process_url_error (env : engine_env) (d : engine_data) (reply : network_reply)
    (h : reply.error ≠ 0) :
    engine_data.process_url env d reply =
      ⟨d, [event.cout_error reply.url reply.error], none⟩ := by
  unfold engine_data.process_url
  simp [h]

/-- For an error-free reply, `url_processor::process_url` is: log,
classification, persist step, body, and (unless the body threw) the join. -/
theorem up_process_url_ok (env : url_processor_env) (d : url_processor_data)
    (reply : network_reply) (h : reply.error = 0) :
    url_processor.process_url env d reply =
      ⟨(url_processor.run_body env (url_processor.after_persist d reply) reply
          (url_processor.classify env reply).1).data,
        [event.cout_processing reply.request_url reply.url d.m_total] ++
          (url_processor.classify env reply).2 ++
          persist_events env.dnet_current_time reply ++
          (url_processor.run_body env (url_processor.after_persist d reply) reply
            (url_processor.classify env reply).1).trace ++
          (match (url_processor.run_body env (url_processor.after_persist d reply) reply
              (url_processor.classify env reply).1).raised with
            | some _ => []
            | none => url_processor.join_writes env reply
                (pending_writes env.dnet_current_time reply)),
        (url_processor.run_body env (url_processor.after_persist d reply) reply
          (url_processor.classify env reply).1).raised⟩ := by
  unfold url_processor.process_url url_processor.after_persist persist_events pending_writes
    url_processor.run_body url_processor.classify
  simp only [h, ne_eq, not_true_eq_false, if_false, url_processor.store_document]
  by_cases hr : reply.url = reply.request_url
  · simp only [hr, not_true_eq_false, if_false]
    split <;> simp_all
  · simp only [hr, not_false_eq_true, if_true]
    split <;> simp_all

/-- For a reply carrying an error, `url_processor::process_url` only logs. -/
theorem up_process_url_error (env : url_processor_env) (d : url_processor_data)
    (reply : network_reply) (h : reply.error ≠ 0) :
    url_processor.process_url env d reply =
      ⟨d, [event.cout_error reply.url reply.error], none⟩ := by
  unfold url_processor.process_url
  simp [h]

/-! ## The actions of each loop -/

theorem mem_filter_loop (reply : network_reply) (fs : List filter_functor) (i : Nat)
    (acc : Bool) (e : event) (he : e ∈ (engine_data.filter_loop reply fs i acc).2) :
    ∃ k r, e = event.filter_call k r := by
  induction fs generalizing i acc with
  | nil => simp [engine_data.filter_loop] at he
  | cons f fs ih =>
    unfold engine_data.filter_loop at he
    cases acc with
    | false => simp at he
    | true =>
      simp only [if_true, List.mem_cons] at he
      rcases he with rfl | he
      · exact ⟨i, f reply, rfl⟩
      · exact ih _ _ he

theorem mem_url_filter_loop (reply : network_reply) (url : String)
    (fs : List url_filter_functor) (j : Nat) (ok : Bool) (e : event)
    (he : e ∈ (engine_data.url_filter_loop reply url fs j ok).2) :
    ∃ k r, e = event.url_filter_call k url r := by
  induction fs generalizing j ok with
  | nil => simp [engine_data.url_filter_loop] at he
  | cons f fs ih =>
    unfold engine_data.url_filter_loop at he
    cases ok with
    | false => simp at he
    | true =>
      simp only [if_true, List.mem_cons] at he
      rcases he with rfl | he
      · exact ⟨j, f reply url, rfl⟩
      · exact ih _ _ he

theorem mem_run_processors (reply : network_reply) (tag : document_type)
    (ps : List process_functor) (i : Nat) (e : event)
    (he : e ∈ (engine_data.run_processors reply tag ps i).1) :
    ∃ k, e = event.processor_call k tag := by
  induction ps generalizing i with
  | nil => simp [engine_data.run_processors] at he
  | cons p ps ih =>
    unfold engine_data.run_processors at he
    cases hp : p reply tag with
    | error x =>
      simp only [hp, List.mem_singleton] at he
      exact ⟨i, he⟩
    | ok x =>
      simp only [hp, List.mem_cons] at he
      rcases he with rfl | he
      · exact ⟨i, rfl⟩
      · exact ih _ he

theorem mem_run_fallback_processors (reply : network_reply)
    (ps : List process_functor) (i : Nat) (e : event)
    (he : e ∈ (engine_data.run_fallback_processors reply ps i).1) :
    ∃ k, e = event.fallback_processor_call k document_type.document_new := by
  induction ps generalizing i with
  | nil => simp [engine_data.run_fallback_processors] at he
  | cons p ps ih =>
    unfold engine_data.run_fallback_processors at he
    cases hp : p reply document_type.document_new with
    | error x =>
      simp only [hp, List.mem_singleton] at he
      exact ⟨i, he⟩
    | ok x =>
      simp only [hp, List.mem_cons] at he
      rcases he with rfl | he
      · exact ⟨i, rfl⟩
      · exact ih _ he

theorem mem_run_parsers (reply : network_reply) (ps : List parser_functor) (i : Nat)
    (e : event) (he : e ∈ (engine_data.run_parsers reply ps i).2) :
    ∃ k, e = event.parser_call k := by
  induction ps generalizing i with
  | nil => simp [engine_data.run_parsers] at he
  | cons p ps ih =>
    unfold engine_data.run_parsers at he
    simp only [List.mem_cons] at he
    rcases he with rfl | he
    · exact ⟨i, rfl⟩
    · exact ih _ he

theorem mem_ed_join_writes (env : engine_env) (reply : network_reply) (ws : List document)
    (e : event) (he : e ∈ engine_data.join_writes env reply ws) :
    (∃ w, e = event.wait_write w) ∨ e = event.cout_storage_error reply.request_url := by
  induction ws with
  | nil => simp [engine_data.join_writes] at he
  | cons w ws ih =>
    unfold engine_data.join_writes at he
    rw [List.mem_append] at he
    rcases he with he | he
    · cases hw : env.storage.write_document_error w with
      | true =>
        simp only [hw, if_true, List.mem_cons, List.mem_singleton, List.not_mem_nil,
          or_false] at he
        rcases he with rfl | rfl
        · exact Or.inl ⟨w, rfl⟩
        · exact Or.inr rfl
      | false =>
        simp only [hw, Bool.false_eq_true, if_false, List.mem_singleton] at he
        exact Or.inl ⟨w, he⟩
    · exact ih he

theorem mem_up_join_writes (env : url_processor_env) (reply : network_reply)
    (ws : List document) (e : event) (he : e ∈ url_processor.join_writes env reply ws) :
    (∃ w, e = event.wait_write w) ∨ e = event.cout_storage_error reply.request_url := by
  induction ws with
  | nil => simp [url_processor.join_writes] at he
  | cons w ws ih =>
    unfold url_processor.join_writes at he
    rw [List.mem_append] at he
    rcases he with he | he
    · cases hw : env.m_st.write_document_error w with
      | true =>
        simp only [hw, if_true, List.mem_cons, List.mem_singleton, List.not_mem_nil,
          or_false] at he
        rcases he with rfl | rfl
        · exact Or.inl ⟨w, rfl⟩
        · exact Or.inr rfl
      | false =>
        simp only [hw, Bool.false_eq_true, if_false, List.mem_singleton] at he
        exact Or.inl ⟨w, he⟩
    · exact ih he

/-- Every action of one iteration of the engine's candidate loop is a
url-filter call on the candidate, an acquire, a store lookup, the log and
feed of a download, a `document_cache` processor call, or a release. -/
theorem mem_ed_process_candidate (env : engine_env) (reply : network_reply)
    (d : engine_data) (url : String) (e : event)
    (he : e ∈ (engine_data.process_candidate env reply d url).trace) :
    (∃ k r, e = event.url_filter_call k url r) ∨
    (∃ b, e = event.inflight_insert (env.net.relative reply.url url).1 b) ∨
    e = event.read_data (env.net.relative reply.url url).1 ∨
    e = event.cout_page_cache (env.net.relative reply.url url).1 ∨
    e = event.cout_downloading (env.net.relative reply.url url).1 ∨
    e = event.feed (env.net.relative reply.url url).1 ∨
    (∃ k, e = event.processor_call k document_type.document_cache) ∨
    e = event.infligt_erase (env.net.relative reply.url url).1 := by
  unfold engine_data.process_candidate at he
  simp only at he
  split at he
  · simp at he
  split at he
  · simp at he
  split at he
  · split at he
    · simp only [List.mem_append, List.mem_singleton] at he
      rcases he with he | rfl
      · exact Or.inl (mem_url_filter_loop _ _ _ _ _ _ he)
      · exact Or.inr (Or.inl ⟨false, rfl⟩)
    split at he
    · simp only [engine_data.download, List.mem_append, List.mem_cons, List.mem_singleton,
        List.not_mem_nil, or_false] at he
      rcases he with (he | rfl | rfl | rfl) | rfl | rfl
      · exact Or.inl (mem_url_filter_loop _ _ _ _ _ _ he)
      · exact Or.inr (Or.inl ⟨true, rfl⟩)
      · exact Or.inr (Or.inr (Or.inl rfl))
      · exact Or.inr (Or.inr (Or.inr (Or.inl rfl)))
      · exact Or.inr (Or.inr (Or.inr (Or.inr (Or.inl rfl))))
      · exact Or.inr (Or.inr (Or.inr (Or.inr (Or.inr (Or.inl rfl)))))
    split at he
    · simp only [List.mem_append, List.mem_cons, List.mem_singleton,
        List.not_mem_nil, or_false] at he
      rcases he with (he | rfl | rfl) | he
      · exact Or.inl (mem_url_filter_loop _ _ _ _ _ _ he)
      · exact Or.inr (Or.inl ⟨true, rfl⟩)
      · exact Or.inr (Or.inr (Or.inl rfl))
      · exact Or.inr (Or.inr (Or.inr (Or.inr (Or.inr (Or.inr
          (Or.inl (mem_run_processors _ _ _ _ _ he)))))))
    · simp only [List.mem_append, List.mem_cons, List.mem_singleton,
        List.not_mem_nil, or_false] at he
      rcases he with ((he | rfl | rfl) | he) | rfl
      · exact Or.inl (mem_url_filter_loop _ _ _ _ _ _ he)
      · exact Or.inr (Or.inl ⟨true, rfl⟩)
      · exact Or.inr (Or.inr (Or.inl rfl))
      · exact Or.inr (Or.inr (Or.inr (Or.inr (Or.inr (Or.inr
          (Or.inl (mem_run_processors _ _ _ _ _ he)))))))
      · exact Or.inr (Or.inr (Or.inr (Or.inr (Or.inr (Or.inr (Or.inr rfl))))))
  · exact Or.inl (mem_url_filter_loop _ _ _ _ _ _ he)

theorem mem_ed_candidate_loop (env : engine_env) (reply : network_reply)
    (d : engine_data) (urls : List String) (e : event)
    (he : e ∈ (engine_data.candidate_loop env reply d urls).trace) :
    ∃ d1 url, url ∈ urls ∧ e ∈ (engine_data.process_candidate env reply d1 url).trace := by
  induction urls generalizing d with
  | nil => simp [engine_data.candidate_loop] at he
  | cons u us ih =>
    unfold engine_data.candidate_loop at he
    simp only at he
    split at he
    · exact ⟨d, u, List.mem_cons_self _ _, he⟩
    · simp only [List.mem_append] at he
      rcases he with he | he
      · exact ⟨d, u, List.mem_cons_self _ _, he⟩
      · obtain ⟨d1, url, hu, h1⟩ := ih _ he
        exact ⟨d1, url, List.mem_cons_of_mem _ hu, h1⟩

/-- No action of the hooks is a store write or a filter call. -/
theorem ed_run_hooks_events (env : engine_env) (reply : network_reply) (d : engine_data)
    (acc : Bool) (e : event) (he : e ∈ (engine_data.run_hooks env reply d acc).trace) :
    e.written = none ∧ e.filtered = none := by
  unfold engine_data.run_hooks at he
  cases acc with
  | true =>
    simp only [if_true] at he
    split at he
    · obtain ⟨k, rfl⟩ := mem_run_processors _ _ _ _ _ he
      exact ⟨rfl, rfl⟩
    · simp only [List.mem_append] at he
      rcases he with (he | he) | he
      · obtain ⟨k, rfl⟩ := mem_run_processors _ _ _ _ _ he
        exact ⟨rfl, rfl⟩
      · obtain ⟨k, rfl⟩ := mem_run_parsers _ _ _ _ he
        exact ⟨rfl, rfl⟩
      · obtain ⟨d1, url, _, h1⟩ := mem_ed_candidate_loop _ _ _ _ _ he
        rcases mem_ed_process_candidate _ _ _ _ _ h1 with
          ⟨k, r, rfl⟩ | ⟨b, rfl⟩ | rfl | rfl | rfl | rfl | ⟨k, rfl⟩ | rfl <;> exact ⟨rfl, rfl⟩
  | false =>
    simp only [Bool.false_eq_true, if_false] at he
    obtain ⟨k, rfl⟩ := mem_run_fallback_processors _ _ _ _ he
    exact ⟨rfl, rfl⟩

theorem mem_up_process_candidate (env : url_processor_env) (reply : network_reply)
    (d : url_processor_data) (url : String) (e : event)
    (he : e ∈ (url_processor.process_candidate env reply d url).2) :
    (∃ b, e = event.inflight_insert (env.net.relative reply.url url).1 b) ∨
    e = event.read_data (env.net.relative reply.url url).1 ∨
    e = event.cout_page_cache (env.net.relative reply.url url).1 ∨
    e = event.cout_downloading (env.net.relative reply.url url).1 ∨
    e = event.feed (env.net.relative reply.url url).1 ∨
    e = event.infligt_erase (env.net.relative reply.url url).1 := by
  unfold url_processor.process_candidate at he
  simp only at he
  split at he
  · simp at he
  split at he
  · simp at he
  split at he
  · simp at he
  split at he
  · simp only [List.mem_singleton] at he
    exact Or.inl ⟨false, he⟩
  split at he
  · simp only [url_processor.download, List.mem_append, List.mem_cons, List.mem_singleton,
      List.not_mem_nil, or_false] at he
    rcases he with (rfl | rfl | rfl) | rfl | rfl
    · exact Or.inl ⟨true, rfl⟩
    · exact Or.inr (Or.inl rfl)
    · exact Or.inr (Or.inr (Or.inl rfl))
    · exact Or.inr (Or.inr (Or.inr (Or.inl rfl)))
    · exact Or.inr (Or.inr (Or.inr (Or.inr (Or.inl rfl))))
  · simp only [List.mem_cons, List.mem_singleton, List.not_mem_nil, or_false] at he
    rcases he with rfl | rfl | rfl
    · exact Or.inl ⟨true, rfl⟩
    · exact Or.inr (Or.inl rfl)
    · exact Or.inr (Or.inr (Or.inr (Or.inr (Or.inr rfl))))

theorem mem_up_candidate_loop (env : url_processor_env) (reply : network_reply)
    (d : url_processor_data) (urls : List String) (e : event)
    (he : e ∈ (url_processor.candidate_loop env reply d urls).2) :
    ∃ d1 url, url ∈ urls ∧ e ∈ (url_processor.process_candidate env reply d1 url).2 := by
  induction urls generalizing d with
  | nil => simp [url_processor.candidate_loop] at he
  | cons u us ih =>
    unfold url_processor.candidate_loop at he
    simp only [List.mem_append] at he
    rcases he with he | he
    · exact ⟨d, u, List.mem_cons_self _ _, he⟩
    · obtain ⟨d1, url, hu, h1⟩ := ih _ he
      exact ⟨d1, url, List.mem_cons_of_mem _ hu, h1⟩

/-- Every action of `process_text` is the parse, the index update, the log and
re-download after an index exception, or an action of the candidate loop. -/
theorem mem_up_process_text (env : url_processor_env) (d : url_processor_data)
    (reply : network_reply) (ts : dnet_time) (e : event)
    (he : e ∈ (url_processor.process_text env d reply ts).trace) :
    e = event.parse reply.data ∨
    e = event.storage_process reply.url (env.parser_text reply.data) ts
      (env.m_base ++ ".collection") ∨
    e = event.cerr_index_exception reply.url ∨
    e = event.cout_downloading reply.request_url ∨
    e = event.feed reply.request_url ∨
    ∃ d1 url, url ∈ env.parser_urls reply.data ∧
      e ∈ (url_processor.process_candidate env reply d1 url).2 := by
  have hidx : ∀ e, e ∈ ([event.parse reply.data, event.storage_process reply.url
        (env.parser_text reply.data) ts (env.m_base ++ ".collection")] ++
      (match env.m_st.process_raises reply.url (env.parser_text reply.data) ts
          (env.m_base ++ ".collection") with
        | some _ => event.cerr_index_exception reply.url ::
            url_processor.download reply.request_url
        | none => [])) →
      e = event.parse reply.data ∨
      e = event.storage_process reply.url (env.parser_text reply.data) ts
        (env.m_base ++ ".collection") ∨
      e = event.cerr_index_exception reply.url ∨
      e = event.cout_downloading reply.request_url ∨
      e = event.feed reply.request_url ∨
      ∃ d1 url, url ∈ env.parser_urls reply.data ∧
        e ∈ (url_processor.process_candidate env reply d1 url).2 := by
    intro e he
    simp only [List.mem_append, List.mem_cons, List.mem_singleton, List.not_mem_nil,
      or_false] at he
    rcases he with (rfl | rfl) | he
    · simp
    · simp
    · split at he
      · simp only [url_processor.download, List.mem_cons, List.mem_singleton,
          List.not_mem_nil, or_false] at he
        rcases he with rfl | rfl | rfl <;> simp
      · simp at he
  unfold url_processor.process_text at he
  simp only at he
  split at he
  · exact hidx e he
  split at he
  · exact hidx e he
  · rw [List.mem_append] at he
    rcases he with he | he
    · exact hidx e he
    · have hloop := mem_up_candidate_loop _ _ _ _ _ he
      simp only [hloop, or_true]

/-- No action of the body of `url_processor::process_url` is a store write. -/
theorem up_run_body_events (env : url_processor_env) (d : url_processor_data)
    (reply : network_reply) (text : Bool) (e : event)
    (he : e ∈ (url_processor.run_body env d reply text).trace) : e.written = none := by
  unfold url_processor.run_body at he
  cases text with
  | true =>
    simp only [if_true] at he
    rcases mem_up_process_text _ _ _ _ _ he with rfl | rfl | rfl | rfl | rfl | ⟨d1, url, _, h1⟩
    · rfl
    · rfl
    · rfl
    · rfl
    · rfl
    · rcases mem_up_process_candidate _ _ _ _ _ h1 with
        ⟨b, rfl⟩ | rfl | rfl | rfl | rfl | rfl <;> rfl
  | false =>
    simp only [Bool.false_eq_true, if_false, List.mem_singleton] at he
    subst he
    rfl

/-! ## Redirect bookkeeping -/

theorem writes_persist_events (ts : dnet_time) (reply : network_reply) :
    writes (persist_events ts reply) = pending_writes ts reply := by
  unfold writes persist_events pending_writes
  by_cases hr : reply.url = reply.request_url
  · simp [hr, List.filterMap, event.written]
  · simp [hr, List.filterMap, event.written]

/-- The store writes of an error-free `engine_data::process_url` are the
pending writes of the persist step. -/
theorem ed_writes_process_url (env : engine_env) (d : engine_data) (reply : network_reply)
    (h : reply.error = 0) :
    writes (engine_data.process_url env d reply).trace =
      pending_writes env.dnet_current_time reply := by
  rw [ed_process_url_ok env d reply h]
  simp only [writes, List.filterMap_append]
  have h1 : List.filterMap event.written
      [event.cout_processing reply.request_url reply.url d.total] = [] := rfl
  have h2 : List.filterMap event.written
      (engine_data.filter_loop reply env.filters 0 true).2 = [] :=
    filterMap_nil_of_forall _ _ (fun e he => by
      obtain ⟨k, r, rfl⟩ := mem_filter_loop _ _ _ _ _ he
      rfl)
  have h3 := writes_persist_events env.dnet_current_time reply
  have h4 : List.filterMap event.written
      (engine_data.run_hooks env reply (engine_data.after_persist d reply)
        (engine_data.filter_loop reply env.filters 0 true).1).trace = [] :=
    filterMap_nil_of_forall _ _ (fun e he => (ed_run_hooks_events _ _ _ _ _ he).1)
  have h5 : List.filterMap event.written
      (match (engine_data.run_hooks env reply (engine_data.after_persist d reply)
          (engine_data.filter_loop reply env.filters 0 true).1).raised with
        | some _ => []
        | none => engine_data.join_writes env reply
            (pending_writes env.dnet_current_time reply)) = [] :=
    filterMap_nil_of_forall _ _ (fun e he => by
      split at he
      · simp at he
      · rcases mem_ed_join_writes _ _ _ _ he with ⟨w, rfl⟩ | rfl <;> rfl)
  unfold writes at h3
  rw [h1, h2, h3, h4, h5]
  simp [pending_writes]

/-! ## The error branch -/

/-- C6 (the code at the failing input, in general): when a fetch completes
with an error, `process_url` logs and returns; a url `U` that is in the
inflight set stays there, so a later `inflight_insert(U)` returns false.  This
holds for `engine_data::process_url` and for `url_processor::process_url`. -/
theorem error_completion_keeps_inflight (env : engine_env) (d : engine_data)
    (uenv : url_processor_env) (ud : url_processor_data) (reply : network_reply) (U : String)
    (herr : reply.error ≠ 0) (hd : U ∈ d.inflight) (hud : U ∈ ud.m_inflight) :
    ((engine_data.process_url env d reply).data = d ∧
      U ∈ (engine_data.process_url env d reply).data.inflight ∧
      (engine_data.inflight_insert (engine_data.process_url env d reply).data U).1 = false) ∧
    ((url_processor.process_url uenv ud reply).data = ud ∧
      U ∈ (url_processor.process_url uenv ud reply).data.m_inflight ∧
      (url_processor.inflight_insert (url_processor.process_url uenv ud reply).data U).1
        = false) := by
  rw [ed_process_url_error env d reply herr, up_process_url_error uenv ud reply herr]
  refine ⟨⟨rfl, hd, ?_⟩, ⟨rfl, hud, ?_⟩⟩
  · simp [engine_data.inflight_insert, hd]
  · simp [url_processor.inflight_insert, hud]

/-- Witness for C6: the fetch of `http://example.com/a`, acquired before it was
issued, fails with error -110; afterwards the url is still in the set and the
next `inflight_insert` on it answers false. -/
theorem error_completion_keeps_inflight_witness :
    (engine_data.process_url sample_env ⟨{"http://example.com/a"}, 1⟩
        ⟨"http://example.com/a", "http://example.com/a", "", [], -110⟩).data
      = ⟨{"http://example.com/a"}, 1⟩ ∧
    (engine_data.inflight_insert
      (engine_data.process_url sample_env ⟨{"http://example.com/a"}, 1⟩
        ⟨"http://example.com/a", "http://example.com/a", "", [], -110⟩).data
      "http://example.com/a").1 = false :=
  have h := error_completion_keeps_inflight sample_env ⟨{"http://example.com/a"}, 1⟩
    (sample_url_env recursion.full) ⟨{"http://example.com/a"}, 1⟩
    ⟨"http://example.com/a", "http://example.com/a", "", [], -110⟩ "http://example.com/a"
    (by decide) (by decide) (by decide)
  ⟨h.1.1, h.1.2.2⟩

/-! ## The filter loop -/

theorem filter_loop_false (reply : network_reply) (fs : List filter_functor) (i : Nat) :
    engine_data.filter_loop reply fs i false = (false, []) := by
  cases fs <;> simp [engine_data.filter_loop]

theorem filter_loop_accepted (reply : network_reply) (fs : List filter_functor) (i : Nat) :
    (engine_data.filter_loop reply fs i true).1 = fs.all (fun f => f reply) := by
  induction fs generalizing i with
  | nil => simp [engine_data.filter_loop]
  | cons f fs ih =>
    unfold engine_data.filter_loop
    simp only [if_true, Bool.true_and, List.all_cons]
    cases hf : f reply with
    | true => simpa using ih (i + 1)
    | false => simp [filter_loop_false]

theorem filter_calls_filter_loop (reply : network_reply) (fs : List filter_functor) (i : Nat) :
    filter_calls (engine_data.filter_loop reply fs i true).2 = short_circuit_calls reply fs i := by
  induction fs generalizing i with
  | nil => simp [engine_data.filter_loop, filter_calls, short_circuit_calls]
  | cons f fs ih =>
    unfold engine_data.filter_loop short_circuit_calls
    simp only [if_true, Bool.true_and]
    cases hf : f reply with
    | true =>
      have := ih (i + 1)
      simp only [filter_calls] at this ⊢
      simp [List.filterMap_cons, event.filtered, this]
    | false =>
      simp [filter_loop_false, filter_calls, List.filterMap_cons, event.filtered]

theorem short_circuit_calls_fst (reply : network_reply) (fs : List filter_functor) (i : Nat) :
    (short_circuit_calls reply fs i).map Prod.fst =
      List.range' i (short_circuit_calls reply fs i).length := by
  induction fs generalizing i with
  | nil => simp [short_circuit_calls]
  | cons f fs ih =>
    unfold short_circuit_calls
    cases hf : f reply with
    | true => simp [List.range'_succ, ih (i + 1)]
    | false => simp [List.range'_succ]

theorem mem_short_circuit_calls (reply : network_reply) (fs : List filter_functor) (i0 : Nat)
    (i : Nat) (r : Bool) :
    (i, r) ∈ short_circuit_calls reply fs i0 ↔
      ∃ j, i = i0 + j ∧ (∃ f, fs[j]? = some f ∧ r = f reply) ∧
        ∀ k, k < j → ∀ g, fs[k]? = some g → g reply = true := by
  induction fs generalizing i0 with
  | nil => simp [short_circuit_calls]
  | cons f fs ih =>
    unfold short_circuit_calls
    rw [List.mem_cons]
    constructor
    · rintro (h | h)
      · rw [Prod.mk.injEq] at h
        exact ⟨0, by omega, ⟨f, by simp, h.2⟩, fun k hk => absurd hk (Nat.not_lt_zero k)⟩
      · cases hf : f reply with
        | false => simp [hf] at h
        | true =>
          rw [hf, if_pos rfl] at h
          obtain ⟨j, hj, ⟨g, hg, hr⟩, hall⟩ := (ih (i0 + 1)).1 h
          refine ⟨j + 1, by omega, ⟨g, by simpa using hg, hr⟩, ?_⟩
          intro k hk g1 hg1
          cases k with
          | zero =>
            simp only [List.getElem?_cons_zero, Option.some.injEq] at hg1
            rw [← hg1]
            exact hf
          | succ k =>
            simp only [List.getElem?_cons_succ] at hg1
            exact hall k (by omega) g1 hg1
    · rintro ⟨j, hj, ⟨g, hg, hr⟩, hall⟩
      cases j with
      | zero =>
        simp only [List.getElem?_cons_zero, Option.some.injEq] at hg
        left
        rw [Prod.mk.injEq]
        exact ⟨by omega, by rw [hr, hg]⟩
      | succ j =>
        right
        have hf : f reply = true := hall 0 (by omega) f (by simp)
        rw [hf, if_pos rfl]
        refine (ih (i0 + 1)).2 ⟨j, by omega, ⟨g, by simpa using hg, hr⟩, ?_⟩
        intro k hk g1 hg1
        exact hall (k + 1) (by omega) g1 (by simpa using hg1)

theorem filter_calls_process_url (env : engine_env) (d : engine_data) (reply : network_reply)
    (h : reply.error = 0) :
    filter_calls (engine_data.process_url env d reply).trace =
      short_circuit_calls reply env.filters 0 := by
  rw [ed_process_url_ok env d reply h]
  have h1 : List.filterMap event.filtered
      [event.cout_processing reply.request_url reply.url d.total] = [] := rfl
  have h2 := filter_calls_filter_loop reply env.filters 0
  have h3 : List.filterMap event.filtered (persist_events env.dnet_current_time reply) = [] :=
    filterMap_nil_of_forall _ _ (fun e he => by
      unfold persist_events at he
      by_cases hr : reply.url = reply.request_url
      · simp only [hr, ne_eq, not_true_eq_false, if_false, List.append_nil, List.mem_cons,
          List.mem_singleton, List.not_mem_nil, or_false] at he
        rcases he with rfl | rfl <;> rfl
      · simp only [hr, ne_eq, not_false_eq_true, if_true, List.mem_append, List.mem_cons,
          List.mem_singleton, List.not_mem_nil, or_false] at he
        rcases he with (rfl | rfl) | rfl | rfl <;> rfl)
  have h4 : List.filterMap event.filtered
      (engine_data.run_hooks env reply (engine_data.after_persist d reply)
        (engine_data.filter_loop reply env.filters 0 true).1).trace = [] :=
    filterMap_nil_of_forall _ _ (fun e he => (ed_run_hooks_events _ _ _ _ _ he).2)
  have h5 : List.filterMap event.filtered
      (match (engine_data.run_hooks env reply (engine_data.after_persist d reply)
          (engine_data.filter_loop reply env.filters 0 true).1).raised with
        | some _ => []
        | none => engine_data.join_writes env reply
            (pending_writes env.dnet_current_time reply)) = [] :=
    filterMap_nil_of_forall _ _ (fun e he => by
      split at he
      · simp at he
      · rcases mem_ed_join_writes _ _ _ _ he with ⟨w, rfl⟩ | rfl <;> rfl)
  simp only [filter_calls, List.filterMap_append] at h2 ⊢
  rw [h1, h2, h3, h4, h5]
  simp

/-- C8: filter conjunction short-circuit.  For every list of registered
filters and every error-free reply, the filter calls `process_url` makes are
calls on the indices `0, 1, 2, ...` in this order, each index at most once;
filter `i` is called, with result `r`, exactly when it is registered, `r` is its
answer on the reply, and every filter before it accepted; so when filter `i`
rejects no filter `j > i` is called.  The decision `accepted_by_filters` is the
conjunction of the answers of all filters (true for the empty list), and it is
the decision the handler acts on. -/
theorem filter_conjunction_short_circuit (env : engine_env) (d : engine_data)
    (reply : network_reply) (h : reply.error = 0) :
    (filter_calls (engine_data.process_url env d reply).trace).map Prod.fst =
      List.range (filter_calls (engine_data.process_url env d reply).trace).length ∧
    (∀ i r, (i, r) ∈ filter_calls (engine_data.process_url env d reply).trace ↔
      (∃ f, env.filters[i]? = some f ∧ r = f reply) ∧
        ∀ k, k < i → ∀ g, env.filters[k]? = some g → g reply = true) ∧
    (∀ i j f r, i < j → env.filters[i]? = some f → f reply = false →
      (j, r) ∉ filter_calls (engine_data.process_url env d reply).trace) ∧
    (engine_data.filter_loop reply env.filters 0 true).1 = env.filters.all (fun f => f reply) ∧
    (engine_data.process_url env d reply).data =
      (engine_data.run_hooks env reply (engine_data.after_persist d reply)
        (env.filters.all (fun f => f reply))).data ∧
    (engine_data.process_url env d reply).raised =
      (engine_data.run_hooks env reply (engine_data.after_persist d reply)
        (env.filters.all (fun f => f reply))).raised := by
  have hmem : ∀ i r, (i, r) ∈ filter_calls (engine_data.process_url env d reply).trace ↔
      (∃ f, env.filters[i]? = some f ∧ r = f reply) ∧
        ∀ k, k < i → ∀ g, env.filters[k]? = some g → g reply = true := by
    intro i r
    rw [filter_calls_process_url env d reply h, mem_short_circuit_calls]
    constructor
    · rintro ⟨j, hj, hf, hall⟩
      have : i = j := by omega
      subst this
      exact ⟨hf, hall⟩
    · rintro ⟨hf, hall⟩
      exact ⟨i, by omega, hf, hall⟩
  refine ⟨?_, hmem, ?_, filter_loop_accepted reply env.filters 0, ?_, ?_⟩
  · rw [filter_calls_process_url env d reply h, short_circuit_calls_fst, List.range_eq_range']
  · intro i j f r hij hf hrej hin
    have := ((hmem j r).1 hin).2 i hij f hf
    rw [hrej] at this
    exact Bool.noConfusion this
  · rw [ed_process_url_ok env d reply h, filter_loop_accepted]
  · rw [ed_process_url_ok env d reply h, filter_loop_accepted]

/-- Witness for C8: with filters accept, reject, accept registered, the first
two are called and the third is not; the reply is not accepted. -/
theorem filter_conjunction_short_circuit_witness :
    filter_calls (engine_data.process_url sample_filter_env ⟨∅, 0⟩
        (sample_reply "http://example.com/" "http://example.com/" "")).trace
      = [(0, true), (1, false)] ∧
    (engine_data.filter_loop (sample_reply "http://example.com/" "http://example.com/" "")
      sample_filter_env.filters 0 true).1 = false :=
  ⟨by decide,
    (filter_conjunction_short_circuit sample_filter_env ⟨∅, 0⟩
      (sample_reply "http://example.com/" "http://example.com/" "") (by decide)).2.2.2.1.trans
      (by decide)⟩

/-! ## The cache check -/

theorem fetches_append (a b : List event) : fetches (a ++ b) = fetches a ++ fetches b := by
  simp [fetches, List.filterMap_append]

theorem fetches_url_filter_loop (reply : network_reply) (url : String)
    (fs : List url_filter_functor) (j : Nat) (ok : Bool) :
    fetches (engine_data.url_filter_loop reply url fs j ok).2 = [] :=
  filterMap_nil_of_forall _ _ (fun e he => by
    obtain ⟨k, r, rfl⟩ := mem_url_filter_loop _ _ _ _ _ _ he
    rfl)

theorem fetches_run_processors (reply : network_reply) (tag : document_type)
    (ps : List process_functor) (i : Nat) :
    fetches (engine_data.run_processors reply tag ps i).1 = [] :=
  filterMap_nil_of_forall _ _ (fun e he => by
    obtain ⟨k, rfl⟩ := mem_run_processors _ _ _ _ _ he
    rfl)

theorem ed_erase_insert (d : engine_data) (u : String) (h : u ∉ d.inflight) :
    engine_data.infligt_erase (engine_data.inflight_insert d u).2 u = d := by
  unfold engine_data.inflight_insert engine_data.infligt_erase
  simp [h]

/-- One iteration of the candidate loop for a candidate that passes
discarding, the url-filters and `inflight_insert`, when the store lookup
reports no error. -/
theorem ed_process_candidate_cached (env : engine_env) (reply : network_reply)
    (d : engine_data) (url : String)
    (hscheme : (compare_ne (env.net.relative reply.url url).1 6 "https:" &&
      compare_ne (env.net.relative reply.url url).1 5 "http:") = false)
    (hvalid : ((env.net.relative reply.url url).1.data.isEmpty ||
      (env.net.relative reply.url url).2.data.isEmpty ||
      (env.net.relative reply.url url).1 == reply.url) = false)
    (hfilters : (engine_data.url_filter_loop reply url env.url_filters 0 true).1 = true)
    (hacquire : (env.net.relative reply.url url).1 ∉ d.inflight)
    (hread : env.storage.read_data_error (env.net.relative reply.url url).1 = false) :
    engine_data.process_candidate env reply d url =
      match (engine_data.run_processors reply document_type.document_cache
          env.processors 0).2 with
      | some e =>
        ⟨(engine_data.inflight_insert d (env.net.relative reply.url url).1).2,
          (engine_data.url_filter_loop reply url env.url_filters 0 true).2 ++
            [event.inflight_insert (env.net.relative reply.url url).1 true,
              event.read_data (env.net.relative reply.url url).1] ++
            (engine_data.run_processors reply document_type.document_cache
              env.processors 0).1, some e⟩
      | none =>
        ⟨d, (engine_data.url_filter_loop reply url env.url_filters 0 true).2 ++
            [event.inflight_insert (env.net.relative reply.url url).1 true,
              event.read_data (env.net.relative reply.url url).1] ++
            (engine_data.run_processors reply document_type.document_cache
              env.processors 0).1 ++
            [event.infligt_erase (env.net.relative reply.url url).1], none⟩ := by
  have hins : (engine_data.inflight_insert d (env.net.relative reply.url url).1).1 = true :=
    (ed_inflight_insert_fst d _).2 hacquire
  unfold engine_data.process_candidate
  simp only [hscheme, hvalid, hfilters, hins, hread, Bool.false_eq_true, if_false, if_true,
    Bool.not_true]
  split
  · rfl
  · rw [ed_erase_insert d _ hacquire]

/-! ## One iteration of the candidate loop, by cases -/

/-- The six ways one iteration of the engine's candidate loop can go:
discarded; rejected by a url-filter; already inflight; acquired and fetched
(lookup error); acquired and a processor threw; acquired, processed from
cache and released. -/
theorem ed_process_candidate_cases (env : engine_env) (reply : network_reply)
    (d : engine_data) (url : String) :
    engine_data.process_candidate env reply d url = ⟨d, [], none⟩ ∨
    engine_data.process_candidate env reply d url =
      ⟨d, (engine_data.url_filter_loop reply url env.url_filters 0 true).2, none⟩ ∨
    ((env.net.relative reply.url url).1 ∈ d.inflight ∧
      engine_data.process_candidate env reply d url =
        ⟨d, (engine_data.url_filter_loop reply url env.url_filters 0 true).2 ++
          [event.inflight_insert (env.net.relative reply.url url).1 false], none⟩) ∨
    ((env.net.relative reply.url url).1 ∉ d.inflight ∧
      engine_data.process_candidate env reply d url =
        ⟨⟨insert (env.net.relative reply.url url).1 d.inflight, d.total⟩,
          (engine_data.url_filter_loop reply url env.url_filters 0 true).2 ++
            [event.inflight_insert (env.net.relative reply.url url).1 true,
              event.read_data (env.net.relative reply.url url).1,
              event.cout_page_cache (env.net.relative reply.url url).1,
              event.cout_downloading (env.net.relative reply.url url).1,
              event.feed (env.net.relative reply.url url).1], none⟩) ∨
    ((env.net.relative reply.url url).1 ∉ d.inflight ∧
      ∃ e, engine_data.process_candidate env reply d url =
        ⟨⟨insert (env.net.relative reply.url url).1 d.inflight, d.total⟩,
          (engine_data.url_filter_loop reply url env.url_filters 0 true).2 ++
            [event.inflight_insert (env.net.relative reply.url url).1 true,
              event.read_data (env.net.relative reply.url url).1] ++
            (engine_data.run_processors reply document_type.document_cache
              env.processors 0).1, some e⟩) ∨
    ((env.net.relative reply.url url).1 ∉ d.inflight ∧
      engine_data.process_candidate env reply d url =
        ⟨d, (engine_data.url_filter_loop reply url env.url_filters 0 true).2 ++
            [event.inflight_insert (env.net.relative reply.url url).1 true,
              event.read_data (env.net.relative reply.url url).1] ++
            (engine_data.run_processors reply document_type.document_cache
              env.processors 0).1 ++
            [event.infligt_erase (env.net.relative reply.url url).1], none⟩) := by
  cases h1 : (compare_ne (env.net.relative reply.url url).1 6 "https:" &&
      compare_ne (env.net.relative reply.url url).1 5 "http:") with
  | true =>
    left
    unfold engine_data.process_candidate
    simp only [h1, if_true]
  | false =>
  cases h2 : ((env.net.relative reply.url url).1.data.isEmpty ||
      (env.net.relative reply.url url).2.data.isEmpty ||
      (env.net.relative reply.url url).1 == reply.url) with
  | true =>
    left
    unfold engine_data.process_candidate
    simp only [h1, h2, if_true, if_false, Bool.false_eq_true]
  | false =>
  cases h3 : (engine_data.url_filter_loop reply url env.url_filters 0 true).1 with
  | false =>
    right; left
    unfold engine_data.process_candidate
    simp only [h1, h2, h3, if_false, Bool.false_eq_true]
  | true =>
  right; right
  by_cases h4 : (env.net.relative reply.url url).1 ∈ d.inflight
  · left
    refine ⟨h4, ?_⟩
    unfold engine_data.process_candidate
    simp only [h1, h2, h3, if_true, if_false, Bool.false_eq_true]
    simp [engine_data.inflight_insert, h4]
  right
  have hins : engine_data.inflight_insert d (env.net.relative reply.url url).1 =
      (true, ⟨insert (env.net.relative reply.url url).1 d.inflight, d.total⟩) := by
    simp [engine_data.inflight_insert, h4]
  cases h5 : env.storage.read_data_error (env.net.relative reply.url url).1 with
  | true =>
    left
    refine ⟨h4, ?_⟩
    unfold engine_data.process_candidate
    simp only [h1, h2, h3, if_true, if_false, hins, h5, Bool.not_true, Bool.false_eq_true,
      engine_data.download]
    simp
  | false =>
    right
    have hform := ed_process_candidate_cached env reply d url h1 h2 h3 h4 h5
    cases h6 : (engine_data.run_processors reply document_type.document_cache
        env.processors 0).2 with
    | some e =>
      left
      refine ⟨h4, e, ?_⟩
      rw [hform, h6, hins]
    | none =>
      right
      refine ⟨h4, ?_⟩
      rw [hform, h6]

/-! ## Release of acquired urls -/

theorem acquire_not_mem_url_filter_loop (reply : network_reply) (url : String)
    (fs : List url_filter_functor) (j : Nat) (ok : Bool) (u : String) (b : Bool) :
    event.inflight_insert u b ∉ (engine_data.url_filter_loop reply url fs j ok).2 := by
  intro h
  obtain ⟨k, r, hk⟩ := mem_url_filter_loop _ _ _ _ _ _ h
  exact event.noConfusion hk

theorem acquire_not_mem_run_processors (reply : network_reply) (tag : document_type)
    (ps : List process_functor) (i : Nat) (u : String) (b : Bool) :
    event.inflight_insert u b ∉ (engine_data.run_processors reply tag ps i).1 := by
  intro h
  obtain ⟨k, hk⟩ := mem_run_processors _ _ _ _ _ h
  exact event.noConfusion hk

theorem fetches_singleton_feed (a : List event) (b : List event) (r : String)
    (ha : fetches a = []) (hb : fetches b = []) :
    fetches (a ++ event.feed r :: b) = [r] := by
  rw [fetches_append, ha]
  simp only [fetches, List.filterMap_cons, event.fed, List.nil_append] at hb ⊢
  rw [hb]

/-- The fetches of one iteration: the resolved url when the lookup reported an
error, nothing otherwise. -/
theorem ed_process_candidate_fetches (env : engine_env) (reply : network_reply)
    (d : engine_data) (url : String) :
    (fetches (engine_data.process_candidate env reply d url).trace = [] ∧
      (∀ b, event.inflight_insert (env.net.relative reply.url url).1 b ∈
          (engine_data.process_candidate env reply d url).trace →
        (env.net.relative reply.url url).1 ∈
            (engine_data.process_candidate env reply d url).data.inflight →
        (engine_data.process_candidate env reply d url).raised = none →
        (env.net.relative reply.url url).1 ∈ d.inflight)) ∨
    (fetches (engine_data.process_candidate env reply d url).trace =
        [(env.net.relative reply.url url).1] ∧
      (env.net.relative reply.url url).1 ∉ d.inflight ∧
      (engine_data.process_candidate env reply d url).data =
        ⟨insert (env.net.relative reply.url url).1 d.inflight, d.total⟩) := by
  rcases ed_process_candidate_cases env reply d url with
    h | h | ⟨hin, h⟩ | ⟨hin, h⟩ | ⟨hin, e, h⟩ | ⟨hin, h⟩
  · left
    rw [h]
    exact ⟨rfl, fun b hb => absurd hb (List.not_mem_nil _)⟩
  · left
    rw [h]
    exact ⟨fetches_url_filter_loop _ _ _ _ _, fun b hb =>
      absurd hb (acquire_not_mem_url_filter_loop _ _ _ _ _ _ _)⟩
  · left
    rw [h]
    refine ⟨?_, fun _ _ _ _ => hin⟩
    rw [fetches_append, fetches_url_filter_loop]
    rfl
  · right
    rw [h]
    refine ⟨?_, hin, rfl⟩
    have : (engine_data.url_filter_loop reply url env.url_filters 0 true).2 ++
        [event.inflight_insert (env.net.relative reply.url url).1 true,
          event.read_data (env.net.relative reply.url url).1,
          event.cout_page_cache (env.net.relative reply.url url).1,
          event.cout_downloading (env.net.relative reply.url url).1,
          event.feed (env.net.relative reply.url url).1] =
        ((engine_data.url_filter_loop reply url env.url_filters 0 true).2 ++
          [event.inflight_insert (env.net.relative reply.url url).1 true,
            event.read_data (env.net.relative reply.url url).1,
            event.cout_page_cache (env.net.relative reply.url url).1,
            event.cout_downloading (env.net.relative reply.url url).1]) ++
          event.feed (env.net.relative reply.url url).1 :: [] := by simp
    rw [this]
    apply fetches_singleton_feed
    · rw [fetches_append, fetches_url_filter_loop]
      rfl
    · rfl
  · left
    rw [h]
    refine ⟨?_, fun _ _ _ hr => Option.noConfusion hr⟩
    simp only [fetches_append, fetches_url_filter_loop, fetches_run_processors]
    rfl
  · left
    rw [h]
    refine ⟨?_, fun _ _ hm _ => hm⟩
    simp only [fetches_append, fetches_url_filter_loop, fetches_run_processors]
    rfl

/-- The inflight set after one iteration: it contains the set before, and
anything new is the resolved url. -/
theorem ed_process_candidate_inflight (env : engine_env) (reply : network_reply)
    (d : engine_data) (url : String) :
    d.inflight ⊆ (engine_data.process_candidate env reply d url).data.inflight ∧
    ∀ u, u ∈ (engine_data.process_candidate env reply d url).data.inflight →
      u ∈ d.inflight ∨ u = (env.net.relative reply.url url).1 := by
  rcases ed_process_candidate_cases env reply d url with
    h | h | ⟨hin, h⟩ | ⟨hin, h⟩ | ⟨hin, e, h⟩ | ⟨hin, h⟩ <;> rw [h] <;> simp only <;>
    first
    | exact ⟨Finset.Subset.refl _, fun u hu => Or.inl hu⟩
    | exact ⟨Finset.subset_insert _ _, fun u hu => (Finset.mem_insert.1 hu).symm⟩

/-- Every acquire of one iteration is on the resolved url. -/
theorem ed_process_candidate_acquire (env : engine_env) (reply : network_reply)
    (d : engine_data) (url : String) (u : String) (b : Bool)
    (h : event.inflight_insert u b ∈ (engine_data.process_candidate env reply d url).trace) :
    u = (env.net.relative reply.url url).1 := by
  rcases mem_ed_process_candidate _ _ _ _ _ h with
    ⟨k, r, hk⟩ | ⟨c, hk⟩ | hk | hk | hk | hk | ⟨k, hk⟩ | hk
  · exact event.noConfusion hk
  · injection hk
  · exact event.noConfusion hk
  · exact event.noConfusion hk
  · exact event.noConfusion hk
  · exact event.noConfusion hk
  · exact event.noConfusion hk
  · exact event.noConfusion hk

/-- One iteration that returns normally leaves no url acquired and not
fetched in the set, and adds no other url. -/
theorem ed_process_candidate_release (env : engine_env) (reply : network_reply)
    (d : engine_data) (url : String) (u : String)
    (hr : (engine_data.process_candidate env reply d url).raised = none)
    (hf : u ∉ fetches (engine_data.process_candidate env reply d url).trace)
    (h : event.inflight_insert u true ∈ (engine_data.process_candidate env reply d url).trace ∨
      u ∉ d.inflight) :
    u ∉ (engine_data.process_candidate env reply d url).data.inflight := by
  intro hu
  rcases ed_process_candidate_fetches env reply d url with ⟨_, hrel⟩ | ⟨hfe, hnin, hdata⟩
  · rcases h with h | h
    · have hur := ed_process_candidate_acquire env reply d url u true h
      subst hur
      have hd := hrel true h hu hr
      rcases (ed_process_candidate_inflight env reply d url).2 _ hu with h1 | _
      · -- the url was in the set before: then the acquire answered false
        rcases ed_process_candidate_cases env reply d url with
          c | c | ⟨hin, c⟩ | ⟨hin, c⟩ | ⟨hin, e, c⟩ | ⟨hin, c⟩
        · rw [c] at h
          exact absurd h (List.not_mem_nil _)
        · rw [c] at h
          exact acquire_not_mem_url_filter_loop _ _ _ _ _ _ _ h
        · rw [c] at h
          simp only [List.mem_append, List.mem_singleton, event.inflight_insert.injEq,
            true_and] at h
          rcases h with h | h
          · exact acquire_not_mem_url_filter_loop _ _ _ _ _ _ _ h
          · exact Bool.noConfusion h
        · exact hin hd
        · exact hin hd
        · exact hin hd
      · exact absurd hd (by
          intro hd
          rcases ed_process_candidate_cases env reply d url with
            c | c | ⟨hin, c⟩ | ⟨hin, c⟩ | ⟨hin, e, c⟩ | ⟨hin, c⟩
          · rw [c] at h
            exact absurd h (List.not_mem_nil _)
          · rw [c] at h
            exact acquire_not_mem_url_filter_loop _ _ _ _ _ _ _ h
          · rw [c] at h
            simp only [List.mem_append, List.mem_singleton, event.inflight_insert.injEq,
              true_and] at h
            rcases h with h | h
            · exact acquire_not_mem_url_filter_loop _ _ _ _ _ _ _ h
            · exact Bool.noConfusion h
          · exact hin hd
          · exact hin hd
          · exact hin hd)
    · rcases (ed_process_candidate_inflight env reply d url).2 _ hu with h1 | h1
      · exact h h1
      · subst h1
        -- the resolved url is in the set afterwards but was not before: it was
        -- acquired, so with no fetch and no exception it was released
        rcases ed_process_candidate_cases env reply d url with
          c | c | ⟨hin, c⟩ | ⟨hin, c⟩ | ⟨hin, e, c⟩ | ⟨hin, c⟩
        · rw [c] at hu
          exact h hu
        · rw [c] at hu
          exact h hu
        · exact h hin
        · rw [c] at hf
          apply hf
          simp [fetches, List.filterMap_append, event.fed]
        · rw [c] at hr
          exact Option.noConfusion hr
        · rw [c] at hu
          exact h hu
  · rw [hfe, List.mem_singleton] at hf
    rw [hdata] at hu
    rcases Finset.mem_insert.1 hu with h1 | h1
    · exact hf h1
    · rcases h with h | h
      · exact hf (ed_process_candidate_acquire env reply d url u true h)
      · exact h h1

theorem ed_candidate_loop_cons_ok (env : engine_env) (reply : network_reply) (d : engine_data)
    (url : String) (urls : List String)
    (h : (engine_data.process_candidate env reply d url).raised = none) :
    engine_data.candidate_loop env reply d (url :: urls) =
      ⟨(engine_data.candidate_loop env reply
          (engine_data.process_candidate env reply d url).data urls).data,
        (engine_data.process_candidate env reply d url).trace ++
          (engine_data.candidate_loop env reply
            (engine_data.process_candidate env reply d url).data urls).trace,
        (engine_data.candidate_loop env reply
          (engine_data.process_candidate env reply d url).data urls).raised⟩ := by
  conv_lhs => unfold engine_data.candidate_loop
  simp only [h]

theorem ed_candidate_loop_cons_raise (env : engine_env) (reply : network_reply)
    (d : engine_data) (url : String) (urls : List String) (e : String)
    (h : (engine_data.process_candidate env reply d url).raised = some e) :
    engine_data.candidate_loop env reply d (url :: urls) =
      ⟨(engine_data.process_candidate env reply d url).data,
        (engine_data.process_candidate env reply d url).trace, some e⟩ := by
  conv_lhs => unfold engine_data.candidate_loop
  simp only [h]

/-- A candidate loop that returns normally leaves no url in the set that it
acquired and did not fetch, and adds no url it did not acquire. -/
theorem ed_candidate_loop_release (env : engine_env) (reply : network_reply)
    (urls : List String) (d : engine_data) (u : String)
    (hr : (engine_data.candidate_loop env reply d urls).raised = none)
    (hf : u ∉ fetches (engine_data.candidate_loop env reply d urls).trace)
    (h : event.inflight_insert u true ∈ (engine_data.candidate_loop env reply d urls).trace ∨
      u ∉ d.inflight) :
    u ∉ (engine_data.candidate_loop env reply d urls).data.inflight := by
  induction urls generalizing d with
  | nil =>
    simp only [engine_data.candidate_loop, List.not_mem_nil, false_or] at h ⊢
    exact h
  | cons url urls ih =>
    cases ho : (engine_data.process_candidate env reply d url).raised with
    | some e =>
      rw [ed_candidate_loop_cons_raise env reply d url urls e ho] at hr
      exact Option.noConfusion hr
    | none =>
      rw [ed_candidate_loop_cons_ok env reply d url urls ho] at hr hf h ⊢
      simp only at hr hf h ⊢
      rw [fetches_append, List.mem_append, not_or] at hf
      apply ih _ hr hf.2
      rw [List.mem_append] at h
      rcases h with (h | h) | h
      · exact Or.inr (ed_process_candidate_release env reply d url u ho hf.1 (Or.inl h))
      · exact Or.inl h
      · exact Or.inr (ed_process_candidate_release env reply d url u ho hf.1 (Or.inr h))

/-- The hooks either leave the members alone, acquiring and fetching nothing,
or run the candidate loop on the merged parser output after processor and
parser calls. -/
theorem ed_run_hooks_cases (env : engine_env) (reply : network_reply) (d : engine_data)
    (acc : Bool) :
    ((engine_data.run_hooks env reply d acc).data = d ∧
      fetches (engine_data.run_hooks env reply d acc).trace = [] ∧
      ∀ u b, event.inflight_insert u b ∉ (engine_data.run_hooks env reply d acc).trace) ∨
    ∃ pre, fetches pre = [] ∧ (∀ u b, event.inflight_insert u b ∉ pre) ∧
      engine_data.run_hooks env reply d acc =
        ⟨(engine_data.candidate_loop env reply d
            (sort_unique (engine_data.run_parsers reply env.parsers 0).1)).data,
          pre ++ (engine_data.candidate_loop env reply d
            (sort_unique (engine_data.run_parsers reply env.parsers 0).1)).trace,
          (engine_data.candidate_loop env reply d
            (sort_unique (engine_data.run_parsers reply env.parsers 0).1)).raised⟩ := by
  unfold engine_data.run_hooks
  cases acc with
  | false =>
    left
    simp only [Bool.false_eq_true, if_false]
    refine ⟨trivial, ?_, ?_⟩
    · exact filterMap_nil_of_forall _ _ (fun e he => by
        obtain ⟨k, rfl⟩ := mem_run_fallback_processors _ _ _ _ he
        rfl)
    · intro u b hm
      obtain ⟨k, hk⟩ := mem_run_fallback_processors _ _ _ _ hm
      exact event.noConfusion hk
  | true =>
    simp only [if_true]
    cases hp : (engine_data.run_processors reply document_type.document_new
        env.processors 0).2 with
    | some e =>
      left
      exact ⟨rfl, fetches_run_processors _ _ _ _,
        fun u b => acquire_not_mem_run_processors _ _ _ _ u b⟩
    | none =>
      right
      refine ⟨(engine_data.run_processors reply document_type.document_new
        env.processors 0).1 ++ (engine_data.run_parsers reply env.parsers 0).2, ?_, ?_, rfl⟩
      · rw [fetches_append, fetches_run_processors]
        exact filterMap_nil_of_forall _ _ (fun e he => by
          obtain ⟨k, rfl⟩ := mem_run_parsers _ _ _ _ he
          rfl)
      · intro u b hm
        rw [List.mem_append] at hm
        rcases hm with hm | hm
        · exact acquire_not_mem_run_processors _ _ _ _ u b hm
        · obtain ⟨k, hk⟩ := mem_run_parsers _ _ _ _ hm
          exact event.noConfusion hk

/-- The members, the exception, the fetches and the acquires of an error-free
`process_url` are those of its hooks. -/
theorem ed_process_url_hooks_view (env : engine_env) (d : engine_data) (reply : network_reply)
    (h : reply.error = 0) :
    (engine_data.process_url env d reply).data =
      (engine_data.run_hooks env reply (engine_data.after_persist d reply)
        (engine_data.filter_loop reply env.filters 0 true).1).data ∧
    (engine_data.process_url env d reply).raised =
      (engine_data.run_hooks env reply (engine_data.after_persist d reply)
        (engine_data.filter_loop reply env.filters 0 true).1).raised ∧
    fetches (engine_data.process_url env d reply).trace =
      fetches (engine_data.run_hooks env reply (engine_data.after_persist d reply)
        (engine_data.filter_loop reply env.filters 0 true).1).trace ∧
    ∀ u b, event.inflight_insert u b ∈ (engine_data.process_url env d reply).trace →
      event.inflight_insert u b ∈
        (engine_data.run_hooks env reply (engine_data.after_persist d reply)
          (engine_data.filter_loop reply env.filters 0 true).1).trace := by
  rw [ed_process_url_ok env d reply h]
  have hpe : ∀ e ∈ persist_events env.dnet_current_time reply,
      e.fed = none ∧ ∀ u b, e ≠ event.inflight_insert u b := by
    intro e he
    unfold persist_events at he
    by_cases hr : reply.url = reply.request_url
    · simp only [hr, ne_eq, not_true_eq_false, if_false, List.append_nil, List.mem_cons,
        List.mem_singleton, List.not_mem_nil, or_false] at he
      rcases he with rfl | rfl <;> exact ⟨rfl, fun u b hk => event.noConfusion hk⟩
    · simp only [hr, ne_eq, not_false_eq_true, if_true, List.mem_append, List.mem_cons,
        List.mem_singleton, List.not_mem_nil, or_false] at he
      rcases he with (rfl | rfl) | rfl | rfl <;>
        exact ⟨rfl, fun u b hk => event.noConfusion hk⟩
  have hjoin : ∀ e ∈ (match (engine_data.run_hooks env reply (engine_data.after_persist d reply)
          (engine_data.filter_loop reply env.filters 0 true).1).raised with
        | some _ => []
        | none => engine_data.join_writes env reply
            (pending_writes env.dnet_current_time reply)),
      e.fed = none ∧ ∀ u b, e ≠ event.inflight_insert u b := by
    intro e he
    split at he
    · simp at he
    · rcases mem_ed_join_writes _ _ _ _ he with ⟨w, rfl⟩ | rfl <;>
        exact ⟨rfl, fun u b hk => event.noConfusion hk⟩
  refine ⟨rfl, rfl, ?_, ?_⟩
  · simp only [fetches, List.filterMap_append]
    have h1 : List.filterMap event.fed
        [event.cout_processing reply.request_url reply.url d.total] = [] := rfl
    have h2 : List.filterMap event.fed
        (engine_data.filter_loop reply env.filters 0 true).2 = [] :=
      filterMap_nil_of_forall _ _ (fun e he => by
        obtain ⟨k, r, rfl⟩ := mem_filter_loop _ _ _ _ _ he
        rfl)
    have h3 : List.filterMap event.fed (persist_events env.dnet_current_time reply) = [] :=
      filterMap_nil_of_forall _ _ (fun e he => (hpe e he).1)
    rw [h1, h2, h3, filterMap_nil_of_forall _ _ (fun e he => (hjoin e he).1)]
    simp
  · intro u b hm
    simp only [List.mem_append] at hm
    rcases hm with (((hm | hm) | hm) | hm) | hm
    · simp at hm
    · obtain ⟨k, r, hk⟩ := mem_filter_loop _ _ _ _ _ hm
      exact event.noConfusion hk
    · exact absurd rfl ((hpe _ hm).2 u b)
    · exact hm
    · exact absurd rfl ((hjoin _ hm).2 u b)

/-- C5 (as amended): release completeness on normal return.  For every
invocation of `process_url` that returns normally (no processor raised), every
url it acquired with a successful `inflight_insert` and for which it issued no
fetch is out of the inflight set when the handler exits. -/
theorem release_completeness (env : engine_env) (d : engine_data) (reply : network_reply)
    (u : String)
    (hreturn : (engine_data.process_url env d reply).raised = none)
    (hacquired : event.inflight_insert u true ∈ (engine_data.process_url env d reply).trace)
    (hnofetch : u ∉ fetches (engine_data.process_url env d reply).trace) :
    u ∉ (engine_data.process_url env d reply).data.inflight := by
  by_cases herr : reply.error = 0
  · obtain ⟨hdata, hraised, hfetch, hacq⟩ := ed_process_url_hooks_view env d reply herr
    rw [hdata]
    rw [hraised] at hreturn
    rw [hfetch] at hnofetch
    have hacquired := hacq u true hacquired
    rcases ed_run_hooks_cases env reply (engine_data.after_persist d reply)
        (engine_data.filter_loop reply env.filters 0 true).1 with
      ⟨_, _, hno⟩ | ⟨pre, hpre1, hpre2, hform⟩
    · exact absurd hacquired (hno u true)
    · rw [hform] at hreturn hnofetch hacquired ⊢
      simp only at hreturn hnofetch hacquired ⊢
      rw [fetches_append, hpre1, List.nil_append] at hnofetch
      rw [List.mem_append] at hacquired
      rcases hacquired with hm | hm
      · exact absurd hm (hpre2 u true)
      · exact ed_candidate_loop_release env reply _ _ u hreturn hnofetch (Or.inl hm)
  · rw [ed_process_url_error env d reply herr] at hacquired
    simp at hacquired

/-- Witness for C5 (as amended): the handler acquires the cached url, runs the
processor, releases the url and returns normally; the url is not in the set
afterwards. -/
theorem release_completeness_witness :
    event.inflight_insert "http://example.com/cached" true ∈
      (engine_data.process_url sample_env ⟨∅, 0⟩
        (sample_reply "http://example.com/" "http://example.com/"
          "http://example.com/cached")).trace ∧
    "http://example.com/cached" ∉
      (engine_data.process_url sample_env ⟨∅, 0⟩
        (sample_reply "http://example.com/" "http://example.com/"
          "http://example.com/cached")).data.inflight :=
  ⟨by decide,
    release_completeness sample_env ⟨∅, 0⟩
      (sample_reply "http://example.com/" "http://example.com/" "http://example.com/cached")
      "http://example.com/cached" (by decide) (by decide) (by decide)⟩

/-- C5 (counterexample): with a processor registered that throws on cached
documents, `process_url` acquires `http://example.com/cached`, issues no fetch,
and exits by the exception with the url still in the inflight set. -/
theorem release_completeness_fails_on_raise :
    event.inflight_insert "http://example.com/cached" true ∈
      (engine_data.process_url failing_env ⟨∅, 0⟩
        (sample_reply "http://example.com/" "http://example.com/"
          "http://example.com/cached")).trace ∧
    fetches (engine_data.process_url failing_env ⟨∅, 0⟩
        (sample_reply "http://example.com/" "http://example.com/"
          "http://example.com/cached")).trace = [] ∧
    (engine_data.process_url failing_env ⟨∅, 0⟩
        (sample_reply "http://example.com/" "http://example.com/"
          "http://example.com/cached")).raised = some "processor failed" ∧
    "http://example.com/cached" ∈
      (engine_data.process_url failing_env ⟨∅, 0⟩
        (sample_reply "http://example.com/" "http://example.com/"
          "http://example.com/cached")).data.inflight := by
  decide

/-! ## Fetches and the inflight set -/

/-- The candidate loop only grows the inflight set; every url it fetches was
not in the set before the loop and is in it afterwards; and it fetches no url
twice. -/
theorem ed_candidate_loop_fetches (env : engine_env) (reply : network_reply)
    (urls : List String) (d : engine_data) :
    d.inflight ⊆ (engine_data.candidate_loop env reply d urls).data.inflight ∧
    (∀ f ∈ fetches (engine_data.candidate_loop env reply d urls).trace,
      f ∉ d.inflight ∧ f ∈ (engine_data.candidate_loop env reply d urls).data.inflight) ∧
    (fetches (engine_data.candidate_loop env reply d urls).trace).Nodup := by
  induction urls generalizing d with
  | nil =>
    simp only [engine_data.candidate_loop]
    exact ⟨Finset.Subset.refl _, fun f hf => absurd hf (List.not_mem_nil _), List.nodup_nil⟩
  | cons url urls ih =>
    have hsub := (ed_process_candidate_inflight env reply d url).1
    have hstep : ∀ f ∈ fetches (engine_data.process_candidate env reply d url).trace,
        f ∉ d.inflight ∧ f ∈ (engine_data.process_candidate env reply d url).data.inflight := by
      intro f hf
      rcases ed_process_candidate_fetches env reply d url with ⟨h0, _⟩ | ⟨h1, hnin, hdata⟩
      · rw [h0] at hf
        exact absurd hf (List.not_mem_nil _)
      · rw [h1, List.mem_singleton] at hf
        subst hf
        rw [hdata]
        exact ⟨hnin, Finset.mem_insert_self _ _⟩
    have hnodup : (fetches (engine_data.process_candidate env reply d url).trace).Nodup := by
      rcases ed_process_candidate_fetches env reply d url with ⟨h0, _⟩ | ⟨h1, _, _⟩
      · rw [h0]
        exact List.nodup_nil
      · rw [h1]
        exact List.nodup_singleton _
    cases ho : (engine_data.process_candidate env reply d url).raised with
    | some e =>
      rw [ed_candidate_loop_cons_raise env reply d url urls e ho]
      exact ⟨hsub, hstep, hnodup⟩
    | none =>
      rw [ed_candidate_loop_cons_ok env reply d url urls ho]
      obtain ⟨ih1, ih2, ih3⟩ := ih (engine_data.process_candidate env reply d url).data
      refine ⟨fun x hx => ih1 (hsub hx), ?_, ?_⟩
      · intro f hf
        simp only [fetches_append, List.mem_append] at hf
        rcases hf with hf | hf
        · exact ⟨(hstep f hf).1, ih1 (hstep f hf).2⟩
        · exact ⟨fun hd => (ih2 f hf).1 (hsub hd), (ih2 f hf).2⟩
      · simp only [fetches_append]
        refine List.Nodup.append hnodup ih3 ?_
        intro f hf1 hf2
        exact (ih2 f hf2).1 (hstep f hf1).2

theorem ed_run_hooks_fetches (env : engine_env) (reply : network_reply) (d : engine_data)
    (acc : Bool) :
    d.inflight ⊆ (engine_data.run_hooks env reply d acc).data.inflight ∧
    (∀ f ∈ fetches (engine_data.run_hooks env reply d acc).trace,
      f ∉ d.inflight ∧ f ∈ (engine_data.run_hooks env reply d acc).data.inflight) ∧
    (fetches (engine_data.run_hooks env reply d acc).trace).Nodup := by
  rcases ed_run_hooks_cases env reply d acc with ⟨hd, hf, _⟩ | ⟨pre, hpre, _, hform⟩
  · rw [hd, hf]
    exact ⟨Finset.Subset.refl _, fun f h => absurd h (List.not_mem_nil _), List.nodup_nil⟩
  · rw [hform]
    simp only [fetches_append, hpre, List.nil_append]
    exact ed_candidate_loop_fetches env reply _ d

theorem mem_ed_after_persist (d : engine_data) (reply : network_reply) (v : String) :
    v ∈ (engine_data.after_persist d reply).inflight ↔
      v ∈ d.inflight ∧ v ≠ reply.url ∧ v ≠ reply.request_url := by
  unfold engine_data.after_persist
  by_cases hr : reply.url = reply.request_url
  · simp only [hr, ne_eq, not_true_eq_false, if_false, ed_mem_infligt_erase]
    constructor
    · rintro ⟨h1, h2⟩
      exact ⟨h2, h1, h1⟩
    · rintro ⟨h1, h2, _⟩
      exact ⟨h2, h1⟩
  · simp only [hr, ne_eq, not_false_eq_true, if_true, ed_mem_infligt_erase]
    constructor
    · rintro ⟨h1, h2, h3⟩
      exact ⟨h3, h2, h1⟩
    · rintro ⟨h1, h2, h3⟩
      exact ⟨h3, h2, h1⟩

/-- What one `process_url` does to the inflight set and which fetches it
issues: a url of the set other than the reply's final and requested url stays
in the set; every fetched url is in the set afterwards and was not in it
before, unless it is the reply's final or requested url; no url is fetched
twice. -/
theorem ed_process_url_fetches (env : engine_env) (d : engine_data) (reply : network_reply) :
    (∀ k ∈ d.inflight, k ≠ reply.url → k ≠ reply.request_url →
      k ∈ (engine_data.process_url env d reply).data.inflight) ∧
    (∀ f ∈ fetches (engine_data.process_url env d reply).trace,
      f ∈ (engine_data.process_url env d reply).data.inflight ∧
      (f ∈ d.inflight → f = reply.url ∨ f = reply.request_url)) ∧
    (fetches (engine_data.process_url env d reply).trace).Nodup := by
  by_cases herr : reply.error = 0
  · obtain ⟨hdata, _, hfetch, _⟩ := ed_process_url_hooks_view env d reply herr
    rw [hdata, hfetch]
    obtain ⟨h1, h2, h3⟩ := ed_run_hooks_fetches env reply (engine_data.after_persist d reply)
      (engine_data.filter_loop reply env.filters 0 true).1
    refine ⟨?_, ?_, h3⟩
    · intro k hk hk1 hk2
      exact h1 ((mem_ed_after_persist d reply k).2 ⟨hk, hk1, hk2⟩)
    · intro f hf
      refine ⟨(h2 f hf).2, fun hd => ?_⟩
      by_contra hne
      rw [not_or] at hne
      exact (h2 f hf).1 ((mem_ed_after_persist d reply f).2 ⟨hd, hne.1, hne.2⟩)
  · rw [ed_process_url_error env d reply herr]
    exact ⟨fun k hk _ _ => hk, fun f hf => absurd hf (List.not_mem_nil _), List.nodup_nil⟩

/-! ## Recursion policy -/

theorem up_erase_insert (d : url_processor_data) (u : String) (h : u ∉ d.m_inflight) :
    url_processor.infligt_erase (url_processor.inflight_insert d u).2 u = d := by
  unfold url_processor.inflight_insert url_processor.infligt_erase
  simp [h]

/-- Under `within_domain` a candidate whose resolved host differs from
`m_base` causes no action and leaves the members unchanged. -/
theorem up_process_candidate_other_host (env : url_processor_env) (reply : network_reply)
    (d : url_processor_data) (url : String)
    (hrec : env.m_recursion = recursion.within_domain)
    (hhost : (env.net.relative reply.url url).2 ≠ env.m_base) :
    url_processor.process_candidate env reply d url = (d, []) := by
  unfold url_processor.process_candidate
  simp only
  split
  · rfl
  split
  · rfl
  simp [hrec, hhost]

/-- A candidate that passes discarding and the recursion policy is handed to
`inflight_insert`; if acquired it is looked up in the store, and then fetched
when the lookup reports an error and released otherwise. -/
theorem up_process_candidate_eligible (env : url_processor_env) (reply : network_reply)
    (d : url_processor_data) (url : String)
    (hscheme : (compare_ne (env.net.relative reply.url url).1 6 "https:" &&
      compare_ne (env.net.relative reply.url url).1 5 "http:") = false)
    (hvalid : ((env.net.relative reply.url url).1.data.isEmpty ||
      (env.net.relative reply.url url).2.data.isEmpty ||
      (env.net.relative reply.url url).1 == reply.url) = false)
    (hpolicy : env.m_recursion ≠ recursion.within_domain ∨
      (env.net.relative reply.url url).2 = env.m_base) :
    url_processor.process_candidate env reply d url =
      if (env.net.relative reply.url url).1 ∈ d.m_inflight then
        (d, [event.inflight_insert (env.net.relative reply.url url).1 false])
      else if env.m_st.read_data_error (env.net.relative reply.url url).1 then
        (⟨insert (env.net.relative reply.url url).1 d.m_inflight, d.m_total⟩,
          [event.inflight_insert (env.net.relative reply.url url).1 true,
            event.read_data (env.net.relative reply.url url).1,
            event.cout_page_cache (env.net.relative reply.url url).1,
            event.cout_downloading (env.net.relative reply.url url).1,
            event.feed (env.net.relative reply.url url).1])
      else
        (d, [event.inflight_insert (env.net.relative reply.url url).1 true,
          event.read_data (env.net.relative reply.url url).1,
          event.infligt_erase (env.net.relative reply.url url).1]) := by
  have hpol : (env.m_recursion == recursion.within_domain &&
      (env.net.relative reply.url url).2 != env.m_base) = false := by
    rcases hpolicy with h | h
    · simp [h]
    · simp [h]
  unfold url_processor.process_candidate
  simp only [hscheme, hvalid, hpol, Bool.false_eq_true, if_false]
  by_cases hin : (env.net.relative reply.url url).1 ∈ d.m_inflight
  · simp [url_processor.inflight_insert, hin]
  · have hins : url_processor.inflight_insert d (env.net.relative reply.url url).1 =
        (true, ⟨insert (env.net.relative reply.url url).1 d.m_inflight, d.m_total⟩) := by
      simp [url_processor.inflight_insert, hin]
    have her := up_erase_insert d _ hin
    rw [hins] at her
    simp only [hin, if_false, hins, Bool.not_true, Bool.false_eq_true, her,
      url_processor.download]
    cases env.m_st.read_data_error (env.net.relative reply.url url).1 <;> simp

/-- Under `none`, `process_text` returns after the index update. -/
theorem up_process_text_none (env : url_processor_env) (d : url_processor_data)
    (reply : network_reply) (ts : dnet_time) (hrec : env.m_recursion = recursion.none) :
    url_processor.process_text env d reply ts =
      ⟨d, [event.parse reply.data, event.storage_process reply.url
            (env.parser_text reply.data) ts (env.m_base ++ ".collection")] ++
          (match env.m_st.process_raises reply.url (env.parser_text reply.data) ts
              (env.m_base ++ ".collection") with
            | some _ => event.cerr_index_exception reply.url ::
                url_processor.download reply.request_url
            | none => []), none⟩ := by
  unfold url_processor.process_text
  simp [hrec]

/-- Under `within_domain` and `full`, when the reply's url is a valid base,
`process_text` runs the candidate loop over the parser's urls after the index
update. -/
theorem up_process_text_loop (env : url_processor_env) (d : url_processor_data)
    (reply : network_reply) (ts : dnet_time) (hrec : env.m_recursion ≠ recursion.none)
    (hbase : env.net.set_base reply.url = true) :
    url_processor.process_text env d reply ts =
      ⟨(url_processor.candidate_loop env reply d (env.parser_urls reply.data)).1,
        [event.parse reply.data, event.storage_process reply.url
            (env.parser_text reply.data) ts (env.m_base ++ ".collection")] ++
          (match env.m_st.process_raises reply.url (env.parser_text reply.data) ts
              (env.m_base ++ ".collection") with
            | some _ => event.cerr_index_exception reply.url ::
                url_processor.download reply.request_url
            | none => []) ++
          (url_processor.candidate_loop env reply d (env.parser_urls reply.data)).2,
        none⟩ := by
  unfold url_processor.process_text
  have h1 : (env.m_recursion == recursion.none) = false := by
    cases hm : env.m_recursion <;> simp_all
  simp [h1, hbase]

/-- C9: recursion policy enforcement in `url_processor::process_text`, and the
domain url-filter of `create_domain_filter`.

* `within_domain`: the iteration for a candidate whose resolved host differs
  from the base host `m_base` performs no action (no `inflight_insert`, no store
  lookup, no download) and changes nothing; every action of the candidate loop
  belongs to the iteration of a candidate whose resolved host is `m_base`.
* `within_domain` with resolved host `m_base`, and `full` with any host: a
  candidate that passes discarding is handed to `inflight_insert`; if acquired
  it is looked up in the store, and fetched on a lookup error, released
  otherwise.  This loop is what `process_text` runs when the policy is not `none`
  and the reply's url is a valid base.
* `none`: `process_text` leaves the members unchanged and makes no
  `inflight_insert` and no store lookup; its only possible download is the
  re-download of the requested url after an index exception.
* `create_domain_filter(base)`, when it returns a filter, accepts `(reply,
  candidate)` exactly when the candidate's host, resolved against the reply's
  url, equals the host of `base`. -/
theorem recursion_policy_enforcement (env : url_processor_env) (reply : network_reply)
    (d : url_processor_data) (ts : dnet_time) (net : network_url) (base : String) :
    (env.m_recursion = recursion.within_domain →
      (∀ d1 c, (env.net.relative reply.url c).2 ≠ env.m_base →
        url_processor.process_candidate env reply d1 c = (d1, [])) ∧
      ∀ e ∈ (url_processor.candidate_loop env reply d (env.parser_urls reply.data)).2,
        ∃ c ∈ env.parser_urls reply.data, (env.net.relative reply.url c).2 = env.m_base ∧
          ∃ d1, e ∈ (url_processor.process_candidate env reply d1 c).2) ∧
    (∀ d1 c,
      (compare_ne (env.net.relative reply.url c).1 6 "https:" &&
        compare_ne (env.net.relative reply.url c).1 5 "http:") = false →
      ((env.net.relative reply.url c).1.data.isEmpty ||
        (env.net.relative reply.url c).2.data.isEmpty ||
        (env.net.relative reply.url c).1 == reply.url) = false →
      (env.m_recursion = recursion.full ∨
        (env.m_recursion = recursion.within_domain ∧
          (env.net.relative reply.url c).2 = env.m_base)) →
      url_processor.process_candidate env reply d1 c =
        if (env.net.relative reply.url c).1 ∈ d1.m_inflight then
          (d1, [event.inflight_insert (env.net.relative reply.url c).1 false])
        else if env.m_st.read_data_error (env.net.relative reply.url c).1 then
          (⟨insert (env.net.relative reply.url c).1 d1.m_inflight, d1.m_total⟩,
            [event.inflight_insert (env.net.relative reply.url c).1 true,
              event.read_data (env.net.relative reply.url c).1,
              event.cout_page_cache (env.net.relative reply.url c).1,
              event.cout_downloading (env.net.relative reply.url c).1,
              event.feed (env.net.relative reply.url c).1])
        else
          (d1, [event.inflight_insert (env.net.relative reply.url c).1 true,
            event.read_data (env.net.relative reply.url c).1,
            event.infligt_erase (env.net.relative reply.url c).1])) ∧
    (env.m_recursion ≠ recursion.none → env.net.set_base reply.url = true →
      (url_processor.process_text env d reply ts).data =
        (url_processor.candidate_loop env reply d (env.parser_urls reply.data)).1 ∧
      ∃ idx, (url_processor.process_text env d reply ts).trace =
        idx ++ (url_processor.candidate_loop env reply d (env.parser_urls reply.data)).2) ∧
    (env.m_recursion = recursion.none →
      (url_processor.process_text env d reply ts).data = d ∧
      ∀ e ∈ (url_processor.process_text env d reply ts).trace, ∀ u,
        (∀ b, e ≠ event.inflight_insert u b) ∧ e ≠ event.read_data u ∧
        (e = event.feed u → u = reply.request_url ∧
          env.m_st.process_raises reply.url (env.parser_text reply.data) ts
            (env.m_base ++ ".collection") ≠ none)) ∧
    (∀ f, create_domain_filter net base = Except.ok f →
      ∀ r c, f r c = true ↔ (net.relative r.url c).2 = net.host base) := by
  refine ⟨fun hrec => ⟨fun d1 c hc => up_process_candidate_other_host env reply d1 c hrec hc,
      ?_⟩, ?_, ?_, ?_, ?_⟩
  · intro e he
    obtain ⟨d1, c, hc, hmem⟩ := mem_up_candidate_loop _ _ _ _ _ he
    refine ⟨c, hc, ?_, d1, hmem⟩
    by_contra hne
    rw [up_process_candidate_other_host env reply d1 c hrec hne] at hmem
    exact absurd hmem (List.not_mem_nil _)
  · intro d1 c h1 h2 hpol
    refine up_process_candidate_eligible env reply d1 c h1 h2 ?_
    rcases hpol with h | ⟨_, h⟩
    · left
      rw [h]
      exact fun hh => recursion.noConfusion hh
    · exact Or.inr h
  · intro hrec hbase
    rw [up_process_text_loop env d reply ts hrec hbase]
    exact ⟨rfl, _, rfl⟩
  · intro hrec
    rw [up_process_text_none env d reply ts hrec]
    refine ⟨rfl, ?_⟩
    intro e he u
    simp only [List.mem_append, List.mem_cons, List.mem_singleton, List.not_mem_nil,
      or_false] at he
    rcases he with (rfl | rfl) | he
    · exact ⟨fun b hb => event.noConfusion hb, fun hb => event.noConfusion hb,
        fun hb => event.noConfusion hb⟩
    · exact ⟨fun b hb => event.noConfusion hb, fun hb => event.noConfusion hb,
        fun hb => event.noConfusion hb⟩
    · cases hp : env.m_st.process_raises reply.url (env.parser_text reply.data) ts
          (env.m_base ++ ".collection") with
      | none =>
        rw [hp] at he
        exact absurd he (List.not_mem_nil _)
      | some x =>
        rw [hp] at he
        simp only [url_processor.download, List.mem_cons, List.mem_singleton,
          List.not_mem_nil, or_false] at he
        rcases he with rfl | rfl | rfl
        · exact ⟨fun b hb => event.noConfusion hb, fun hb => event.noConfusion hb,
            fun hb => event.noConfusion hb⟩
        · exact ⟨fun b hb => event.noConfusion hb, fun hb => event.noConfusion hb,
            fun hb => event.noConfusion hb⟩
        · refine ⟨fun b hb => event.noConfusion hb, fun hb => event.noConfusion hb,
            fun hb => ⟨?_, fun hn => Option.noConfusion hn⟩⟩
          injection hb with hb
          exact hb.symm
  · intro f hf r c
    unfold create_domain_filter at hf
    split at hf
    · exact Except.noConfusion hf
    split at hf
    · exact Except.noConfusion hf
    · injection hf with hf
      subst hf
      simp [domain_filter_check]

/-- Witness for C9: the page `http://example.com/` links to `/a` on its own
host, to `https://other.com/b` and to `javascript:void(0)`.  Under
`within_domain` exactly `/a` is acquired and fetched; under `full` also
`https://other.com/b`; under `none` nothing; and the domain filter for
`http://example.com/` accepts `/a` and rejects `https://other.com/b`. -/
theorem recursion_policy_enforcement_witness :
    fetches (url_processor.process_text (sample_url_env recursion.within_domain) ⟨∅, 0⟩
      (sample_reply "http://example.com/" "http://example.com/"
        "http://example.com/a\nhttps://other.com/b\njavascript:void(0)") ⟨1000, 0⟩).trace
      = ["http://example.com/a"] ∧
    fetches (url_processor.process_text (sample_url_env recursion.full) ⟨∅, 0⟩
      (sample_reply "http://example.com/" "http://example.com/"
        "http://example.com/a\nhttps://other.com/b\njavascript:void(0)") ⟨1000, 0⟩).trace
      = ["http://example.com/a", "https://other.com/b"] ∧
    (url_processor.process_text (sample_url_env recursion.none) ⟨∅, 0⟩
      (sample_reply "http://example.com/" "http://example.com/"
        "http://example.com/a\nhttps://other.com/b\njavascript:void(0)") ⟨1000, 0⟩).trace
      = [event.parse "http://example.com/a\nhttps://other.com/b\njavascript:void(0)",
          event.storage_process "http://example.com/"
            "http://example.com/a\nhttps://other.com/b\njavascript:void(0)" ⟨1000, 0⟩
            "example.com.collection"] ∧
    url_processor.process_candidate (sample_url_env recursion.within_domain)
      (sample_reply "http://example.com/" "http://example.com/" "") ⟨∅, 0⟩
      "https://other.com/b" = (⟨∅, 0⟩, []) ∧
    (∃ f, create_domain_filter sample_net "http://example.com/" = Except.ok f ∧
      f (sample_reply "http://example.com/" "http://example.com/" "") "http://example.com/a"
        = true ∧
      f (sample_reply "http://example.com/" "http://example.com/" "") "https://other.com/b"
        = false) := by
  refine ⟨by decide, by decide, by decide, ?_, ?_⟩
  · exact ((recursion_policy_enforcement (sample_url_env recursion.within_domain)
      (sample_reply "http://example.com/" "http://example.com/" "") ⟨∅, 0⟩ ⟨1000, 0⟩
      sample_net "http://example.com/").1 rfl).1 ⟨∅, 0⟩ "https://other.com/b" (by decide)
  · exact ⟨domain_filter_check sample_net (sample_net.host "http://example.com/"),
      rfl, by decide, by decide⟩

/-! ## The store lookup reports an error -/

/-- The four ways one iteration of the `url_processor` candidate loop can go:
skipped; already inflight; acquired and fetched; acquired, found in the store
and released. -/
theorem up_process_candidate_cases (env : url_processor_env) (reply : network_reply)
    (d : url_processor_data) (url : String) :
    url_processor.process_candidate env reply d url = (d, []) ∨
    ((env.net.relative reply.url url).1 ∈ d.m_inflight ∧
      url_processor.process_candidate env reply d url =
        (d, [event.inflight_insert (env.net.relative reply.url url).1 false])) ∨
    ((env.net.relative reply.url url).1 ∉ d.m_inflight ∧
      env.m_st.read_data_error (env.net.relative reply.url url).1 = true ∧
      url_processor.process_candidate env reply d url =
        (⟨insert (env.net.relative reply.url url).1 d.m_inflight, d.m_total⟩,
          [event.inflight_insert (env.net.relative reply.url url).1 true,
            event.read_data (env.net.relative reply.url url).1,
            event.cout_page_cache (env.net.relative reply.url url).1,
            event.cout_downloading (env.net.relative reply.url url).1,
            event.feed (env.net.relative reply.url url).1])) ∨
    ((env.net.relative reply.url url).1 ∉ d.m_inflight ∧
      env.m_st.read_data_error (env.net.relative reply.url url).1 = false ∧
      url_processor.process_candidate env reply d url =
        (d, [event.inflight_insert (env.net.relative reply.url url).1 true,
          event.read_data (env.net.relative reply.url url).1,
          event.infligt_erase (env.net.relative reply.url url).1])) := by
  cases h1 : (compare_ne (env.net.relative reply.url url).1 6 "https:" &&
      compare_ne (env.net.relative reply.url url).1 5 "http:") with
  | true =>
    left
    unfold url_processor.process_candidate
    simp only [h1, if_true]
  | false =>
  cases h2 : ((env.net.relative reply.url url).1.data.isEmpty ||
      (env.net.relative reply.url url).2.data.isEmpty ||
      (env.net.relative reply.url url).1 == reply.url) with
  | true =>
    left
    unfold url_processor.process_candidate
    simp only [h1, h2, if_true, if_false, Bool.false_eq_true]
  | false =>
  cases h3 : (env.m_recursion == recursion.within_domain &&
      (env.net.relative reply.url url).2 != env.m_base) with
  | true =>
    left
    unfold url_processor.process_candidate
    simp only [h1, h2, h3, if_true, if_false, Bool.false_eq_true]
  | false =>
  right
  have hpol : env.m_recursion ≠ recursion.within_domain ∨
      (env.net.relative reply.url url).2 = env.m_base := by
    by_cases hr : env.m_recursion = recursion.within_domain
    · right
      simpa [hr] using h3
    · exact Or.inl hr
  have hform := up_process_candidate_eligible env reply d url h1 h2 hpol
  by_cases hin : (env.net.relative reply.url url).1 ∈ d.m_inflight
  · left
    rw [hform, if_pos hin]
    exact ⟨hin, rfl⟩
  · right
    rw [if_neg hin] at hform
    cases hr : env.m_st.read_data_error (env.net.relative reply.url url).1 with
    | true =>
      left
      rw [hr, if_pos rfl] at hform
      exact ⟨hin, rfl, hform⟩
    | false =>
      right
      rw [hr] at hform
      simp only [Bool.false_eq_true, if_false] at hform
      exact ⟨hin, rfl, hform⟩

theorem up_candidate_loop_cons (env : url_processor_env) (reply : network_reply)
    (d : url_processor_data) (url : String) (urls : List String) :
    url_processor.candidate_loop env reply d (url :: urls) =
      ((url_processor.candidate_loop env reply
          (url_processor.process_candidate env reply d url).1 urls).1,
        (url_processor.process_candidate env reply d url).2 ++
          (url_processor.candidate_loop env reply
            (url_processor.process_candidate env reply d url).1 urls).2) := by
  conv_lhs => unfold url_processor.candidate_loop

theorem ed_run_hooks_rejected (env : engine_env) (reply : network_reply) (d : engine_data) :
    engine_data.run_hooks env reply d false =
      ⟨d, (engine_data.run_fallback_processors reply env.fallback_processors 0).1,
        (engine_data.run_fallback_processors reply env.fallback_processors 0).2⟩ := by
  unfold engine_data.run_hooks
  simp

theorem mem_persist_events (ts : dnet_time) (reply : network_reply) (e : event)
    (he : e ∈ persist_events ts reply) :
    (∃ u, e = event.infligt_erase u) ∨ ∃ w, e = event.write_document w := by
  unfold persist_events at he
  by_cases hr : reply.url = reply.request_url
  · simp only [hr, ne_eq, not_true_eq_false, if_false, List.append_nil, List.mem_cons,
      List.mem_singleton, List.not_mem_nil, or_false] at he
    rcases he with rfl | rfl <;> simp
  · simp only [hr, ne_eq, not_false_eq_true, if_true, List.mem_append, List.mem_cons,
      List.mem_singleton, List.not_mem_nil, or_false] at he
    rcases he with (rfl | rfl) | rfl | rfl <;> simp

/-- Every action of the accepted branch is a `document_new` processor call, a
parser call, or an action of an iteration of the candidate loop. -/
theorem mem_ed_run_hooks_accepted (env : engine_env) (reply : network_reply)
    (d : engine_data) (e : event) (he : e ∈ (engine_data.run_hooks env reply d true).trace) :
    (∃ k, e = event.processor_call k document_type.document_new) ∨
    (∃ k, e = event.parser_call k) ∨
    ∃ d1 url, e ∈ (engine_data.process_candidate env reply d1 url).trace := by
  unfold engine_data.run_hooks at he
  simp only [if_true] at he
  split at he
  · exact Or.inl (mem_run_processors _ _ _ _ _ he)
  · simp only [List.mem_append] at he
    rcases he with (he | he) | he
    · exact Or.inl (mem_run_processors _ _ _ _ _ he)
    · exact Or.inr (Or.inl (mem_run_parsers _ _ _ _ he))
    · obtain ⟨d1, url, _, h1⟩ := mem_ed_candidate_loop _ _ _ _ _ he
      exact Or.inr (Or.inr ⟨d1, url, h1⟩)

theorem new_processor_calls_candidate_loop (env : engine_env) (reply : network_reply)
    (d : engine_data) (urls : List String) :
    new_processor_calls (engine_data.candidate_loop env reply d urls).trace = [] :=
  filterMap_nil_of_forall _ _ (fun e he => by
    obtain ⟨d1, url, _, h1⟩ := mem_ed_candidate_loop _ _ _ _ _ he
    rcases mem_ed_process_candidate _ _ _ _ _ h1 with
      ⟨k, r, rfl⟩ | ⟨b, rfl⟩ | rfl | rfl | rfl | rfl | ⟨k, rfl⟩ | rfl <;> rfl)

theorem compare_ne_iff (s : String) (str : String) :
    compare_ne s str.data.length str = true ↔ ¬ str.data <+: s.data := by
  unfold compare_ne
  rw [bne_iff_ne, List.prefix_iff_eq_take]
  exact ⟨fun h e => h e.symm, fun h e => h e.symm⟩

/-- The two tests of the candidate loop discard exactly the candidates whose
resolved url begins with neither `http:` nor `https:`, or is empty, or has an
empty host, or is the page's own url. -/
theorem discarded_iff (r h page : String) :
    ((compare_ne r 6 "https:" && compare_ne r 5 "http:") = true ∨
      (r.data.isEmpty || h.data.isEmpty || r == page) = true) ↔
    ((¬ "http:".data <+: r.data ∧ ¬ "https:".data <+: r.data) ∨
      r = "" ∨ h = "" ∨ r = page) := by
  have h6 := compare_ne_iff r "https:"
  have h5 := compare_ne_iff r "http:"
  have e6 : "https:".data.length = 6 := rfl
  have e5 : "http:".data.length = 5 := rfl
  rw [e6] at h6
  rw [e5] at h5
  have hr : r.data.isEmpty = true ↔ r = "" := by
    rw [List.isEmpty_iff]
    constructor
    · intro hd
      exact String.ext hd
    · intro hd
      rw [hd]
  have hh : h.data.isEmpty = true ↔ h = "" := by
    rw [List.isEmpty_iff]
    constructor
    · intro hd
      exact String.ext hd
    · intro hd
      rw [hd]
  simp only [Bool.and_eq_true, Bool.or_eq_true, beq_iff_eq, h6, h5, hr, hh]
  constructor
  · rintro (⟨a, b⟩ | (c | c) | c)
    · exact Or.inl ⟨b, a⟩
    · exact Or.inr (Or.inl c)
    · exact Or.inr (Or.inr (Or.inl c))
    · exact Or.inr (Or.inr (Or.inr c))
  · rintro (⟨a, b⟩ | c | c | c)
    · exact Or.inl ⟨b, a⟩
    · exact Or.inr (Or.inl (Or.inl c))
    · exact Or.inr (Or.inl (Or.inr c))
    · exact Or.inr (Or.inr c)

theorem ed_process_candidate_discarded (env : engine_env) (reply : network_reply)
    (d : engine_data) (url : String)
    (h : (compare_ne (env.net.relative reply.url url).1 6 "https:" &&
        compare_ne (env.net.relative reply.url url).1 5 "http:") = true ∨
      ((env.net.relative reply.url url).1.data.isEmpty ||
        (env.net.relative reply.url url).2.data.isEmpty ||
        (env.net.relative reply.url url).1 == reply.url) = true) :
    engine_data.process_candidate env reply d url = ⟨d, [], none⟩ := by
  unfold engine_data.process_candidate
  simp only
  split
  · rfl
  · rcases h with h | h
    · contradiction
    · simp only [h, if_true]

theorem up_process_candidate_discarded (env : url_processor_env) (reply : network_reply)
    (d : url_processor_data) (url : String)
    (h : (compare_ne (env.net.relative reply.url url).1 6 "https:" &&
        compare_ne (env.net.relative reply.url url).1 5 "http:") = true ∨
      ((env.net.relative reply.url url).1.data.isEmpty ||
        (env.net.relative reply.url url).2.data.isEmpty ||
        (env.net.relative reply.url url).1 == reply.url) = true) :
    url_processor.process_candidate env reply d url = (d, []) := by
  unfold url_processor.process_candidate
  simp only
  split
  · rfl
  · rcases h with h | h
    · contradiction
    · simp only [h, if_true]

theorem ed_candidate_loop_skip (env : engine_env) (reply : network_reply) (c : String)
    (hc : ∀ d1, engine_data.process_candidate env reply d1 c = ⟨d1, [], none⟩)
    (pre post : List String) (d : engine_data) :
    engine_data.candidate_loop env reply d (pre ++ c :: post) =
      engine_data.candidate_loop env reply d (pre ++ post) := by
  induction pre generalizing d with
  | nil =>
    rw [List.nil_append, List.nil_append,
      ed_candidate_loop_cons_ok env reply d c post (by rw [hc d])]
    simp only [hc d, List.nil_append]
  | cons p pre ih =>
    rw [List.cons_append, List.cons_append]
    cases ho : (engine_data.process_candidate env reply d p).raised with
    | some e =>
      rw [ed_candidate_loop_cons_raise env reply d p _ e ho,
        ed_candidate_loop_cons_raise env reply d p _ e ho]
    | none =>
      rw [ed_candidate_loop_cons_ok env reply d p _ ho,
        ed_candidate_loop_cons_ok env reply d p _ ho, ih]

theorem up_candidate_loop_skip (env : url_processor_env) (reply : network_reply) (c : String)
    (hc : ∀ d1, url_processor.process_candidate env reply d1 c = (d1, []))
    (pre post : List String) (d : url_processor_data) :
    url_processor.candidate_loop env reply d (pre ++ c :: post) =
      url_processor.candidate_loop env reply d (pre ++ post) := by
  induction pre generalizing d with
  | nil =>
    rw [List.nil_append, List.nil_append, up_candidate_loop_cons]
    simp only [hc d, List.nil_append]
  | cons p pre ih =>
    rw [List.cons_append, List.cons_append, up_candidate_loop_cons, up_candidate_loop_cons, ih]

/-- C13: candidate discarding.  Let `r` and `h` be the url and host obtained by
resolving the candidate `c` against the reply's final url.  If `r` begins with
neither `http:` nor `https:`, or `r` is empty, or `h` is empty, or `r` is the
reply's final url, then the iteration for `c` performs no action at all (no
url-filter call, no `inflight_insert`, no store lookup, no fetch) and leaves the
members unchanged, from every state; and the candidate loop over a list that
contains `c` does exactly what it does over the list without `c`.  This holds
for `engine_data::process_url` and for `url_processor::process_text`. -/
theorem candidate_discarding (env : engine_env) (d : engine_data)
    (uenv : url_processor_env) (ud : url_processor_data)
    (reply : network_reply) (c : String) (pre post : List String)
    (hdiscard : (¬ "http:".data <+: (env.net.relative reply.url c).1.data ∧
        ¬ "https:".data <+: (env.net.relative reply.url c).1.data) ∨
      (env.net.relative reply.url c).1 = "" ∨ (env.net.relative reply.url c).2 = "" ∨
      (env.net.relative reply.url c).1 = reply.url)
    (hudiscard : (¬ "http:".data <+: (uenv.net.relative reply.url c).1.data ∧
        ¬ "https:".data <+: (uenv.net.relative reply.url c).1.data) ∨
      (uenv.net.relative reply.url c).1 = "" ∨ (uenv.net.relative reply.url c).2 = "" ∨
      (uenv.net.relative reply.url c).1 = reply.url) :
    ((∀ d1, engine_data.process_candidate env reply d1 c = ⟨d1, [], none⟩) ∧
      engine_data.candidate_loop env reply d (pre ++ c :: post) =
        engine_data.candidate_loop env reply d (pre ++ post)) ∧
    ((∀ d1, url_processor.process_candidate uenv reply d1 c = (d1, [])) ∧
      url_processor.candidate_loop uenv reply ud (pre ++ c :: post) =
        url_processor.candidate_loop uenv reply ud (pre ++ post)) := by
  have h1 : ∀ d1, engine_data.process_candidate env reply d1 c = ⟨d1, [], none⟩ :=
    fun d1 => ed_process_candidate_discarded env reply d1 c
      ((discarded_iff _ _ _).2 hdiscard)
  have h2 : ∀ d1, url_processor.process_candidate uenv reply d1 c = (d1, []) :=
    fun d1 => up_process_candidate_discarded uenv reply d1 c
      ((discarded_iff _ _ _).2 hudiscard)
  exact ⟨⟨h1, ed_candidate_loop_skip env reply c h1 pre post d⟩,
    ⟨h2, up_candidate_loop_skip uenv reply c h2 pre post ud⟩⟩

/-- Witness for C13: `javascript:void(0)` has no http scheme; with it or
without it the loop over `/a` and `/b` feeds the same two urls. -/
theorem candidate_discarding_witness :
    engine_data.candidate_loop sample_env
        (sample_reply "http://example.com/" "http://example.com/" "") ⟨∅, 0⟩
        (["http://example.com/a"] ++ "javascript:void(0)" :: ["http://example.com/b"]) =
      engine_data.candidate_loop sample_env
        (sample_reply "http://example.com/" "http://example.com/" "") ⟨∅, 0⟩
        (["http://example.com/a"] ++ ["http://example.com/b"]) ∧
    fetches (engine_data.candidate_loop sample_env
        (sample_reply "http://example.com/" "http://example.com/" "") ⟨∅, 0⟩
        ["http://example.com/a", "javascript:void(0)", "http://example.com/b"]).trace =
      ["http://example.com/a", "http://example.com/b"] :=
  ⟨(candidate_discarding sample_env ⟨∅, 0⟩ (sample_url_env recursion.full) ⟨∅, 0⟩
      (sample_reply "http://example.com/" "http://example.com/" "") "javascript:void(0)"
      ["http://example.com/a"] ["http://example.com/b"]
      (Or.inl (by decide)) (Or.inl (by decide))).1.2,
    by decide⟩

/-! ## The classifier -/

theorem strncmp_text_iff (s : String) : strncmp_text s = true ↔ "text/".data <+: s.data := by
  unfold strncmp_text
  rw [beq_iff_eq, List.prefix_iff_eq_take]
  have e5 : "text/".data.length = 5 := rfl
  rw [e5]
  exact ⟨fun h => h.symm, fun h => h.symm⟩

theorem text_filter_scan_first (pre post : List (String × String)) (v : String)
    (hpre : ∀ h ∈ pre, h.1 ≠ "Content-Type") :
    text_filter_scan (pre ++ ("Content-Type", v) :: post) = some v := by
  induction pre with
  | nil => simp [text_filter_scan]
  | cons p pre ih =>
    have hp : p.1 ≠ "Content-Type" := hpre p (List.mem_cons_self _ _)
    simp only [List.cons_append, text_filter_scan, beq_iff_eq, hp, if_false]
    exact ih (fun h hh => hpre h (List.mem_cons_of_mem _ hh))

theorem content_type_first (pre post : List (String × String)) (v : String)
    (hpre : ∀ h ∈ pre, h.1 ≠ "Content-Type") :
    url_processor.content_type (pre ++ ("Content-Type", v) :: post) = some v := by
  induction pre with
  | nil => simp [url_processor.content_type]
  | cons p pre ih =>
    have hp : p.1 ≠ "Content-Type" := hpre p (List.mem_cons_self _ _)
    simp only [List.cons_append, url_processor.content_type, beq_iff_eq, hp, if_false]
    exact ih (fun h hh => hpre h (List.mem_cons_of_mem _ hh))

theorem text_filter_scan_none (hs : List (String × String))
    (hno : ∀ h ∈ hs, h.1 ≠ "Content-Type") : text_filter_scan hs = none := by
  induction hs with
  | nil => rfl
  | cons p hs ih =>
    have hp : p.1 ≠ "Content-Type" := hno p (List.mem_cons_self _ _)
    simp only [text_filter_scan, beq_iff_eq, hp, if_false]
    exact ih (fun h hh => hno h (List.mem_cons_of_mem _ hh))

theorem content_type_none (hs : List (String × String))
    (hno : ∀ h ∈ hs, h.1 ≠ "Content-Type") : url_processor.content_type hs = none := by
  induction hs with
  | nil => rfl
  | cons p hs ih =>
    have hp : p.1 ≠ "Content-Type" := hno p (List.mem_cons_self _ _)
    simp only [url_processor.content_type, beq_iff_eq, hp, if_false]
    exact ih (fun h hh => hno h (List.mem_cons_of_mem _ hh))

/-- C14: classifier, header tier.  When the reply's header list contains a
header named exactly `Content-Type`, with value `v` at its first occurrence
(the headers `pre` before it have other names, the headers `post` after it are
arbitrary), the text filter logs `v` and returns true exactly when `v` begins
with the five characters `text/`; libmagic is not called, and neither the later
headers, nor the body, nor libmagic's behaviour enter the result.  The
classification in `url_processor::process_url` does the same. -/
theorem classifier_header_tier (magic_buffer : String → Option String)
    (uenv : url_processor_env) (reply : network_reply)
    (pre post : List (String × String)) (v : String)
    (hheaders : reply.headers = pre ++ ("Content-Type", v) :: post)
    (hfirst : ∀ h ∈ pre, h.1 ≠ "Content-Type") :
    text_filter_check magic_buffer reply = (strncmp_text v, [event.cout_content_type v]) ∧
    (create_text_filter magic_buffer reply = true ↔ "text/".data <+: v.data) ∧
    (∀ magic_buffer2 body2 post2,
      create_text_filter magic_buffer2
          ⟨reply.request_url, reply.url, body2,
            pre ++ ("Content-Type", v) :: post2, reply.error⟩ =
        create_text_filter magic_buffer reply) ∧
    url_processor.classify uenv reply = (strncmp_text v, [event.cout_content_type v]) ∧
    ((url_processor.classify uenv reply).1 = true ↔ "text/".data <+: v.data) := by
  have h1 : text_filter_check magic_buffer reply =
      (strncmp_text v, [event.cout_content_type v]) := by
    unfold text_filter_check
    rw [hheaders, text_filter_scan_first pre post v hfirst]
  have h2 : url_processor.classify uenv reply =
      (strncmp_text v, [event.cout_content_type v]) := by
    unfold url_processor.classify
    rw [hheaders, content_type_first pre post v hfirst]
  refine ⟨h1, ?_, ?_, h2, ?_⟩
  · unfold create_text_filter
    rw [h1]
    exact strncmp_text_iff v
  · intro magic_buffer2 body2 post2
    unfold create_text_filter
    rw [h1]
    unfold text_filter_check
    simp only
    rw [text_filter_scan_first pre post2 v hfirst]
  · rw [h2]
    exact strncmp_text_iff v

/-- Witness for C14: after a header `content-type`, the first `Content-Type`
header says `text/html`; a later one says `image/png` and libmagic says binary;
the text filter accepts. -/
theorem classifier_header_tier_witness :
    text_filter_check binary_magic
      ⟨"http://example.com/", "http://example.com/", "GIF89a",
        [("content-type", "image/gif"), ("Content-Type", "text/html; charset=utf-8"),
          ("Content-Type", "image/png")], 0⟩ =
      (true, [event.cout_content_type "text/html; charset=utf-8"]) :=
  (classifier_header_tier binary_magic (sample_url_env recursion.full)
    ⟨"http://example.com/", "http://example.com/", "GIF89a",
      [("content-type", "image/gif"), ("Content-Type", "text/html; charset=utf-8"),
        ("Content-Type", "image/png")], 0⟩
    [("content-type", "image/gif")] [("Content-Type", "image/png")]
    "text/html; charset=utf-8" rfl (by decide)).1

theorem text_filter_check_fallback (magic_buffer : String → Option String)
    (reply : network_reply) (hno : ∀ h ∈ reply.headers, h.1 ≠ "Content-Type") :
    text_filter_check magic_buffer reply =
      (strncmp_text ((magic_buffer reply.data).getD "none"),
        [event.magic_buffer reply.data]) := by
  unfold text_filter_check
  rw [text_filter_scan_none reply.headers hno]
  simp only [magic_data.is_text, magic_data.type, List.take_length]
  cases magic_buffer reply.data <;> rfl

/-- C15 (as amended): classifier, fallback tier.  For a reply with no header
named exactly `Content-Type`, the text filter hands the whole reply body (the
buffer with its full size) to libmagic, and its result is the verdict on
that: true exactly when the reported MIME type begins with `text/`; a missing
type reads `none`, hence not text.  The classification in
`url_processor::process_url` does the same. -/
theorem classifier_fallback_tier (magic_buffer : String → Option String)
    (uenv : url_processor_env) (reply : network_reply)
    (hno : ∀ h ∈ reply.headers, h.1 ≠ "Content-Type") :
    text_filter_check magic_buffer reply =
      (strncmp_text ((magic_buffer reply.data).getD "none"),
        [event.magic_buffer reply.data]) ∧
    (create_text_filter magic_buffer reply = true ↔
      ∃ t, magic_buffer reply.data = some t ∧ "text/".data <+: t.data) ∧
    (magic_buffer reply.data = none → create_text_filter magic_buffer reply = false) ∧
    url_processor.classify uenv reply =
      (strncmp_text ((uenv.magic_buffer reply.data).getD "none"),
        [event.magic_buffer reply.data]) := by
  have h1 := text_filter_check_fallback magic_buffer reply hno
  refine ⟨h1, ?_, ?_, ?_⟩
  · unfold create_text_filter
    rw [h1]
    simp only
    cases hm : magic_buffer reply.data with
    | none =>
      simp only [Option.getD_none]
      constructor
      · intro h
        exact absurd h (by decide)
      · rintro ⟨t, ht, _⟩
        exact Option.noConfusion ht
    | some t =>
      simp only [Option.getD_some, strncmp_text_iff]
      constructor
      · intro h
        exact ⟨t, rfl, h⟩
      · rintro ⟨t1, ht, h⟩
        injection ht with ht
        rw [ht]
        exact h
  · intro hm
    unfold create_text_filter
    rw [h1, hm]
    rfl
  · unfold url_processor.classify
    rw [content_type_none reply.headers hno]
    rfl

/-- Witness for C15 (as amended): a header spelled `content-type` does not
count; libmagic reports binary and the text filter rejects. -/
theorem classifier_fallback_tier_witness :
    text_filter_check binary_magic
      ⟨"http://example.com/", "http://example.com/", "GIF89a",
        [("content-type", "text/html")], 0⟩ = (false, [event.magic_buffer "GIF89a"]) :=
  (classifier_fallback_tier binary_magic (sample_url_env recursion.full)
    ⟨"http://example.com/", "http://example.com/", "GIF89a",
      [("content-type", "text/html")], 0⟩ (by decide)).1

set_option maxRecDepth 100000 in
/-- C15 (counterexample): the text filter does not classify the first portion
of the body.  For a body of 1025 characters and a libmagic that calls buffers
of at most 1024 characters text, the text filter hands over all 1025
characters and rejects, while the verdict on the first 1024 characters, which is
what `document_parser::feed` asks for, is text. -/
theorem text_filter_sniffs_whole_body :
    create_text_filter short_is_text_magic
      ⟨"http://example.com/", "http://example.com/", String.mk (List.replicate 1025 'a'),
        [], 0⟩ = false ∧
    (text_filter_check short_is_text_magic
      ⟨"http://example.com/", "http://example.com/", String.mk (List.replicate 1025 'a'),
        [], 0⟩).2 = [event.magic_buffer (String.mk (List.replicate 1025 'a'))] ∧
    document_parser_is_text short_is_text_magic (String.mk (List.replicate 1025 'a')) = true := by
  decide

/-! ## End to end: a binary reply -/

theorem atomic_long_increment_in_range (t : Int) (hlo : -2 ^ 63 ≤ t) (hhi : t < 2 ^ 63 - 1) :
    atomic_long_increment t = t + 1 := by
  unfold atomic_long_increment
  have h : (t + 1 + 2 ^ 63) % 2 ^ 64 = t + 1 + 2 ^ 63 :=
    Int.emod_eq_of_lt (by omega) (by omega)
  rw [h]
  omega

theorem up_infligt_erase_total (d : url_processor_data) (u : String) :
    (url_processor.infligt_erase d u).m_total = d.m_total := by
  unfold url_processor.infligt_erase
  by_cases h : u ∈ d.m_inflight <;> simp [h]

theorem ed_candidate_loop_total (env : engine_env) (reply : network_reply)
    (urls : List String) (d : engine_data) :
    (engine_data.candidate_loop env reply d urls).data.total = d.total := by
  induction urls generalizing d with
  | nil => rfl
  | cons url urls ih =>
    have hstep : (engine_data.process_candidate env reply d url).data.total = d.total := by
      rcases ed_process_candidate_cases env reply d url with
        c | c | ⟨_, c⟩ | ⟨_, c⟩ | ⟨_, e, c⟩ | ⟨_, c⟩ <;> rw [c]
    cases ho : (engine_data.process_candidate env reply d url).raised with
    | some e =>
      rw [ed_candidate_loop_cons_raise env reply d url urls e ho]
      exact hstep
    | none =>
      rw [ed_candidate_loop_cons_ok env reply d url urls ho]
      exact (ih _).trans hstep

theorem ed_process_url_total (env : engine_env) (d : engine_data) (reply : network_reply)
    (h : reply.error = 0) :
    (engine_data.process_url env d reply).data.total = atomic_long_increment d.total := by
  rw [(ed_process_url_hooks_view env d reply h).1]
  have hp : (engine_data.after_persist d reply).total = atomic_long_increment d.total := by
    unfold engine_data.after_persist
    split <;> simp only [ed_infligt_erase_total]
  rcases ed_run_hooks_cases env reply (engine_data.after_persist d reply)
      (engine_data.filter_loop reply env.filters 0 true).1 with ⟨hd, _, _⟩ | ⟨pre, _, _, hk⟩
  · rw [hd, hp]
  · rw [hk]
    simp only
    rw [ed_candidate_loop_total, hp]

theorem up_candidate_loop_total (env : url_processor_env) (reply : network_reply)
    (urls : List String) (d : url_processor_data) :
    (url_processor.candidate_loop env reply d urls).1.m_total = d.m_total := by
  induction urls generalizing d with
  | nil => rfl
  | cons url urls ih =>
    have hstep : (url_processor.process_candidate env reply d url).1.m_total = d.m_total := by
      rcases up_process_candidate_cases env reply d url with
        c | ⟨_, c⟩ | ⟨_, _, c⟩ | ⟨_, _, c⟩ <;> rw [c]
    rw [up_candidate_loop_cons]
    exact (ih _).trans hstep

theorem up_process_text_total (env : url_processor_env) (d : url_processor_data)
    (reply : network_reply) (ts : dnet_time) :
    (url_processor.process_text env d reply ts).data.m_total = d.m_total := by
  unfold url_processor.process_text
  simp only
  split
  · rfl
  split
  · rfl
  · exact up_candidate_loop_total env reply _ d

theorem up_process_url_total (env : url_processor_env) (d : url_processor_data)
    (reply : network_reply) (h : reply.error = 0) :
    (url_processor.process_url env d reply).data.m_total = atomic_long_increment d.m_total := by
  rw [up_process_url_ok env d reply h]
  have hp : (url_processor.after_persist d reply).m_total = atomic_long_increment d.m_total := by
    unfold url_processor.after_persist
    split <;> simp only [up_infligt_erase_total]
  simp only
  unfold url_processor.run_body
  split
  · rw [up_process_text_total, hp]
  · exact hp

/-! ## Fire, then join -/

theorem ed_candidate_loop_with_write_error (env : engine_env) (write_error : document → Bool)
    (reply : network_reply) (urls : List String) (d : engine_data) :
    engine_data.candidate_loop (env.with_write_error write_error) reply d urls =
      engine_data.candidate_loop env reply d urls := by
  induction urls generalizing d with
  | nil => rfl
  | cons url urls ih =>
    have hstep : engine_data.process_candidate (env.with_write_error write_error) reply d url =
        engine_data.process_candidate env reply d url := rfl
    unfold engine_data.candidate_loop
    simp only [hstep, ih]

theorem ed_run_hooks_with_write_error (env : engine_env) (write_error : document → Bool)
    (reply : network_reply) (d : engine_data) (acc : Bool) :
    engine_data.run_hooks (env.with_write_error write_error) reply d acc =
      engine_data.run_hooks env reply d acc := by
  unfold engine_data.run_hooks
  simp only [ed_candidate_loop_with_write_error]
  rfl

theorem waits_join_writes (env : engine_env) (reply : network_reply) (ws : List document) :
    waits (engine_data.join_writes env reply ws) = ws := by
  induction ws with
  | nil => rfl
  | cons w ws ih =>
    unfold engine_data.join_writes
    unfold waits at ih ⊢
    rw [List.filterMap_append, ih]
    cases env.storage.write_document_error w <;> rfl

theorem join_writes_without_logs (env : engine_env) (reply : network_reply)
    (ws : List document) :
    (engine_data.join_writes env reply ws).filter (fun e => !e.is_storage_error_log) =
      ws.map event.wait_write := by
  induction ws with
  | nil => rfl
  | cons w ws ih =>
    unfold engine_data.join_writes
    rw [List.filter_append, ih]
    cases env.storage.write_document_error w <;> rfl

/-- No action of the hooks is a wait on a write. -/
theorem ed_run_hooks_no_wait (env : engine_env) (reply : network_reply) (d : engine_data)
    (acc : Bool) (e : event) (he : e ∈ (engine_data.run_hooks env reply d acc).trace) :
    e.waited = none := by
  cases acc with
  | true =>
    rcases mem_ed_run_hooks_accepted _ _ _ _ he with ⟨k, rfl⟩ | ⟨k, rfl⟩ | ⟨d1, url, h1⟩
    · rfl
    · rfl
    · rcases mem_ed_process_candidate _ _ _ _ _ h1 with
        ⟨k, r, rfl⟩ | ⟨b, rfl⟩ | rfl | rfl | rfl | rfl | ⟨k, rfl⟩ | rfl <;> rfl
  | false =>
    rw [ed_run_hooks_rejected] at he
    obtain ⟨k, rfl⟩ := mem_run_fallback_processors _ _ _ _ he
    rfl

/-- C17: fire-then-join writes.  For an error-free reply whose hooks do not
raise, the trace of `process_url` is three segments in a row.  The first (log
line, filter calls, persist step) holds every store write and no call of a
processor, fallback-processor, parser or url-filter.  The second is the hooks
(processing and recursion scheduling): no write is issued or waited on there.
The third is the join: every pending write is waited on exactly once, in
issue order, and the only other action is the log line of a failed write.
With any other outcome of the writes (`write_error`) the handler still returns
normally, issues the same writes and no further one, ends with the same
members (inflight set and counter), and its trace differs at most in the log
lines for failed writes: processor calls and fetches are the same. -/
theorem fire_then_join (env : engine_env) (d : engine_data) (reply : network_reply)
    (write_error : document → Bool)
    (hok : reply.error = 0)
    (hreturn : (engine_data.process_url env d reply).raised = none) :
    (engine_data.process_url env d reply).trace =
      ([event.cout_processing reply.request_url reply.url d.total] ++
          (engine_data.filter_loop reply env.filters 0 true).2 ++
          persist_events env.dnet_current_time reply) ++
        (engine_data.run_hooks env reply (engine_data.after_persist d reply)
          (engine_data.filter_loop reply env.filters 0 true).1).trace ++
        engine_data.join_writes env reply (pending_writes env.dnet_current_time reply) ∧
    (writes ([event.cout_processing reply.request_url reply.url d.total] ++
          (engine_data.filter_loop reply env.filters 0 true).2 ++
          persist_events env.dnet_current_time reply) =
        pending_writes env.dnet_current_time reply ∧
      ∀ e ∈ [event.cout_processing reply.request_url reply.url d.total] ++
          (engine_data.filter_loop reply env.filters 0 true).2 ++
          persist_events env.dnet_current_time reply, e.is_hook_call = false) ∧
    (∀ e ∈ (engine_data.run_hooks env reply (engine_data.after_persist d reply)
        (engine_data.filter_loop reply env.filters 0 true).1).trace,
      e.written = none ∧ e.waited = none) ∧
    (waits (engine_data.join_writes env reply (pending_writes env.dnet_current_time reply)) =
        pending_writes env.dnet_current_time reply ∧
      ∀ e ∈ engine_data.join_writes env reply (pending_writes env.dnet_current_time reply),
        (∃ w, e = event.wait_write w) ∨ e = event.cout_storage_error reply.request_url) ∧
    ((engine_data.process_url (env.with_write_error write_error) d reply).raised = none ∧
      (engine_data.process_url (env.with_write_error write_error) d reply).data =
        (engine_data.process_url env d reply).data ∧
      writes (engine_data.process_url (env.with_write_error write_error) d reply).trace =
        writes (engine_data.process_url env d reply).trace ∧
      (engine_data.process_url (env.with_write_error write_error) d reply).trace.filter
          (fun e => !e.is_storage_error_log) =
        (engine_data.process_url env d reply).trace.filter
          (fun e => !e.is_storage_error_log)) := by
  have hform := ed_process_url_ok env d reply hok
  have hraised : (engine_data.run_hooks env reply (engine_data.after_persist d reply)
      (engine_data.filter_loop reply env.filters 0 true).1).raised = none := by
    rw [hform] at hreturn
    exact hreturn
  have hform2 := ed_process_url_ok (env.with_write_error write_error) d reply hok
  have henv : engine_data.run_hooks (env.with_write_error write_error) reply
      (engine_data.after_persist d reply)
      (engine_data.filter_loop reply (env.with_write_error write_error).filters 0 true).1 =
      engine_data.run_hooks env reply (engine_data.after_persist d reply)
        (engine_data.filter_loop reply env.filters 0 true).1 :=
    ed_run_hooks_with_write_error env write_error reply _ _
  rw [henv] at hform2
  simp only [hraised] at hform hform2
  refine ⟨?_, ⟨?_, ?_⟩, ?_, ⟨waits_join_writes _ _ _, fun e he => mem_ed_join_writes _ _ _ _ he⟩,
    ?_, ?_, ?_, ?_⟩
  · rw [hform]
  · rw [writes, List.filterMap_append, List.filterMap_append]
    have h1 : List.filterMap event.written
        [event.cout_processing reply.request_url reply.url d.total] = [] := rfl
    have h2 : List.filterMap event.written
        (engine_data.filter_loop reply env.filters 0 true).2 = [] :=
      filterMap_nil_of_forall _ _ (fun e he => by
        obtain ⟨k, r, rfl⟩ := mem_filter_loop _ _ _ _ _ he
        rfl)
    have h3 := writes_persist_events env.dnet_current_time reply
    unfold writes at h3
    rw [h1, h2, h3]
    rfl
  · intro e he
    simp only [List.mem_append, List.mem_singleton] at he
    rcases he with (rfl | he) | he
    · rfl
    · obtain ⟨k, r, rfl⟩ := mem_filter_loop _ _ _ _ _ he
      rfl
    · rcases mem_persist_events _ _ _ he with ⟨u, rfl⟩ | ⟨w, rfl⟩ <;> rfl
  · intro e he
    exact ⟨(ed_run_hooks_events _ _ _ _ _ he).1, ed_run_hooks_no_wait _ _ _ _ _ he⟩
  · rw [hform2]
  · rw [hform2, hform]
  · rw [ed_writes_process_url _ d reply hok, ed_writes_process_url env d reply hok]
    rfl
  · rw [hform2, hform]
    simp only [List.filter_append, join_writes_without_logs]
    rfl

/-- Witness for C17: with a store whose writes all fail, the handler of a page
linking to `/a` still returns normally, ends with the same members as with a
working store, and schedules the fetch of `/a`; its trace ends with the two
waits, each followed by the log line. -/
theorem fire_then_join_witness :
    (engine_data.process_url failing_write_env ⟨∅, 0⟩
      (sample_reply "http://example.com/r" "http://example.com/" "http://example.com/a")).raised
      = none ∧
    (engine_data.process_url failing_write_env ⟨∅, 0⟩
      (sample_reply "http://example.com/r" "http://example.com/" "http://example.com/a")).data =
    (engine_data.process_url sample_env ⟨∅, 0⟩
      (sample_reply "http://example.com/r" "http://example.com/" "http://example.com/a")).data ∧
    fetches (engine_data.process_url failing_write_env ⟨∅, 0⟩
      (sample_reply "http://example.com/r" "http://example.com/" "http://example.com/a")).trace
      = ["http://example.com/a"] ∧
    (engine_data.process_url failing_write_env ⟨∅, 0⟩
      (sample_reply "http://example.com/r" "http://example.com/"
        "http://example.com/a")).trace.drop 12 =
      [event.wait_write ⟨⟨1000, 0⟩, "http://example.com/", "http://example.com/a"⟩,
        event.cout_storage_error "http://example.com/r",
        event.wait_write ⟨⟨1000, 0⟩, "http://example.com/r", "http://example.com/"⟩,
        event.cout_storage_error "http://example.com/r"] :=
  have h := fire_then_join sample_env ⟨∅, 0⟩
    (sample_reply "http://example.com/r" "http://example.com/" "http://example.com/a")
    (fun _ => true) (by decide) (by decide)
  ⟨h.2.2.2.2.1, h.2.2.2.2.2.1, by decide, by decide⟩

/-! ## The url-filter chain -/

theorem istream_tokens_no_space (acc cs : List Char) (h : ∀ c ∈ cs, isspace c = false)
    (hne : acc ≠ [] ∨ cs ≠ []) :
    istream_tokens acc cs = [String.mk (acc.reverse ++ cs)] := by
  induction cs generalizing acc with
  | nil =>
    have hacc : acc ≠ [] := by
      rcases hne with h1 | h1
      · exact h1
      · exact absurd rfl h1
    simp [istream_tokens, hacc]
  | cons c cs ih =>
    have hc : isspace c = false := h c (List.mem_cons_self _ _)
    simp only [istream_tokens, hc, Bool.false_eq_true, if_false]
    rw [ih (c :: acc) (fun x hx => h x (List.mem_cons_of_mem _ hx)) (Or.inl (by simp))]
    simp

/-- A non-empty groups string without whitespace, whatever colons it holds,
configures one group: the integer `atoi` reads at its start. -/
theorem parse_command_line_groups_single (group_string : String)
    (hne : group_string.data ≠ []) (h : ∀ c ∈ group_string.data, isspace c = false) :
    parse_command_line_groups group_string = [atoi group_string] := by
  unfold parse_command_line_groups
  have hlen : group_string.data.length ≠ 0 := by
    intro h0
    exact hne (List.length_eq_zero.1 h0)
  rw [if_pos hlen, istream_tokens_no_space [] group_string.data h (Or.inr hne)]
  rfl

/-- C19 (the code at the failing input): for `--groups 1:2:3`, the format the
option's help text documents, `engine::parse_command_line` configures the single
group 1: the string stream splits at whitespace, not at colons, and `atoi`
reads `1:2:3` as 1.  The loader of `elliptics_parse_docs.cpp` derives 1, 2, 3
from the same string; the engine does so only for `1 2 3`. -/
theorem groups_option_ignores_colons :
    parse_command_line_groups "1:2:3" = [1] ∧
    loader_groups "1:2:3" = [1, 2, 3] ∧
    parse_command_line_groups "10:20" = [10] ∧
    loader_groups "10:20" = [10, 20] ∧
    parse_command_line_groups "1 2 3" = [1, 2, 3] := by
  decide

/-! ## Candidate merging -/

theorem unpack_execute_scalar (stack : List (Nat × List msgpack_object)) (t : msgpack_token)
    (ts : List msgpack_token) (o : msgpack_object) (h : msgpack.unpack_scalar t = some o)
    (harr : ∀ n, t ≠ msgpack_token.array (n + 1)) :
    msgpack.unpack_execute stack (t :: ts) = msgpack.unpack_feed stack o ts := by
  unfold msgpack.unpack_feed
  cases t with
  | array n =>
    cases n with
    | zero => simp only [msgpack.unpack_execute, h]
    | succ n => exact absurd rfl (harr n)
  | _ => simp only [msgpack.unpack_execute, h]

theorem unpack_execute_array (n : Nat) (stack : List (Nat × List msgpack_object))
    (ts : List msgpack_token) :
    msgpack.unpack_execute stack (msgpack_token.array (n + 1) :: ts) =
      msgpack.unpack_execute ((n + 1, []) :: stack) ts := by
  simp only [msgpack.unpack_execute]

mutual
/-- The unpacker reads back an object in range that the packer wrote, and goes
on with what follows it in the buffer. -/
theorem unpack_execute_pack_object : ∀ (o : msgpack_object), o.valid = true →
    ∀ (stack : List (Nat × List msgpack_object)) (ts : List msgpack_token),
    msgpack.unpack_execute stack (msgpack.pack_object o ++ ts) =
      msgpack.unpack_feed stack o ts
  | msgpack_object.NIL, _, stack, ts =>
    unpack_execute_scalar stack _ ts _ rfl (fun n h => msgpack_token.noConfusion h)
  | msgpack_object.BOOLEAN b, _, stack, ts =>
    unpack_execute_scalar stack _ ts _ rfl (fun n h => msgpack_token.noConfusion h)
  | msgpack_object.POSITIVE_INTEGER v, _, stack, ts =>
    unpack_execute_scalar stack _ ts _ rfl (fun n h => msgpack_token.noConfusion h)
  | msgpack_object.NEGATIVE_INTEGER v, h, stack, ts => by
    simp only [msgpack_object.valid, Bool.and_eq_true, decide_eq_true_eq] at h
    have hneg : ¬ (0 ≤ v) := by omega
    simp only [msgpack.pack_object, msgpack.pack_int, hneg, if_false, List.singleton_append]
    exact unpack_execute_scalar stack _ ts _ (by simp [msgpack.unpack_scalar, hneg])
      (fun n h => msgpack_token.noConfusion h)
  | msgpack_object.RAW s, h, stack, ts => by
    simp only [msgpack_object.valid, decide_eq_true_eq] at h
    simp only [msgpack.pack_object, msgpack.pack_string, Nat.mod_eq_of_lt h,
      List.singleton_append]
    exact unpack_execute_scalar stack _ ts _ (by simp [msgpack.unpack_scalar])
      (fun n h => msgpack_token.noConfusion h)
  | msgpack_object.ARRAY [], _, stack, ts => by
    simp only [msgpack.pack_object, msgpack.pack_array, msgpack.pack_objects,
      List.length_nil, Nat.zero_mod, List.append_nil, List.singleton_append]
    exact unpack_execute_scalar stack _ ts _ rfl (fun n h => by simp at h)
  | msgpack_object.ARRAY (x :: xs), h, stack, ts => by
    simp only [msgpack_object.valid, Bool.and_eq_true, decide_eq_true_eq] at h
    have hrec := unpack_execute_pack_objects (x :: xs) h.2 [] stack ts (by simp)
    have hlen : (x :: xs).length % 2 ^ 32 = xs.length + 1 := by
      rw [Nat.mod_eq_of_lt h.1]
      rfl
    rw [msgpack.pack_object, msgpack.pack_array, hlen, List.singleton_append,
      List.cons_append, unpack_execute_array]
    simpa using hrec
/-- The unpacker fills an array it has begun with the items the packer wrote
for it. -/
theorem unpack_execute_pack_objects : ∀ (items : List msgpack_object),
    msgpack_object.all_valid items = true →
    ∀ (acc : List msgpack_object) (stack : List (Nat × List msgpack_object))
      (ts : List msgpack_token), items ≠ [] →
    msgpack.unpack_execute ((items.length, acc) :: stack) (msgpack.pack_objects items ++ ts) =
      msgpack.unpack_feed stack (msgpack_object.ARRAY (acc.reverse ++ items)) ts
  | [], _, _, _, _, hne => absurd rfl hne
  | [x], h, acc, stack, ts, _ => by
    simp only [msgpack_object.all_valid, Bool.and_eq_true] at h
    simp only [msgpack.pack_objects, List.append_nil, List.length_singleton]
    rw [unpack_execute_pack_object x h.1]
    simp [msgpack.unpack_feed, msgpack.unpack_push]
  | x :: y :: ys, h, acc, stack, ts, _ => by
    simp only [msgpack_object.all_valid, Bool.and_eq_true] at h
    have hrec := unpack_execute_pack_objects (y :: ys)
      (by simp [msgpack_object.all_valid, h.2]) (x :: acc) stack ts (by simp)
    rw [msgpack.pack_objects, List.append_assoc, unpack_execute_pack_object x h.1]
    simp only [msgpack.unpack_feed, msgpack.unpack_push, List.length_cons]
    rw [if_neg (by omega)]
    simpa using hrec
end

/-- Unpacking the buffer of one object in range gives the object back. -/
theorem unpack_pack_object (o : msgpack_object) (h : o.valid = true) :
    msgpack.unpack (msgpack.pack_object o) = Except.ok o := by
  have := unpack_execute_pack_object o h [] []
  rw [List.append_nil] at this
  unfold msgpack.unpack
  rw [this]
  rfl

theorem pack_object_int_object (d : Int) :
    msgpack.pack_object (msgpack.int_object d) = msgpack.pack_int d := by
  unfold msgpack.int_object
  by_cases h : 0 ≤ d
  · simp only [h, if_true, msgpack.pack_object, msgpack.pack_int]
  · simp only [h, if_false, msgpack.pack_object]

theorem pack_objects_int_object (v : List Int) :
    msgpack.pack_objects (v.map msgpack.int_object) = v.flatMap msgpack.pack_int := by
  induction v with
  | nil => rfl
  | cons d v ih =>
    rw [List.map_cons, msgpack.pack_objects, ih, pack_object_int_object, List.flatMap_cons]

/-- A vector of `int`s is written as the array of its elements. -/
theorem pack_vector_int_eq (v : List Int) :
    msgpack.pack_vector_int v =
      msgpack.pack_object (msgpack_object.ARRAY (v.map msgpack.int_object)) := by
  rw [msgpack.pack_object, pack_objects_int_object, List.length_map]
  rfl

theorem int_object_valid (d : Int) (h : -2 ^ 31 ≤ d ∧ d < 2 ^ 31) :
    (msgpack.int_object d).valid = true := by
  unfold msgpack.int_object
  by_cases h0 : 0 ≤ d
  · simp only [h0, if_true, msgpack_object.valid, decide_eq_true_eq]
    omega
  · simp only [h0, if_false, msgpack_object.valid, Bool.and_eq_true, decide_eq_true_eq]
    omega

theorem all_valid_int_objects (v : List Int) (h : ∀ p ∈ v, -2 ^ 31 ≤ p ∧ p < 2 ^ 31) :
    msgpack_object.all_valid (v.map msgpack.int_object) = true := by
  induction v with
  | nil => rfl
  | cons d v ih =>
    rw [List.map_cons, msgpack_object.all_valid,
      int_object_valid d (h d (List.mem_cons_self _ _)),
      ih (fun p hp => h p (List.mem_cons_of_mem _ hp))]
    rfl

theorem convert_int_int_object (d : Int) (h : -2 ^ 31 ≤ d ∧ d < 2 ^ 31) :
    msgpack.convert_int (msgpack.int_object d) = Except.ok d := by
  unfold msgpack.int_object
  by_cases h0 : 0 ≤ d
  · have hle : ¬ (d.toNat > 2 ^ 31 - 1) := by omega
    simp only [h0, if_true, msgpack.convert_int, hle, if_false, Int.toNat_of_nonneg h0]
  · have hlt : ¬ (d < -2 ^ 31) := by omega
    have hmod : (d + 2 ^ 31) % 2 ^ 32 = d + 2 ^ 31 :=
      Int.emod_eq_of_lt (by omega) (by omega)
    simp only [h0, if_false, msgpack.convert_int, hlt, hmod]
    congr 1
    omega

theorem convert_items_int_objects (v : List Int) (h : ∀ p ∈ v, -2 ^ 31 ≤ p ∧ p < 2 ^ 31) :
    msgpack.convert_items (v.map msgpack.int_object) = Except.ok v := by
  induction v with
  | nil => rfl
  | cons d v ih =>
    rw [List.map_cons, msgpack.convert_items,
      convert_int_int_object d (h d (List.mem_cons_self _ _))]
    simp only [ih (fun p hp => h p (List.mem_cons_of_mem _ hp))]

/-- The buffer `operator <<` fills for an `index_data` is that of one array of
four objects: the version, the time stamp, the positions, the key. -/
theorem pack_index_data_eq (a : dnet_time_adaptor) (d : index_data) :
    msgpack.pack_index_data a d =
      msgpack.pack_object (msgpack_object.ARRAY
        [msgpack_object.POSITIVE_INTEGER 2, a.pack d.ts,
          msgpack_object.ARRAY (d.pos.map msgpack.int_object), msgpack_object.RAW d.key]) := by
  unfold msgpack.pack_index_data
  rw [pack_vector_int_eq]
  simp only [msgpack.pack_object, msgpack.pack_objects, List.append_nil, List.append_assoc,
    List.length_cons, List.length_nil, List.length_map]
  rfl

/-- What `operator >>` makes of the array of four that `operator <<` wrote. -/
theorem convert_index_data_packed (a : dnet_time_adaptor) (d : index_data)
    (hts : a.convert (a.pack d.ts) = Except.ok d.ts)
    (hpos : ∀ p ∈ d.pos, -2 ^ 31 ≤ p ∧ p < 2 ^ 31) :
    msgpack.convert_index_data a (msgpack_object.ARRAY
      [msgpack_object.POSITIVE_INTEGER 2, a.pack d.ts,
        msgpack_object.ARRAY (d.pos.map msgpack.int_object), msgpack_object.RAW d.key]) =
      Except.ok d := by
  have hv : msgpack.convert_int (msgpack_object.POSITIVE_INTEGER 2) = Except.ok 2 := rfl
  simp only [msgpack.convert_index_data, hv, hts, msgpack.convert_vector_int,
    convert_items_int_objects d.pos hpos, msgpack.convert_string]
  rfl

/-- The only objects `operator >>` accepts are arrays of four whose first item
converts to the version. -/
theorem convert_index_data_accepts (a : dnet_time_adaptor) (o : msgpack_object)
    (d : index_data) (h : msgpack.convert_index_data a o = Except.ok d) :
    ∃ p0 p1 p2 p3, o = msgpack_object.ARRAY [p0, p1, p2, p3] ∧
      msgpack.convert_int p0 = Except.ok index_data.version := by
  unfold msgpack.convert_index_data at h
  split at h
  · rename_i p0 p1 p2 p3
    refine ⟨p0, p1, p2, p3, rfl, ?_⟩
    split at h
    · exact Except.noConfusion h
    · rename_i version hversion
      rw [hversion]
      by_cases hv : version = index_data.version
      · rw [hv]
      · rw [if_pos hv] at h
        exact Except.noConfusion h
  · exact Except.noConfusion h

/-- C22: `index_data` round-trips through its msgpack form.  For a record whose
positions are `int`s, whose position list and key are shorter than 2^32 (the
sizes a msgpack header holds), and whose time stamp the `dnet_time` adaptors of
`wookie/document.hpp` write as an object in range that they read back: the
buffer `convert()` fills unpacks, and the constructor from a buffer returns a
record with the same `ts`, `key` and `pos`; the unpacked object is an array of
four items, the first the version number 2, then the time stamp, the positions
and the key; and `operator >>` accepts no object but an array of four items
whose first converts to the version. -/
theorem index_data_round_trip (a : dnet_time_adaptor) (d : index_data)
    (hts : (a.pack d.ts).valid = true ∧ a.convert (a.pack d.ts) = Except.ok d.ts)
    (hpos : ∀ p ∈ d.pos, -2 ^ 31 ≤ p ∧ p < 2 ^ 31)
    (hsize : d.pos.length < 2 ^ 32 ∧ d.key.length < 2 ^ 32) :
    index_data.unpack a (index_data.convert a d) = Except.ok d ∧
    msgpack.unpack (index_data.convert a d) =
      Except.ok (msgpack_object.ARRAY
        [msgpack_object.POSITIVE_INTEGER 2, a.pack d.ts,
          msgpack_object.ARRAY (d.pos.map msgpack.int_object), msgpack_object.RAW d.key]) ∧
    (∀ o d2, msgpack.convert_index_data a o = Except.ok d2 →
      ∃ p0 p1 p2 p3, o = msgpack_object.ARRAY [p0, p1, p2, p3] ∧
        msgpack.convert_int p0 = Except.ok index_data.version) := by
  have hvalid : (msgpack_object.ARRAY
      [msgpack_object.POSITIVE_INTEGER 2, a.pack d.ts,
        msgpack_object.ARRAY (d.pos.map msgpack.int_object),
        msgpack_object.RAW d.key]).valid = true := by
    simp only [msgpack_object.valid, msgpack_object.all_valid, hts.1,
      all_valid_int_objects d.pos hpos, List.length_map, List.length_cons, List.length_nil,
      Bool.and_eq_true, decide_eq_true_eq, Bool.and_true, and_true, true_and]
    refine ⟨by norm_num, by norm_num, hsize.1, hsize.2⟩
  have hunpack : msgpack.unpack (index_data.convert a d) =
      Except.ok (msgpack_object.ARRAY
        [msgpack_object.POSITIVE_INTEGER 2, a.pack d.ts,
          msgpack_object.ARRAY (d.pos.map msgpack.int_object), msgpack_object.RAW d.key]) := by
    unfold index_data.convert
    rw [pack_index_data_eq, unpack_pack_object _ hvalid]
  refine ⟨?_, hunpack, convert_index_data_accepts a⟩
  unfold index_data.unpack
  rw [hunpack]
  exact convert_index_data_packed a d hts.2 hpos

/-- Witness for C22: the sample record, a token found at three positions, with
adaptors that write a time stamp as the array of its two numbers; and a record
with a negative position and the two ends of the range of `int`. -/
theorem index_data_round_trip_witness :
    index_data.unpack sample_adaptor (index_data.convert sample_adaptor sample_index_data) =
      Except.ok sample_index_data ∧
    index_data.convert sample_adaptor sample_index_data =
      [msgpack_token.array 4, msgpack_token.uint 2, msgpack_token.array 2,
        msgpack_token.uint 1000, msgpack_token.uint 5, msgpack_token.array 3,
        msgpack_token.uint 0, msgpack_token.uint 17, msgpack_token.uint 42,
        msgpack_token.raw 7 "crawler"] ∧
    index_data.unpack sample_adaptor
      (index_data.convert sample_adaptor ⟨⟨1, 2⟩, "", [-5, 2147483647, -2147483648]⟩) =
      Except.ok ⟨⟨1, 2⟩, "", [-5, 2147483647, -2147483648]⟩ :=
  ⟨(index_data_round_trip sample_adaptor sample_index_data ⟨by decide, rfl⟩ (by decide)
      ⟨by decide, by decide⟩).1,
    by decide,
    (index_data_round_trip sample_adaptor ⟨⟨1, 2⟩, "", [-5, 2147483647, -2147483648]⟩
      ⟨by decide, rfl⟩ (by decide) ⟨by decide, by decide⟩).1⟩

/-! ## Hooks that may throw: the returning case -/

theorem eh_filter_loop_hooks (reply : network_reply) (fs : List filter_functor) (i : Nat)
    (acc : Bool) :
    engine_hooks.filter_loop reply (fs.map (fun f => fun r => Except.ok (f r))) i acc =
      (Except.ok (engine_data.filter_loop reply fs i acc).1,
        (engine_data.filter_loop reply fs i acc).2) := by
  induction fs generalizing i acc with
  | nil => rfl
  | cons f fs ih =>
    cases acc with
    | false => rfl
    | true =>
      simp only [List.map_cons, engine_hooks.filter_loop, engine_data.filter_loop, if_true, ih]

theorem eh_url_filter_loop_hooks (reply : network_reply) (url : String)
    (fs : List url_filter_functor) (j : Nat) (ok : Bool) :
    engine_hooks.url_filter_loop reply url
        (fs.map (fun f => fun r u => Except.ok (f r u))) j ok =
      (Except.ok (engine_data.url_filter_loop reply url fs j ok).1,
        (engine_data.url_filter_loop reply url fs j ok).2) := by
  induction fs generalizing j ok with
  | nil => rfl
  | cons f fs ih =>
    cases ok with
    | false => rfl
    | true =>
      simp only [List.map_cons, engine_hooks.url_filter_loop, engine_data.url_filter_loop,
        if_true, ih]

theorem eh_run_parsers_hooks (reply : network_reply) (ps : List parser_functor) (i : Nat) :
    engine_hooks.run_parsers reply (ps.map (fun p => fun r => Except.ok (p r))) i =
      (Except.ok (engine_data.run_parsers reply ps i).1,
        (engine_data.run_parsers reply ps i).2) := by
  induction ps generalizing i with
  | nil => rfl
  | cons p ps ih =>
    simp only [List.map_cons, engine_hooks.run_parsers, engine_data.run_parsers, ih]

theorem eh_process_candidate_hooks (env : engine_env) (reply : network_reply)
    (d : engine_data) (url : String) :
    engine_hooks.process_candidate env.hooks reply d url =
      engine_data.process_candidate env reply d url := by
  unfold engine_hooks.process_candidate engine_data.process_candidate
  simp only [engine_env.hooks, eh_url_filter_loop_hooks]
  cases (engine_data.url_filter_loop reply url env.url_filters 0 true).1 <;> rfl

theorem eh_candidate_loop_hooks (env : engine_env) (reply : network_reply)
    (urls : List String) (d : engine_data) :
    engine_hooks.candidate_loop env.hooks reply d urls =
      engine_data.candidate_loop env reply d urls := by
  induction urls generalizing d with
  | nil => rfl
  | cons url urls ih =>
    unfold engine_hooks.candidate_loop engine_data.candidate_loop
    simp only [eh_process_candidate_hooks, ih]

theorem eh_join_writes_hooks (env : engine_env) (reply : network_reply) (ws : List document) :
    engine_hooks.join_writes env.hooks reply ws = engine_data.join_writes env reply ws := by
  induction ws with
  | nil => rfl
  | cons w ws ih =>
    unfold engine_hooks.join_writes engine_data.join_writes
    rw [ih]
    rfl

theorem eh_run_hooks_hooks (env : engine_env) (reply : network_reply) (d : engine_data)
    (acc : Bool) :
    engine_hooks.run_hooks env.hooks reply d acc = engine_data.run_hooks env reply d acc := by
  have hp : env.hooks.parsers = env.parsers.map (fun p => fun r => Except.ok (p r)) := rfl
  have hq : env.hooks.processors = env.processors := rfl
  have hf : env.hooks.fallback_processors = env.fallback_processors := rfl
  unfold engine_hooks.run_hooks engine_data.run_hooks
  simp only [hp, hq, hf, eh_run_parsers_hooks, eh_candidate_loop_hooks]

/-- When filters, url-filters and parsers return, `process_url` with hooks that
may throw is `process_url` with hooks that return. -/
theorem eh_process_url_hooks (env : engine_env) (d : engine_data) (reply : network_reply) :
    engine_hooks.process_url env.hooks d reply = engine_data.process_url env d reply := by
  have hf : env.hooks.filters = env.filters.map (fun f => fun r => Except.ok (f r)) := rfl
  have ht : env.hooks.dnet_current_time = env.dnet_current_time := rfl
  unfold engine_hooks.process_url engine_data.process_url
  simp only [hf, ht, eh_filter_loop_hooks, eh_run_hooks_hooks, eh_join_writes_hooks]

/-! ## Hooks that may throw: the shape of `process_url` -/

theorem eh_process_url_error (env : engine_hooks) (d : engine_data) (reply : network_reply)
    (h : reply.error ≠ 0) :
    engine_hooks.process_url env d reply =
      ⟨d, [event.cout_error reply.url reply.error], none⟩ := by
  unfold engine_hooks.process_url
  simp [h]

/-- A filter that throws ends `process_url` before the counter and the persist
step. -/
theorem eh_process_url_throw (env : engine_hooks) (d : engine_data) (reply : network_reply)
    (e : String) (h : reply.error = 0)
    (hf : (engine_hooks.filter_loop reply env.filters 0 true).1 = Except.error e) :
    engine_hooks.process_url env d reply =
      ⟨d, [event.cout_processing reply.request_url reply.url d.total] ++
        (engine_hooks.filter_loop reply env.filters 0 true).2, some e⟩ := by
  unfold engine_hooks.process_url
  simp only [h, ne_eq, not_true_eq_false, if_false, hf]

/-- When the filters return, `process_url` is: log, filter loop, persist step,
hooks, and (unless a hook threw) the join. -/
theorem eh_process_url_ok (env : engine_hooks) (d : engine_data) (reply : network_reply)
    (acc : Bool) (h : reply.error = 0)
    (hf : (engine_hooks.filter_loop reply env.filters 0 true).1 = Except.ok acc) :
    engine_hooks.process_url env d reply =
      ⟨(engine_hooks.run_hooks env reply (engine_data.after_persist d reply) acc).data,
        [event.cout_processing reply.request_url reply.url d.total] ++
          (engine_hooks.filter_loop reply env.filters 0 true).2 ++
          persist_events env.dnet_current_time reply ++
          (engine_hooks.run_hooks env reply (engine_data.after_persist d reply) acc).trace ++
          (match (engine_hooks.run_hooks env reply
              (engine_data.after_persist d reply) acc).raised with
            | some _ => []
            | none => engine_hooks.join_writes env reply
                (pending_writes env.dnet_current_time reply)),
        (engine_hooks.run_hooks env reply (engine_data.after_persist d reply) acc).raised⟩ := by
  unfold engine_hooks.process_url engine_data.after_persist persist_events pending_writes
  simp only [h, ne_eq, not_true_eq_false, if_false, engine_data.store_document, hf]
  by_cases hr : reply.url = reply.request_url
  · simp only [hr, not_true_eq_false, if_false]
    split <;> simp_all
  · simp only [hr, not_false_eq_true, if_true]
    split <;> simp_all

/-- The seven ways an iteration of the candidate loop can go: discarded, a
url-filter throws, a url-filter rejects, the url is inflight already, the
lookup misses and the url is fetched, the lookup hits and a processor throws,
the lookup hits and the url is released. -/
theorem eh_process_candidate_cases (env : engine_hooks) (reply : network_reply)
    (d : engine_data) (url : String) :
    engine_hooks.process_candidate env reply d url = ⟨d, [], none⟩ ∨
    (∃ e, (engine_hooks.url_filter_loop reply url env.url_filters 0 true).1 = Except.error e ∧
      engine_hooks.process_candidate env reply d url =
        ⟨d, (engine_hooks.url_filter_loop reply url env.url_filters 0 true).2, some e⟩) ∨
    ((engine_hooks.url_filter_loop reply url env.url_filters 0 true).1 = Except.ok false ∧
      engine_hooks.process_candidate env reply d url =
        ⟨d, (engine_hooks.url_filter_loop reply url env.url_filters 0 true).2, none⟩) ∨
    ((engine_hooks.url_filter_loop reply url env.url_filters 0 true).1 = Except.ok true ∧
      (env.net.relative reply.url url).1 ∈ d.inflight ∧
      engine_hooks.process_candidate env reply d url =
        ⟨d, (engine_hooks.url_filter_loop reply url env.url_filters 0 true).2 ++
          [event.inflight_insert (env.net.relative reply.url url).1 false], none⟩) ∨
    ((engine_hooks.url_filter_loop reply url env.url_filters 0 true).1 = Except.ok true ∧
      (env.net.relative reply.url url).1 ∉ d.inflight ∧
      env.storage.read_data_error (env.net.relative reply.url url).1 = true ∧
      engine_hooks.process_candidate env reply d url =
        ⟨⟨insert (env.net.relative reply.url url).1 d.inflight, d.total⟩,
          (engine_hooks.url_filter_loop reply url env.url_filters 0 true).2 ++
            [event.inflight_insert (env.net.relative reply.url url).1 true,
              event.read_data (env.net.relative reply.url url).1,
              event.cout_page_cache (env.net.relative reply.url url).1,
              event.cout_downloading (env.net.relative reply.url url).1,
              event.feed (env.net.relative reply.url url).1], none⟩) ∨
    ((engine_hooks.url_filter_loop reply url env.url_filters 0 true).1 = Except.ok true ∧
      (env.net.relative reply.url url).1 ∉ d.inflight ∧
      env.storage.read_data_error (env.net.relative reply.url url).1 = false ∧
      ∃ e, (engine_data.run_processors reply document_type.document_cache
          env.processors 0).2 = some e ∧
        engine_hooks.process_candidate env reply d url =
          ⟨⟨insert (env.net.relative reply.url url).1 d.inflight, d.total⟩,
            (engine_hooks.url_filter_loop reply url env.url_filters 0 true).2 ++
              [event.inflight_insert (env.net.relative reply.url url).1 true,
                event.read_data (env.net.relative reply.url url).1] ++
              (engine_data.run_processors reply document_type.document_cache
                env.processors 0).1, some e⟩) ∨
    ((engine_hooks.url_filter_loop reply url env.url_filters 0 true).1 = Except.ok true ∧
      (env.net.relative reply.url url).1 ∉ d.inflight ∧
      env.storage.read_data_error (env.net.relative reply.url url).1 = false ∧
      (engine_data.run_processors reply document_type.document_cache
          env.processors 0).2 = none ∧
      engine_hooks.process_candidate env reply d url =
        ⟨d, (engine_hooks.url_filter_loop reply url env.url_filters 0 true).2 ++
            [event.inflight_insert (env.net.relative reply.url url).1 true,
              event.read_data (env.net.relative reply.url url).1] ++
            (engine_data.run_processors reply document_type.document_cache
              env.processors 0).1 ++
            [event.infligt_erase (env.net.relative reply.url url).1], none⟩) := by
  cases h1 : (compare_ne (env.net.relative reply.url url).1 6 "https:" &&
      compare_ne (env.net.relative reply.url url).1 5 "http:") with
  | true =>
    left
    unfold engine_hooks.process_candidate
    simp only [h1, if_true]
  | false =>
  cases h2 : ((env.net.relative reply.url url).1.data.isEmpty ||
      (env.net.relative reply.url url).2.data.isEmpty ||
      (env.net.relative reply.url url).1 == reply.url) with
  | true =>
    left
    unfold engine_hooks.process_candidate
    simp only [h1, h2, if_true, if_false, Bool.false_eq_true]
  | false =>
  right
  cases h3 : (engine_hooks.url_filter_loop reply url env.url_filters 0 true).1 with
  | error e =>
    left
    refine ⟨e, rfl, ?_⟩
    unfold engine_hooks.process_candidate
    simp only [h1, h2, h3, if_false, Bool.false_eq_true]
  | ok b =>
  right
  cases b with
  | false =>
    left
    refine ⟨rfl, ?_⟩
    unfold engine_hooks.process_candidate
    simp only [h1, h2, h3, if_false, Bool.false_eq_true]
  | true =>
  right
  by_cases h4 : (env.net.relative reply.url url).1 ∈ d.inflight
  · left
    refine ⟨rfl, h4, ?_⟩
    unfold engine_hooks.process_candidate
    simp only [h1, h2, h3, if_false, Bool.false_eq_true]
    simp [engine_data.inflight_insert, h4]
  right
  have hins : engine_data.inflight_insert d (env.net.relative reply.url url).1 =
      (true, ⟨insert (env.net.relative reply.url url).1 d.inflight, d.total⟩) := by
    simp [engine_data.inflight_insert, h4]
  have hera : engine_data.infligt_erase
      ⟨insert (env.net.relative reply.url url).1 d.inflight, d.total⟩
      (env.net.relative reply.url url).1 = d := by
    have := ed_erase_insert d (env.net.relative reply.url url).1 h4
    rw [hins] at this
    exact this
  cases h5 : env.storage.read_data_error (env.net.relative reply.url url).1 with
  | true =>
    left
    refine ⟨rfl, h4, rfl, ?_⟩
    unfold engine_hooks.process_candidate
    simp only [h1, h2, h3, if_true, if_false, hins, h5, Bool.not_true, Bool.false_eq_true,
      engine_data.download]
    simp
  | false =>
    right
    cases h6 : (engine_data.run_processors reply document_type.document_cache
        env.processors 0).2 with
    | some e =>
      left
      refine ⟨rfl, h4, rfl, e, rfl, ?_⟩
      unfold engine_hooks.process_candidate
      simp only [h1, h2, h3, if_false, hins, h5, h6, Bool.not_true, Bool.false_eq_true]
    | none =>
      right
      refine ⟨rfl, h4, rfl, rfl, ?_⟩
      unfold engine_hooks.process_candidate
      simp only [h1, h2, h3, if_false, hins, h5, h6, Bool.not_true, Bool.false_eq_true, hera]

theorem mem_eh_filter_loop (reply : network_reply)
    (fs : List (network_reply → Except String Bool)) (i : Nat) (acc : Bool) (e : event)
    (he : e ∈ (engine_hooks.filter_loop reply fs i acc).2) :
    (∃ k r, e = event.filter_call k r) ∨ ∃ k, e = event.filter_throw k := by
  induction fs generalizing i acc with
  | nil => simp [engine_hooks.filter_loop] at he
  | cons f fs ih =>
    unfold engine_hooks.filter_loop at he
    cases acc with
    | false => simp at he
    | true =>
      simp only [if_true] at he
      cases hf : f reply with
      | error x =>
        simp only [hf, List.mem_singleton] at he
        exact Or.inr ⟨i, he⟩
      | ok r =>
        simp only [hf, List.mem_cons] at he
        rcases he with rfl | he
        · exact Or.inl ⟨i, r, rfl⟩
        · exact ih _ _ he

theorem mem_eh_url_filter_loop (reply : network_reply) (url : String)
    (fs : List (network_reply → String → Except String Bool)) (j : Nat) (ok : Bool)
    (e : event) (he : e ∈ (engine_hooks.url_filter_loop reply url fs j ok).2) :
    (∃ k r, e = event.url_filter_call k url r) ∨ ∃ k, e = event.url_filter_throw k url := by
  induction fs generalizing j ok with
  | nil => simp [engine_hooks.url_filter_loop] at he
  | cons f fs ih =>
    unfold engine_hooks.url_filter_loop at he
    cases ok with
    | false => simp at he
    | true =>
      simp only [if_true] at he
      cases hf : f reply url with
      | error x =>
        simp only [hf, List.mem_singleton] at he
        exact Or.inr ⟨j, he⟩
      | ok r =>
        simp only [hf, List.mem_cons] at he
        rcases he with rfl | he
        · exact Or.inl ⟨j, r, rfl⟩
        · exact ih _ _ he

theorem mem_eh_run_parsers (reply : network_reply)
    (ps : List (network_reply → Except String (List String))) (i : Nat) (e : event)
    (he : e ∈ (engine_hooks.run_parsers reply ps i).2) :
    (∃ k, e = event.parser_call k) ∨ ∃ k, e = event.parser_throw k := by
  induction ps generalizing i with
  | nil => simp [engine_hooks.run_parsers] at he
  | cons p ps ih =>
    unfold engine_hooks.run_parsers at he
    cases hp : p reply with
    | error x =>
      simp only [hp, List.mem_singleton] at he
      exact Or.inr ⟨i, he⟩
    | ok urls =>
      simp only [hp, List.mem_cons] at he
      rcases he with rfl | he
      · exact Or.inl ⟨i, rfl⟩
      · exact ih _ he

theorem mem_eh_join_writes (env : engine_hooks) (reply : network_reply) (ws : List document)
    (e : event) (he : e ∈ engine_hooks.join_writes env reply ws) :
    (∃ w, e = event.wait_write w) ∨ e = event.cout_storage_error reply.request_url := by
  induction ws with
  | nil => simp [engine_hooks.join_writes] at he
  | cons w ws ih =>
    unfold engine_hooks.join_writes at he
    simp only [List.mem_append] at he
    rcases he with he | he
    · split at he
      · simp only [List.mem_cons, List.mem_singleton, List.not_mem_nil, or_false] at he
        rcases he with rfl | rfl
        · exact Or.inl ⟨w, rfl⟩
        · exact Or.inr rfl
      · simp only [List.mem_singleton] at he
        exact Or.inl ⟨w, he⟩
    · exact ih he

theorem eh_candidate_loop_cons_ok (env : engine_hooks) (reply : network_reply)
    (d : engine_data) (url : String) (urls : List String)
    (h : (engine_hooks.process_candidate env reply d url).raised = none) :
    engine_hooks.candidate_loop env reply d (url :: urls) =
      ⟨(engine_hooks.candidate_loop env reply
          (engine_hooks.process_candidate env reply d url).data urls).data,
        (engine_hooks.process_candidate env reply d url).trace ++
          (engine_hooks.candidate_loop env reply
            (engine_hooks.process_candidate env reply d url).data urls).trace,
        (engine_hooks.candidate_loop env reply
          (engine_hooks.process_candidate env reply d url).data urls).raised⟩ := by
  conv_lhs => unfold engine_hooks.candidate_loop
  simp only [h]

theorem eh_candidate_loop_cons_raise (env : engine_hooks) (reply : network_reply)
    (d : engine_data) (url : String) (urls : List String) (e : String)
    (h : (engine_hooks.process_candidate env reply d url).raised = some e) :
    engine_hooks.candidate_loop env reply d (url :: urls) =
      ⟨(engine_hooks.process_candidate env reply d url).data,
        (engine_hooks.process_candidate env reply d url).trace, some e⟩ := by
  conv_lhs => unfold engine_hooks.candidate_loop
  simp only [h]

/-- Whatever holds of url-filter calls, calls on the inflight set, lookups,
the two log lines, feeds and `document_cache` processor calls holds of every
action of an iteration of the candidate loop. -/
theorem eh_process_candidate_forall (P : event → Prop)
    (h1 : ∀ j u r, P (event.url_filter_call j u r))
    (h2 : ∀ j u, P (event.url_filter_throw j u))
    (h3 : ∀ u b, P (event.inflight_insert u b))
    (h4 : ∀ u, P (event.read_data u))
    (h5 : ∀ u, P (event.cout_page_cache u))
    (h6 : ∀ u, P (event.cout_downloading u))
    (h7 : ∀ u, P (event.feed u))
    (h8 : ∀ k, P (event.processor_call k document_type.document_cache))
    (h9 : ∀ u, P (event.infligt_erase u))
    (env : engine_hooks) (reply : network_reply) (d : engine_data) (url : String)
    (e : event) (he : e ∈ (engine_hooks.process_candidate env reply d url).trace) : P e := by
  have huf : ∀ x ∈ (engine_hooks.url_filter_loop reply url env.url_filters 0 true).2, P x := by
    intro x hx
    rcases mem_eh_url_filter_loop _ _ _ _ _ _ hx with ⟨k, r, rfl⟩ | ⟨k, rfl⟩
    · exact h1 _ _ _
    · exact h2 _ _
  have hpr : ∀ x ∈ (engine_data.run_processors reply document_type.document_cache
      env.processors 0).1, P x := by
    intro x hx
    obtain ⟨k, rfl⟩ := mem_run_processors _ _ _ _ _ hx
    exact h8 k
  rcases eh_process_candidate_cases env reply d url with
    c | ⟨_, _, c⟩ | ⟨_, c⟩ | ⟨_, _, c⟩ | ⟨_, _, _, c⟩ | ⟨_, _, _, _, _, c⟩ | ⟨_, _, _, _, c⟩ <;>
    rw [c] at he
  · simp at he
  · exact huf e he
  · exact huf e he
  · simp only [List.mem_append, List.mem_singleton] at he
    rcases he with he | rfl
    · exact huf e he
    · exact h3 _ _
  · simp only [List.mem_append, List.mem_cons, List.mem_singleton, List.not_mem_nil,
      or_false] at he
    rcases he with he | rfl | rfl | rfl | rfl | rfl
    · exact huf e he
    · exact h3 _ _
    · exact h4 _
    · exact h5 _
    · exact h6 _
    · exact h7 _
  · simp only [List.mem_append, List.mem_cons, List.mem_singleton, List.not_mem_nil,
      or_false] at he
    rcases he with (he | rfl | rfl) | he
    · exact huf e he
    · exact h3 _ _
    · exact h4 _
    · exact hpr e he
  · simp only [List.mem_append, List.mem_cons, List.mem_singleton, List.not_mem_nil,
      or_false] at he
    rcases he with ((he | rfl | rfl) | he) | rfl
    · exact huf e he
    · exact h3 _ _
    · exact h4 _
    · exact hpr e he
    · exact h9 _

theorem eh_candidate_loop_forall (P : event → Prop) {env : engine_hooks}
    {reply : network_reply}
    (hstep : ∀ (d : engine_data) (url : String) (e : event),
      e ∈ (engine_hooks.process_candidate env reply d url).trace → P e)
    (urls : List String) (d : engine_data) (e : event)
    (he : e ∈ (engine_hooks.candidate_loop env reply d urls).trace) : P e := by
  induction urls generalizing d with
  | nil => simp [engine_hooks.candidate_loop] at he
  | cons u us ih =>
    cases ho : (engine_hooks.process_candidate env reply d u).raised with
    | some x =>
      rw [eh_candidate_loop_cons_raise env reply d u us x ho] at he
      exact hstep d u e he
    | none =>
      rw [eh_candidate_loop_cons_ok env reply d u us ho] at he
      simp only [List.mem_append] at he
      rcases he with he | he
      · exact hstep d u e he
      · exact ih _ he

/-- Whatever holds of the actions of the candidate loop, of processor calls,
parser calls and fallback-processor calls holds of every action of the
hooks. -/
theorem eh_run_hooks_forall (P : event → Prop)
    (h1 : ∀ j u r, P (event.url_filter_call j u r))
    (h2 : ∀ j u, P (event.url_filter_throw j u))
    (h3 : ∀ u b, P (event.inflight_insert u b))
    (h4 : ∀ u, P (event.read_data u))
    (h5 : ∀ u, P (event.cout_page_cache u))
    (h6 : ∀ u, P (event.cout_downloading u))
    (h7 : ∀ u, P (event.feed u))
    (h8 : ∀ k tag, P (event.processor_call k tag))
    (h9 : ∀ u, P (event.infligt_erase u))
    (h10 : ∀ k, P (event.parser_call k))
    (h11 : ∀ k, P (event.parser_throw k))
    (h12 : ∀ k tag, P (event.fallback_processor_call k tag))
    (env : engine_hooks) (reply : network_reply) (d : engine_data) (acc : Bool)
    (e : event) (he : e ∈ (engine_hooks.run_hooks env reply d acc).trace) : P e := by
  have hpr : ∀ x ∈ (engine_data.run_processors reply document_type.document_new
      env.processors 0).1, P x := by
    intro x hx
    obtain ⟨k, rfl⟩ := mem_run_processors _ _ _ _ _ hx
    exact h8 k _
  have hps : ∀ x ∈ (engine_hooks.run_parsers reply env.parsers 0).2, P x := by
    intro x hx
    rcases mem_eh_run_parsers _ _ _ _ hx with ⟨k, rfl⟩ | ⟨k, rfl⟩
    · exact h10 k
    · exact h11 k
  unfold engine_hooks.run_hooks at he
  cases acc with
  | false =>
    simp only [Bool.false_eq_true, if_false] at he
    obtain ⟨k, rfl⟩ := mem_run_fallback_processors _ _ _ _ he
    exact h12 k _
  | true =>
    simp only [if_true] at he
    split at he
    · exact hpr e he
    · split at he
      · simp only [List.mem_append] at he
        rcases he with he | he
        · exact hpr e he
        · exact hps e he
      · simp only [List.mem_append] at he
        rcases he with (he | he) | he
        · exact hpr e he
        · exact hps e he
        · exact eh_candidate_loop_forall P
            (fun d1 u x hx => eh_process_candidate_forall P h1 h2 h3 h4 h5 h6 h7
              (fun k => h8 k _) h9 env reply d1 u x hx) _ _ e he

/-! ## Processor loops that may end early -/

theorem run_processors_invoked (reply : network_reply) (tag : document_type)
    (ps : List process_functor) (i : Nat) :
    (engine_data.run_processors reply tag ps i).1 =
      (List.range' i (processors_invoked reply tag ps)).map
        (fun k => event.processor_call k tag) := by
  induction ps generalizing i with
  | nil => rfl
  | cons p ps ih =>
    unfold engine_data.run_processors processors_invoked
    cases hp : p reply tag with
    | error x => rfl
    | ok x =>
      simp only [ih (i + 1), List.range'_succ, List.map_cons]

theorem run_fallback_processors_invoked (reply : network_reply)
    (ps : List process_functor) (i : Nat) :
    (engine_data.run_fallback_processors reply ps i).1 =
      (List.range' i (processors_invoked reply document_type.document_new ps)).map
        (fun k => event.fallback_processor_call k document_type.document_new) := by
  induction ps generalizing i with
  | nil => rfl
  | cons p ps ih =>
    unfold engine_data.run_fallback_processors processors_invoked
    cases hp : p reply document_type.document_new with
    | error x => rfl
    | ok x =>
      simp only [ih (i + 1), List.range'_succ, List.map_cons]

/-- Processor `k` is called exactly when it is registered and every processor
before it returned. -/
theorem processors_invoked_lt_iff (reply : network_reply) (tag : document_type)
    (ps : List process_functor) (k : Nat) :
    k < processors_invoked reply tag ps ↔
      k < ps.length ∧ ∀ j, j < k → ∀ p, ps[j]? = some p → p reply tag = Except.ok () := by
  induction ps generalizing k with
  | nil => simp [processors_invoked]
  | cons p ps ih =>
    unfold processors_invoked
    cases hp : p reply tag with
    | error x =>
      simp only
      constructor
      · intro hk
        have hk0 : k = 0 := by omega
        subst hk0
        exact ⟨by simp, fun j hj => absurd hj (Nat.not_lt_zero j)⟩
      · rintro ⟨_, hall⟩
        cases k with
        | zero => omega
        | succ k =>
          have := hall 0 (Nat.succ_pos k) p (by simp)
          rw [hp] at this
          exact Except.noConfusion this
    | ok x =>
      simp only
      cases k with
      | zero =>
        simp only [Nat.zero_lt_succ, List.length_cons, true_and, true_iff]
        intro j hj
        exact absurd hj (Nat.not_lt_zero j)
      | succ k =>
        rw [Nat.succ_lt_succ_iff, ih k, List.length_cons, Nat.succ_lt_succ_iff]
        constructor
        · rintro ⟨hlen, hall⟩
          refine ⟨hlen, fun j hj q hq => ?_⟩
          cases j with
          | zero =>
            simp only [List.getElem?_cons_zero, Option.some.injEq] at hq
            rw [← hq, hp]
          | succ j =>
            rw [List.getElem?_cons_succ] at hq
            exact hall j (by omega) q hq
        · rintro ⟨hlen, hall⟩
          exact ⟨hlen, fun j hj q hq => hall (j + 1) (by omega) q (by
            rw [List.getElem?_cons_succ]
            exact hq)⟩

theorem processors_invoked_le (reply : network_reply) (tag : document_type)
    (ps : List process_functor) : processors_invoked reply tag ps ≤ ps.length := by
  induction ps with
  | nil => exact Nat.le_refl 0
  | cons p ps ih =>
    unfold processors_invoked
    cases hp : p reply tag with
    | error x => simp
    | ok x =>
      simp only [List.length_cons]
      omega

theorem run_processors_none_iff (reply : network_reply) (tag : document_type)
    (ps : List process_functor) (i : Nat) :
    (engine_data.run_processors reply tag ps i).2 = none ↔
      ∀ p ∈ ps, p reply tag = Except.ok () := by
  induction ps generalizing i with
  | nil => simp [engine_data.run_processors]
  | cons p ps ih =>
    unfold engine_data.run_processors
    cases hp : p reply tag with
    | error x =>
      simp only [List.mem_cons, forall_eq_or_imp, hp]
      constructor
      · intro h
        exact Option.noConfusion h
      · rintro ⟨h, _⟩
        exact Except.noConfusion h
    | ok x =>
      simp only [List.mem_cons, forall_eq_or_imp, hp, true_and, ih (i + 1)]

theorem run_fallback_processors_none_iff (reply : network_reply)
    (ps : List process_functor) (i : Nat) :
    (engine_data.run_fallback_processors reply ps i).2 = none ↔
      ∀ p ∈ ps, p reply document_type.document_new = Except.ok () := by
  induction ps generalizing i with
  | nil => simp [engine_data.run_fallback_processors]
  | cons p ps ih =>
    unfold engine_data.run_fallback_processors
    cases hp : p reply document_type.document_new with
    | error x =>
      simp only [List.mem_cons, forall_eq_or_imp, hp]
      constructor
      · intro h
        exact Option.noConfusion h
      · rintro ⟨h, _⟩
        exact Except.noConfusion h
    | ok x =>
      simp only [List.mem_cons, forall_eq_or_imp, hp, true_and, ih (i + 1)]

theorem processors_invoked_of_ok (reply : network_reply) (tag : document_type)
    (ps : List process_functor) (hok : ∀ p ∈ ps, p reply tag = Except.ok ()) :
    processors_invoked reply tag ps = ps.length := by
  induction ps with
  | nil => rfl
  | cons p ps ih =>
    unfold processors_invoked
    rw [hok p (List.mem_cons_self _ _)]
    simp only [List.length_cons]
    rw [ih (fun q hq => hok q (List.mem_cons_of_mem _ hq))]

/-! ## Hooks that may throw: writes and the counter -/

/-- When every filter returns on the reply, the filter loop returns. -/
theorem eh_filter_loop_returns (reply : network_reply)
    (fs : List (network_reply → Except String Bool)) (i : Nat) (acc : Bool)
    (h : ∀ f ∈ fs, ∃ b, f reply = Except.ok b) :
    ∃ r, (engine_hooks.filter_loop reply fs i acc).1 = Except.ok r := by
  induction fs generalizing i acc with
  | nil => exact ⟨acc, rfl⟩
  | cons f fs ih =>
    unfold engine_hooks.filter_loop
    cases acc with
    | false => exact ⟨false, rfl⟩
    | true =>
      obtain ⟨b, hb⟩ := h f (List.mem_cons_self _ _)
      simp only [if_true, hb]
      exact ih _ _ (fun g hg => h g (List.mem_cons_of_mem _ hg))

theorem eh_writes_filter_loop (reply : network_reply)
    (fs : List (network_reply → Except String Bool)) (i : Nat) (acc : Bool) :
    writes (engine_hooks.filter_loop reply fs i acc).2 = [] :=
  filterMap_nil_of_forall _ _ (fun e he => by
    rcases mem_eh_filter_loop _ _ _ _ _ he with ⟨k, r, rfl⟩ | ⟨k, rfl⟩ <;> rfl)

theorem eh_writes_run_hooks (env : engine_hooks) (reply : network_reply) (d : engine_data)
    (acc : Bool) : writes (engine_hooks.run_hooks env reply d acc).trace = [] :=
  filterMap_nil_of_forall _ _ (fun e he =>
    eh_run_hooks_forall (fun x => x.written = none)
      (fun _ _ _ => rfl) (fun _ _ => rfl) (fun _ _ => rfl) (fun _ => rfl) (fun _ => Eq.refl _)
      (fun _ => rfl) (fun _ => Eq.refl _) (fun _ _ => rfl) (fun _ => rfl) (fun _ => Eq.refl _)
      (fun _ => rfl) (fun _ _ => rfl) env reply d acc e he)

/-- The store writes of `process_url` when the filters return: the pending
writes of the persist step, whatever the hooks after it do. -/
theorem eh_writes_process_url (env : engine_hooks) (d : engine_data) (reply : network_reply)
    (acc : Bool) (h : reply.error = 0)
    (hf : (engine_hooks.filter_loop reply env.filters 0 true).1 = Except.ok acc) :
    writes (engine_hooks.process_url env d reply).trace =
      pending_writes env.dnet_current_time reply := by
  rw [eh_process_url_ok env d reply acc h hf]
  simp only [writes, List.filterMap_append]
  have h1 : List.filterMap event.written
      [event.cout_processing reply.request_url reply.url d.total] = [] := rfl
  have h2 := eh_writes_filter_loop reply env.filters 0 true
  have h3 := writes_persist_events env.dnet_current_time reply
  have h4 := eh_writes_run_hooks env reply (engine_data.after_persist d reply) acc
  have h5 : List.filterMap event.written
      (match (engine_hooks.run_hooks env reply (engine_data.after_persist d reply) acc).raised with
        | some _ => []
        | none => engine_hooks.join_writes env reply
            (pending_writes env.dnet_current_time reply)) = [] :=
    filterMap_nil_of_forall _ _ (fun e he => by
      split at he
      · simp at he
      · rcases mem_eh_join_writes _ _ _ _ he with ⟨w, rfl⟩ | rfl <;> rfl)
  unfold writes at h2 h3 h4
  rw [h1, h2, h3, h4, h5]
  simp

theorem eh_process_candidate_total (env : engine_hooks) (reply : network_reply)
    (d : engine_data) (url : String) :
    (engine_hooks.process_candidate env reply d url).data.total = d.total := by
  rcases eh_process_candidate_cases env reply d url with
    c | ⟨_, _, c⟩ | ⟨_, c⟩ | ⟨_, _, c⟩ | ⟨_, _, _, c⟩ | ⟨_, _, _, _, _, c⟩ | ⟨_, _, _, _, c⟩ <;>
    rw [c]

theorem eh_candidate_loop_total (env : engine_hooks) (reply : network_reply)
    (urls : List String) (d : engine_data) :
    (engine_hooks.candidate_loop env reply d urls).data.total = d.total := by
  induction urls generalizing d with
  | nil => rfl
  | cons url urls ih =>
    cases ho : (engine_hooks.process_candidate env reply d url).raised with
    | some e =>
      rw [eh_candidate_loop_cons_raise env reply d url urls e ho]
      exact eh_process_candidate_total env reply d url
    | none =>
      rw [eh_candidate_loop_cons_ok env reply d url urls ho]
      simp only
      rw [ih, eh_process_candidate_total]

theorem eh_run_hooks_total (env : engine_hooks) (reply : network_reply) (d : engine_data)
    (acc : Bool) : (engine_hooks.run_hooks env reply d acc).data.total = d.total := by
  unfold engine_hooks.run_hooks
  cases acc with
  | false => rfl
  | true =>
    simp only [if_true]
    split
    · rfl
    · split
      · rfl
      · exact eh_candidate_loop_total env reply _ d

/-- The counter after `process_url` when the filters return: one atomic
increment, whatever the hooks after it do. -/
theorem eh_process_url_total (env : engine_hooks) (d : engine_data) (reply : network_reply)
    (acc : Bool) (h : reply.error = 0)
    (hf : (engine_hooks.filter_loop reply env.filters 0 true).1 = Except.ok acc) :
    (engine_hooks.process_url env d reply).data.total = atomic_long_increment d.total := by
  rw [eh_process_url_ok env d reply acc h hf]
  simp only
  rw [eh_run_hooks_total]
  unfold engine_data.after_persist
  split <;> simp only [ed_infligt_erase_total]

/-- The store writes of an error-free `url_processor::process_url`. -/
theorem up_writes_process_url (uenv : url_processor_env) (ud : url_processor_data)
    (reply : network_reply) (h : reply.error = 0) :
    writes (url_processor.process_url uenv ud reply).trace =
      pending_writes uenv.dnet_current_time reply := by
  rw [up_process_url_ok uenv ud reply h]
  simp only [writes, List.filterMap_append]
  have h1 : List.filterMap event.written
      [event.cout_processing reply.request_url reply.url ud.m_total] = [] := rfl
  have h2 : List.filterMap event.written (url_processor.classify uenv reply).2 = [] := by
    unfold url_processor.classify
    split <;> rfl
  have h3 := writes_persist_events uenv.dnet_current_time reply
  have h4 : List.filterMap event.written
      (url_processor.run_body uenv (url_processor.after_persist ud reply) reply
        (url_processor.classify uenv reply).1).trace = [] :=
    filterMap_nil_of_forall _ _ (fun e he => up_run_body_events _ _ _ _ _ he)
  have h5 : List.filterMap event.written
      (match (url_processor.run_body uenv (url_processor.after_persist ud reply) reply
          (url_processor.classify uenv reply).1).raised with
        | some _ => []
        | none => url_processor.join_writes uenv reply
            (pending_writes uenv.dnet_current_time reply)) = [] :=
    filterMap_nil_of_forall _ _ (fun e he => by
      split at he
      · simp at he
      · rcases mem_up_join_writes _ _ _ _ he with ⟨w, rfl⟩ | rfl <;> rfl)
  unfold writes at h3
  rw [h1, h2, h3, h4, h5]
  simp

/-- C7 (as stated, refuted): for an error-free redirect handed to an engine
whose second filter throws, `process_url` issues no store write: the exception
leaves it at the filter loop (engine.cpp 204), before `store_document`. -/
theorem redirect_bookkeeping_fails_on_throw :
    (sample_reply "http://example.com/a" "http://example.com/b" "D").error = 0 ∧
    writes (engine_hooks.process_url throwing_filter_hooks ⟨∅, 0⟩
      (sample_reply "http://example.com/a" "http://example.com/b" "D")).trace = [] ∧
    (engine_hooks.process_url throwing_filter_hooks ⟨∅, 0⟩
      (sample_reply "http://example.com/a" "http://example.com/b" "D")).raised =
      some "filter failed" := by
  decide

/-- C7 (as amended): redirect bookkeeping.  For an error-free reply with
requested url `A`, final url `B` and body `D` on which the filter loop returns,
accepting or rejecting, the store writes issued by `engine_data::process_url`
are exactly `(key B, data D)` followed, if and only if `A ≠ B`, by
`(key A, data B)` (the payload is the final url, not the body); when `A = B`
there is exactly one write; both carry the one time stamp read from the clock.
This holds whatever the filters answer and whatever processors, parsers and
url-filters do afterwards, also when one throws; in particular it holds when
every registered filter returns.  When a filter throws, no write is issued and
the exception leaves `process_url`.  `url_processor::process_url` consults no
hook before its persist step and issues the writes for every error-free
reply. -/
theorem redirect_bookkeeping (env : engine_hooks) (d : engine_data)
    (uenv : url_processor_env) (ud : url_processor_data) (reply : network_reply)
    (h : reply.error = 0) :
    (∀ acc, (engine_hooks.filter_loop reply env.filters 0 true).1 = Except.ok acc →
      writes (engine_hooks.process_url env d reply).trace =
        ⟨env.dnet_current_time, reply.url, reply.data⟩ ::
          (if reply.url ≠ reply.request_url then
            [⟨env.dnet_current_time, reply.request_url, reply.url⟩] else [])) ∧
    ((∀ f ∈ env.filters, ∃ b, f reply = Except.ok b) →
      writes (engine_hooks.process_url env d reply).trace =
        ⟨env.dnet_current_time, reply.url, reply.data⟩ ::
          (if reply.url ≠ reply.request_url then
            [⟨env.dnet_current_time, reply.request_url, reply.url⟩] else [])) ∧
    (∀ e, (engine_hooks.filter_loop reply env.filters 0 true).1 = Except.error e →
      writes (engine_hooks.process_url env d reply).trace = [] ∧
      (engine_hooks.process_url env d reply).raised = some e) ∧
    writes (url_processor.process_url uenv ud reply).trace =
      ⟨uenv.dnet_current_time, reply.url, reply.data⟩ ::
        (if reply.url ≠ reply.request_url then
          [⟨uenv.dnet_current_time, reply.request_url, reply.url⟩] else []) := by
  refine ⟨fun acc hf => eh_writes_process_url env d reply acc h hf, fun hall => ?_,
    fun e hf => ?_, up_writes_process_url uenv ud reply h⟩
  · obtain ⟨acc, hf⟩ := eh_filter_loop_returns reply env.filters 0 true hall
    exact eh_writes_process_url env d reply acc h hf
  · rw [eh_process_url_throw env d reply e h hf]
    refine ⟨?_, rfl⟩
    simp only [writes, List.filterMap_append]
    have h2 := eh_writes_filter_loop reply env.filters 0 true
    unfold writes at h2
    rw [h2]
    rfl

/-- Witness for C7: a redirect from `/a` to `/b` writes the body under `/b`
and then the string `/b` under `/a`, with the same time stamp, when the
filters accept and when the second filter rejects (an empty body). -/
theorem redirect_bookkeeping_witness :
    writes (engine_hooks.process_url sample_env.hooks ⟨∅, 0⟩
        (sample_reply "http://example.com/a" "http://example.com/b" "D")).trace =
      [⟨⟨1000, 0⟩, "http://example.com/b", "D"⟩,
        ⟨⟨1000, 0⟩, "http://example.com/a", "http://example.com/b"⟩] ∧
    writes (engine_hooks.process_url sample_filter_env.hooks ⟨∅, 0⟩
        (sample_reply "http://example.com/a" "http://example.com/b" "")).trace =
      [⟨⟨1000, 0⟩, "http://example.com/b", ""⟩,
        ⟨⟨1000, 0⟩, "http://example.com/a", "http://example.com/b"⟩] ∧
    writes (url_processor.process_url (sample_url_env recursion.full) ⟨∅, 0⟩
        (sample_reply "http://example.com/a" "http://example.com/b" "D")).trace =
      [⟨⟨1000, 0⟩, "http://example.com/b", "D"⟩,
        ⟨⟨1000, 0⟩, "http://example.com/a", "http://example.com/b"⟩] :=
  ⟨(redirect_bookkeeping sample_env.hooks ⟨∅, 0⟩ (sample_url_env recursion.full) ⟨∅, 0⟩
      (sample_reply "http://example.com/a" "http://example.com/b" "D") (by decide)).1 true
      rfl,
    (redirect_bookkeeping sample_filter_env.hooks ⟨∅, 0⟩ (sample_url_env recursion.full) ⟨∅, 0⟩
      (sample_reply "http://example.com/a" "http://example.com/b" "") (by decide)).1 false
      rfl,
    (redirect_bookkeeping sample_env.hooks ⟨∅, 0⟩ (sample_url_env recursion.full) ⟨∅, 0⟩
      (sample_reply "http://example.com/a" "http://example.com/b" "D") (by decide)).2.2.2⟩

/-- C16 (as stated, refuted): an error-free reply handed to an engine whose
second filter throws leaves the counter at 7: the exception leaves
`process_url` at the filter loop (engine.cpp 204), before `++total`
(engine.cpp 207).  And with filters that return, a counter at the maximum of
`long` is not increased by one: `++total` wraps to the minimum. -/
theorem counter_unchanged_on_filter_throw :
    (sample_reply "http://example.com/b" "http://example.com/b" "").error = 0 ∧
    (engine_hooks.process_url throwing_filter_hooks ⟨{"http://example.com/b"}, 7⟩
      (sample_reply "http://example.com/b" "http://example.com/b" "")).data.total = 7 ∧
    (engine_hooks.process_url throwing_filter_hooks ⟨{"http://example.com/b"}, 7⟩
      (sample_reply "http://example.com/b" "http://example.com/b" "")).raised =
      some "filter failed" ∧
    (engine_hooks.process_url sample_env.hooks ⟨{"http://example.com/b"}, 2 ^ 63 - 1⟩
      (sample_reply "http://example.com/b" "http://example.com/b" "")).data.total =
      -2 ^ 63 := by
  decide

/-- C16 (as amended): a fetch completion carrying an error is terminal.  For a
reply with an error `process_url` does one thing, the log line: the members
(counter and inflight set) are unchanged, there is no store write and no store
read, no filter, parser, url-filter, processor or fallback-processor call, and
no fetch.  For an error-free reply on which the filter loop returns (in
particular when every registered filter returns) the counter is increased by
exactly one (the counter being a `long` below its maximum), whatever the hooks
after the filters do, also when one throws; when a filter throws the members
are unchanged and the exception leaves `process_url`.
`url_processor::process_url` consults no hook before `++m_total` and increases
the counter by one for every error-free reply. -/
theorem error_completion_is_terminal (env : engine_hooks) (d : engine_data)
    (uenv : url_processor_env) (ud : url_processor_data)
    (failed fetched : network_reply)
    (hfailed : failed.error ≠ 0) (hfetched : fetched.error = 0)
    (hlong : -2 ^ 63 ≤ d.total ∧ d.total < 2 ^ 63 - 1)
    (hulong : -2 ^ 63 ≤ ud.m_total ∧ ud.m_total < 2 ^ 63 - 1) :
    (engine_hooks.process_url env d failed =
        ⟨d, [event.cout_error failed.url failed.error], none⟩ ∧
      (∀ acc, (engine_hooks.filter_loop fetched env.filters 0 true).1 = Except.ok acc →
        (engine_hooks.process_url env d fetched).data.total = d.total + 1) ∧
      ((∀ f ∈ env.filters, ∃ b, f fetched = Except.ok b) →
        (engine_hooks.process_url env d fetched).data.total = d.total + 1) ∧
      (∀ e, (engine_hooks.filter_loop fetched env.filters 0 true).1 = Except.error e →
        (engine_hooks.process_url env d fetched).data = d ∧
        (engine_hooks.process_url env d fetched).raised = some e)) ∧
    (url_processor.process_url uenv ud failed =
        ⟨ud, [event.cout_error failed.url failed.error], none⟩ ∧
      (url_processor.process_url uenv ud fetched).data.m_total = ud.m_total + 1) := by
  refine ⟨⟨eh_process_url_error env d failed hfailed, fun acc hf => ?_, fun hall => ?_,
    fun e hf => ?_⟩, ⟨up_process_url_error uenv ud failed hfailed, ?_⟩⟩
  · rw [eh_process_url_total env d fetched acc hfetched hf,
      atomic_long_increment_in_range d.total hlong.1 hlong.2]
  · obtain ⟨acc, hf⟩ := eh_filter_loop_returns fetched env.filters 0 true hall
    rw [eh_process_url_total env d fetched acc hfetched hf,
      atomic_long_increment_in_range d.total hlong.1 hlong.2]
  · rw [eh_process_url_throw env d fetched e hfetched hf]
    exact ⟨rfl, rfl⟩
  · rw [up_process_url_total uenv ud fetched hfetched,
      atomic_long_increment_in_range ud.m_total hulong.1 hulong.2]

/-- Witness for C16: the failed fetch of `/a` leaves the counter at 7 and the
trace is the log line; the fetched `/b` raises the counter to 8. -/
theorem error_completion_is_terminal_witness :
    (engine_hooks.process_url sample_env.hooks ⟨{"http://example.com/a"}, 7⟩
        ⟨"http://example.com/a", "http://example.com/a", "", [], -110⟩).trace =
      [event.cout_error "http://example.com/a" (-110)] ∧
    (engine_hooks.process_url sample_env.hooks ⟨{"http://example.com/a"}, 7⟩
        ⟨"http://example.com/a", "http://example.com/a", "", [], -110⟩).data.total = 7 ∧
    (engine_hooks.process_url sample_env.hooks ⟨{"http://example.com/a"}, 7⟩
        (sample_reply "http://example.com/b" "http://example.com/b" "")).data.total = 8 := by
  have h := error_completion_is_terminal sample_env.hooks ⟨{"http://example.com/a"}, 7⟩
    (sample_url_env recursion.full) ⟨∅, 7⟩
    ⟨"http://example.com/a", "http://example.com/a", "", [], -110⟩
    (sample_reply "http://example.com/b" "http://example.com/b" "")
    (by decide) (by decide) (by decide) (by decide)
  refine ⟨?_, ?_, h.1.2.1 true rfl⟩
  · rw [h.1.1]
  · rw [h.1.1]

/-! ## Hooks that may throw: the two hook lists -/

/-- Whatever holds of the log line, the filter calls, the releases and writes
of the persist step, the waits and the storage-error log, and of every action
of the hooks, holds of every action of a `process_url` whose filters return. -/
theorem eh_process_url_forall (P : event → Prop) (env : engine_hooks) (d : engine_data)
    (reply : network_reply) (acc : Bool) (h : reply.error = 0)
    (hf : (engine_hooks.filter_loop reply env.filters 0 true).1 = Except.ok acc)
    (h1 : ∀ a b t, P (event.cout_processing a b t))
    (h2 : ∀ k r, P (event.filter_call k r))
    (h3 : ∀ k, P (event.filter_throw k))
    (h4 : ∀ u, P (event.infligt_erase u))
    (h5 : ∀ w, P (event.write_document w))
    (h6 : ∀ w, P (event.wait_write w))
    (h7 : ∀ u, P (event.cout_storage_error u))
    (hk : ∀ e ∈ (engine_hooks.run_hooks env reply (engine_data.after_persist d reply)
      acc).trace, P e)
    (e : event) (he : e ∈ (engine_hooks.process_url env d reply).trace) : P e := by
  rw [eh_process_url_ok env d reply acc h hf] at he
  simp only [List.mem_append, List.mem_singleton] at he
  rcases he with (((he | he) | he) | he) | he
  · rw [he]
    exact h1 _ _ _
  · rcases mem_eh_filter_loop _ _ _ _ _ he with ⟨k, r, rfl⟩ | ⟨k, rfl⟩
    · exact h2 _ _
    · exact h3 _
  · rcases mem_persist_events _ _ _ he with ⟨u, rfl⟩ | ⟨w, rfl⟩
    · exact h4 _
    · exact h5 _
  · exact hk e he
  · split at he
    · simp at he
    · rcases mem_eh_join_writes _ _ _ _ he with ⟨w, rfl⟩ | rfl
      · exact h6 _
      · exact h7 _

/-- A projection of the actions that ignores the log line, filter calls,
releases, writes, waits and the storage-error log sees, in a `process_url`
whose filters return, exactly what it sees in the hooks. -/
theorem eh_process_url_filterMap_hooks {β : Type} (f : event → Option β) (env : engine_hooks)
    (d : engine_data) (reply : network_reply) (acc : Bool) (h : reply.error = 0)
    (hf : (engine_hooks.filter_loop reply env.filters 0 true).1 = Except.ok acc)
    (h1 : ∀ a b t, f (event.cout_processing a b t) = none)
    (h2 : ∀ k r, f (event.filter_call k r) = none)
    (h3 : ∀ k, f (event.filter_throw k) = none)
    (h4 : ∀ u, f (event.infligt_erase u) = none)
    (h5 : ∀ w, f (event.write_document w) = none)
    (h6 : ∀ w, f (event.wait_write w) = none)
    (h7 : ∀ u, f (event.cout_storage_error u) = none) :
    (engine_hooks.process_url env d reply).trace.filterMap f =
      (engine_hooks.run_hooks env reply (engine_data.after_persist d reply)
        acc).trace.filterMap f := by
  rw [eh_process_url_ok env d reply acc h hf]
  simp only [List.filterMap_append]
  have e1 : List.filterMap f [event.cout_processing reply.request_url reply.url d.total] = [] := by
    simp [List.filterMap_cons, h1]
  have e2 : List.filterMap f (engine_hooks.filter_loop reply env.filters 0 true).2 = [] :=
    filterMap_nil_of_forall _ _ (fun e he => by
      rcases mem_eh_filter_loop _ _ _ _ _ he with ⟨k, r, rfl⟩ | ⟨k, rfl⟩
      · exact h2 k r
      · exact h3 k)
  have e3 : List.filterMap f (persist_events env.dnet_current_time reply) = [] :=
    filterMap_nil_of_forall _ _ (fun e he => by
      rcases mem_persist_events _ _ _ he with ⟨u, rfl⟩ | ⟨w, rfl⟩
      · exact h4 u
      · exact h5 w)
  have e5 : List.filterMap f
      (match (engine_hooks.run_hooks env reply (engine_data.after_persist d reply)
          acc).raised with
        | some _ => []
        | none => engine_hooks.join_writes env reply
            (pending_writes env.dnet_current_time reply)) = [] :=
    filterMap_nil_of_forall _ _ (fun e he => by
      split at he
      · simp at he
      · rcases mem_eh_join_writes _ _ _ _ he with ⟨w, rfl⟩ | rfl
        · exact h6 w
        · exact h7 _)
  rw [e1, e2, e3, e5]
  simp

theorem new_processor_calls_run_processors (reply : network_reply)
    (ps : List process_functor) :
    new_processor_calls
        (engine_data.run_processors reply document_type.document_new ps 0).1 =
      List.range (processors_invoked reply document_type.document_new ps) := by
  rw [run_processors_invoked, new_processor_calls, List.filterMap_map,
    List.range_eq_range']
  have : (event.processed_new ∘ fun k =>
      event.processor_call k document_type.document_new) = some := by
    funext k
    rfl
  rw [this, List.filterMap_some]

theorem fallback_calls_run_fallback_processors (reply : network_reply)
    (ps : List process_functor) :
    fallback_calls (engine_data.run_fallback_processors reply ps 0).1 =
      (List.range (processors_invoked reply document_type.document_new ps)).map
        (fun k => (k, document_type.document_new)) := by
  rw [run_fallback_processors_invoked, fallback_calls, List.filterMap_map,
    List.range_eq_range']
  have : (event.fell_back ∘ fun k =>
      event.fallback_processor_call k document_type.document_new) =
      (fun k => some (k, document_type.document_new)) := by
    funext k
    rfl
  rw [this]
  induction List.range' 0 (processors_invoked reply document_type.document_new ps) with
  | nil => rfl
  | cons a l ih => simp only [List.filterMap_cons, ih, List.map_cons]

/-- The `document_new` processor calls and the fallback-processor calls of the
accepted branch. -/
theorem eh_run_hooks_accepted_calls (env : engine_hooks) (reply : network_reply)
    (d : engine_data) :
    new_processor_calls (engine_hooks.run_hooks env reply d true).trace =
      List.range (processors_invoked reply document_type.document_new env.processors) ∧
    fallback_calls (engine_hooks.run_hooks env reply d true).trace = [] := by
  have hloop : ∀ urls, new_processor_calls
      (engine_hooks.candidate_loop env reply d urls).trace = [] := fun urls =>
    filterMap_nil_of_forall _ _ (fun e he =>
      eh_candidate_loop_forall (fun x => x.processed_new = none)
        (fun d1 u x hx => eh_process_candidate_forall (fun x => x.processed_new = none)
          (fun _ _ _ => rfl) (fun _ _ => rfl) (fun _ _ => rfl) (fun _ => rfl) (fun _ => Eq.refl _)
          (fun _ => rfl) (fun _ => Eq.refl _) (fun _ => rfl) (fun _ => Eq.refl _) env reply d1 u x hx)
        urls d e he)
  have hps : new_processor_calls (engine_hooks.run_parsers reply env.parsers 0).2 = [] :=
    filterMap_nil_of_forall _ _ (fun e he => by
      rcases mem_eh_run_parsers _ _ _ _ he with ⟨k, rfl⟩ | ⟨k, rfl⟩ <;> rfl)
  constructor
  · have hpr := new_processor_calls_run_processors reply env.processors
    unfold engine_hooks.run_hooks
    simp only [if_true]
    unfold new_processor_calls at hpr hps hloop ⊢
    split
    · exact hpr
    · split
      · simp only [List.filterMap_append, hpr, hps, List.append_nil]
      · simp only [List.filterMap_append, hpr, hps, hloop, List.append_nil]
  · have h1 : List.filterMap event.fell_back
        (engine_data.run_processors reply document_type.document_new env.processors 0).1 = [] :=
      filterMap_nil_of_forall _ _ (fun y hy => by
        obtain ⟨j, rfl⟩ := mem_run_processors _ _ _ _ _ hy
        rfl)
    have h2 : List.filterMap event.fell_back
        (engine_hooks.run_parsers reply env.parsers 0).2 = [] :=
      filterMap_nil_of_forall _ _ (fun y hy => by
        rcases mem_eh_run_parsers _ _ _ _ hy with ⟨j, rfl⟩ | ⟨j, rfl⟩ <;> rfl)
    have h3 : ∀ urls, List.filterMap event.fell_back
        (engine_hooks.candidate_loop env reply d urls).trace = [] := fun urls =>
      filterMap_nil_of_forall _ _ (fun y hy =>
        eh_candidate_loop_forall (fun x => x.fell_back = none)
          (fun d1 u x hx => eh_process_candidate_forall (fun x => x.fell_back = none)
            (fun _ _ _ => rfl) (fun _ _ => rfl) (fun _ _ => rfl) (fun _ => rfl)
            (fun _ => rfl) (fun _ => Eq.refl _) (fun _ => rfl) (fun _ => Eq.refl _) (fun _ => rfl)
            env reply d1 u x hx) urls d y hy)
    unfold engine_hooks.run_hooks fallback_calls
    simp only [if_true]
    split
    · exact h1
    · split
      · simp only [List.filterMap_append, h1, h2, List.append_nil]
      · simp only [List.filterMap_append, h1, h2, h3, List.append_nil]

theorem eh_run_hooks_rejected (env : engine_hooks) (reply : network_reply) (d : engine_data) :
    engine_hooks.run_hooks env reply d false =
      ⟨d, (engine_data.run_fallback_processors reply env.fallback_processors 0).1,
        (engine_data.run_fallback_processors reply env.fallback_processors 0).2⟩ := by
  unfold engine_hooks.run_hooks
  simp

/-- C12 (as stated, refuted): a hook list ends at the first hook that throws,
and a filter that throws runs neither list.  With two processors registered of
which the first throws, an accepted reply calls processor 0 only; with two
fallback-processors of which the first throws, a rejected reply calls
fallback-processor 0 only; with a filter that throws, no processor and no
fallback-processor is called. -/
theorem hook_list_ends_at_throw :
    (sample_reply "http://example.com/" "http://example.com/" "").error = 0 ∧
    (throwing_processor_hooks true).processors.length = 2 ∧
    new_processor_calls (engine_hooks.process_url (throwing_processor_hooks true) ⟨∅, 0⟩
      (sample_reply "http://example.com/" "http://example.com/" "")).trace = [0] ∧
    (throwing_processor_hooks false).fallback_processors.length = 2 ∧
    fallback_calls (engine_hooks.process_url (throwing_processor_hooks false) ⟨∅, 0⟩
      (sample_reply "http://example.com/" "http://example.com/" "")).trace =
      [(0, document_type.document_new)] ∧
    new_processor_calls (engine_hooks.process_url throwing_filter_hooks ⟨∅, 0⟩
      (sample_reply "http://example.com/" "http://example.com/" "")).trace = [] ∧
    fallback_calls (engine_hooks.process_url throwing_filter_hooks ⟨∅, 0⟩
      (sample_reply "http://example.com/" "http://example.com/" "")).trace = [] := by
  decide

/-- C12 (as amended): for an error-free reply on which the filter loop returns,
exactly one of the two hook lists is entered, and its hooks are called in
registration order with `(reply, document_new)`, each at most once, up to and
including the first that throws: hook `k` is called exactly when it is
registered and every hook before it returned, so all are called exactly once
when all return.  If the filters accept, this is the list of processors and no
fallback-processor is called.  If the filters reject, it is the list of
fallback-processors, and no processor, parser or url-filter is called, nothing
is acquired in the inflight set, no store lookup is made, no fetch is issued
and the members are as the persist step left them.  When a filter throws,
neither list is entered: no processor and no fallback-processor is called and
the exception leaves `process_url` with the members unchanged. -/
theorem exactly_one_hook_list (env : engine_hooks) (d : engine_data) (reply : network_reply)
    (h : reply.error = 0) :
    (∀ (ps : List process_functor) (k : Nat),
      k < processors_invoked reply document_type.document_new ps ↔
        k < ps.length ∧ ∀ j, j < k → ∀ p, ps[j]? = some p →
          p reply document_type.document_new = Except.ok ()) ∧
    ((engine_hooks.filter_loop reply env.filters 0 true).1 = Except.ok true →
      new_processor_calls (engine_hooks.process_url env d reply).trace =
        List.range (processors_invoked reply document_type.document_new env.processors) ∧
      fallback_calls (engine_hooks.process_url env d reply).trace = [] ∧
      ((∀ p ∈ env.processors, p reply document_type.document_new = Except.ok ()) →
        new_processor_calls (engine_hooks.process_url env d reply).trace =
          List.range env.processors.length)) ∧
    ((engine_hooks.filter_loop reply env.filters 0 true).1 = Except.ok false →
      (∀ k tag, event.processor_call k tag ∉ (engine_hooks.process_url env d reply).trace) ∧
      (∀ k, event.parser_call k ∉ (engine_hooks.process_url env d reply).trace) ∧
      (∀ k, event.parser_throw k ∉ (engine_hooks.process_url env d reply).trace) ∧
      (∀ j u r, event.url_filter_call j u r ∉ (engine_hooks.process_url env d reply).trace) ∧
      (∀ j u, event.url_filter_throw j u ∉ (engine_hooks.process_url env d reply).trace) ∧
      (∀ u b, event.inflight_insert u b ∉ (engine_hooks.process_url env d reply).trace) ∧
      (∀ u, event.read_data u ∉ (engine_hooks.process_url env d reply).trace) ∧
      (∀ u, event.feed u ∉ (engine_hooks.process_url env d reply).trace) ∧
      (engine_hooks.process_url env d reply).data = engine_data.after_persist d reply ∧
      fallback_calls (engine_hooks.process_url env d reply).trace =
        (List.range (processors_invoked reply document_type.document_new
          env.fallback_processors)).map (fun k => (k, document_type.document_new)) ∧
      ((∀ p ∈ env.fallback_processors, p reply document_type.document_new = Except.ok ()) →
        fallback_calls (engine_hooks.process_url env d reply).trace =
          (List.range env.fallback_processors.length).map
            (fun k => (k, document_type.document_new)))) ∧
    (∀ e, (engine_hooks.filter_loop reply env.filters 0 true).1 = Except.error e →
      (∀ k tag, event.processor_call k tag ∉ (engine_hooks.process_url env d reply).trace) ∧
      (∀ k tag, event.fallback_processor_call k tag ∉
        (engine_hooks.process_url env d reply).trace) ∧
      (engine_hooks.process_url env d reply).data = d ∧
      (engine_hooks.process_url env d reply).raised = some e) := by
  refine ⟨fun ps k => processors_invoked_lt_iff reply _ ps k, fun hf => ?_, fun hf => ?_,
    fun e hf => ?_⟩
  · have hn : new_processor_calls (engine_hooks.process_url env d reply).trace =
        List.range (processors_invoked reply document_type.document_new env.processors) := by
      unfold new_processor_calls
      rw [eh_process_url_filterMap_hooks event.processed_new env d reply true h hf
        (fun _ _ _ => rfl) (fun _ _ => rfl) (fun _ => rfl) (fun _ => Eq.refl _) (fun _ => rfl)
        (fun _ => rfl) (fun _ => Eq.refl _)]
      exact (eh_run_hooks_accepted_calls env reply _).1
    refine ⟨hn, ?_, fun hok => ?_⟩
    · unfold fallback_calls
      rw [eh_process_url_filterMap_hooks event.fell_back env d reply true h hf
        (fun _ _ _ => rfl) (fun _ _ => rfl) (fun _ => rfl) (fun _ => Eq.refl _) (fun _ => rfl)
        (fun _ => rfl) (fun _ => Eq.refl _)]
      exact (eh_run_hooks_accepted_calls env reply _).2
    · rw [hn, processors_invoked_of_ok reply _ env.processors hok]
  · have hall : ∀ P : event → Prop,
        (∀ a b t, P (event.cout_processing a b t)) → (∀ k r, P (event.filter_call k r)) →
        (∀ k, P (event.filter_throw k)) → (∀ u, P (event.infligt_erase u)) →
        (∀ w, P (event.write_document w)) → (∀ w, P (event.wait_write w)) →
        (∀ u, P (event.cout_storage_error u)) →
        (∀ k, P (event.fallback_processor_call k document_type.document_new)) →
        ∀ x ∈ (engine_hooks.process_url env d reply).trace, P x := by
      intro P h1 h2 h3 h4 h5 h6 h7 h8 x hx
      refine eh_process_url_forall P env d reply false h hf h1 h2 h3 h4 h5 h6 h7 ?_ x hx
      intro y hy
      rw [eh_run_hooks_rejected] at hy
      obtain ⟨k, rfl⟩ := mem_run_fallback_processors _ _ _ _ hy
      exact h8 k
    have hdata : (engine_hooks.process_url env d reply).data =
        engine_data.after_persist d reply := by
      rw [eh_process_url_ok env d reply false h hf, eh_run_hooks_rejected]
    have hfb : fallback_calls (engine_hooks.process_url env d reply).trace =
        (List.range (processors_invoked reply document_type.document_new
          env.fallback_processors)).map (fun k => (k, document_type.document_new)) := by
      unfold fallback_calls
      rw [eh_process_url_filterMap_hooks event.fell_back env d reply false h hf
        (fun _ _ _ => rfl) (fun _ _ => rfl) (fun _ => rfl) (fun _ => Eq.refl _) (fun _ => rfl)
        (fun _ => rfl) (fun _ => Eq.refl _), eh_run_hooks_rejected]
      exact fallback_calls_run_fallback_processors reply env.fallback_processors
    refine ⟨fun k tag hm => ?_, fun k hm => ?_, fun k hm => ?_, fun j u r hm => ?_,
      fun j u hm => ?_, fun u b hm => ?_, fun u hm => ?_, fun u hm => ?_, hdata, hfb,
      fun hok => ?_⟩
    · exact hall (fun x => x ≠ event.processor_call k tag)
        (fun _ _ _ hx => event.noConfusion hx) (fun _ _ hx => event.noConfusion hx)
        (fun _ hx => event.noConfusion hx) (fun _ hx => event.noConfusion hx)
        (fun _ hx => event.noConfusion hx) (fun _ hx => event.noConfusion hx)
        (fun _ hx => event.noConfusion hx) (fun _ hx => event.noConfusion hx) _ hm rfl
    · exact hall (fun x => x ≠ event.parser_call k)
        (fun _ _ _ hx => event.noConfusion hx) (fun _ _ hx => event.noConfusion hx)
        (fun _ hx => event.noConfusion hx) (fun _ hx => event.noConfusion hx)
        (fun _ hx => event.noConfusion hx) (fun _ hx => event.noConfusion hx)
        (fun _ hx => event.noConfusion hx) (fun _ hx => event.noConfusion hx) _ hm rfl
    · exact hall (fun x => x ≠ event.parser_throw k)
        (fun _ _ _ hx => event.noConfusion hx) (fun _ _ hx => event.noConfusion hx)
        (fun _ hx => event.noConfusion hx) (fun _ hx => event.noConfusion hx)
        (fun _ hx => event.noConfusion hx) (fun _ hx => event.noConfusion hx)
        (fun _ hx => event.noConfusion hx) (fun _ hx => event.noConfusion hx) _ hm rfl
    · exact hall (fun x => x ≠ event.url_filter_call j u r)
        (fun _ _ _ hx => event.noConfusion hx) (fun _ _ hx => event.noConfusion hx)
        (fun _ hx => event.noConfusion hx) (fun _ hx => event.noConfusion hx)
        (fun _ hx => event.noConfusion hx) (fun _ hx => event.noConfusion hx)
        (fun _ hx => event.noConfusion hx) (fun _ hx => event.noConfusion hx) _ hm rfl
    · exact hall (fun x => x ≠ event.url_filter_throw j u)
        (fun _ _ _ hx => event.noConfusion hx) (fun _ _ hx => event.noConfusion hx)
        (fun _ hx => event.noConfusion hx) (fun _ hx => event.noConfusion hx)
        (fun _ hx => event.noConfusion hx) (fun _ hx => event.noConfusion hx)
        (fun _ hx => event.noConfusion hx) (fun _ hx => event.noConfusion hx) _ hm rfl
    · exact hall (fun x => x ≠ event.inflight_insert u b)
        (fun _ _ _ hx => event.noConfusion hx) (fun _ _ hx => event.noConfusion hx)
        (fun _ hx => event.noConfusion hx) (fun _ hx => event.noConfusion hx)
        (fun _ hx => event.noConfusion hx) (fun _ hx => event.noConfusion hx)
        (fun _ hx => event.noConfusion hx) (fun _ hx => event.noConfusion hx) _ hm rfl
    · exact hall (fun x => x ≠ event.read_data u)
        (fun _ _ _ hx => event.noConfusion hx) (fun _ _ hx => event.noConfusion hx)
        (fun _ hx => event.noConfusion hx) (fun _ hx => event.noConfusion hx)
        (fun _ hx => event.noConfusion hx) (fun _ hx => event.noConfusion hx)
        (fun _ hx => event.noConfusion hx) (fun _ hx => event.noConfusion hx) _ hm rfl
    · exact hall (fun x => x ≠ event.feed u)
        (fun _ _ _ hx => event.noConfusion hx) (fun _ _ hx => event.noConfusion hx)
        (fun _ hx => event.noConfusion hx) (fun _ hx => event.noConfusion hx)
        (fun _ hx => event.noConfusion hx) (fun _ hx => event.noConfusion hx)
        (fun _ hx => event.noConfusion hx) (fun _ hx => event.noConfusion hx) _ hm rfl
    · rw [hfb, processors_invoked_of_ok reply _ env.fallback_processors hok]
  · rw [eh_process_url_throw env d reply e h hf]
    have hfl : ∀ x ∈ [event.cout_processing reply.request_url reply.url d.total] ++
        (engine_hooks.filter_loop reply env.filters 0 true).2,
        (∀ k tag, x ≠ event.processor_call k tag) ∧
        ∀ k tag, x ≠ event.fallback_processor_call k tag := by
      intro x hx
      simp only [List.mem_append, List.mem_singleton] at hx
      rcases hx with rfl | hx
      · exact ⟨fun _ _ hc => event.noConfusion hc, fun _ _ hc => event.noConfusion hc⟩
      · rcases mem_eh_filter_loop _ _ _ _ _ hx with ⟨k, r, rfl⟩ | ⟨k, rfl⟩ <;>
          exact ⟨fun _ _ hc => event.noConfusion hc, fun _ _ hc => event.noConfusion hc⟩
    exact ⟨fun k tag hm => (hfl _ hm).1 k tag rfl, fun k tag hm => (hfl _ hm).2 k tag rfl,
      rfl, rfl⟩

/-- Witness for C12: the sample filters accept a reply with a body and reject
one without; the first runs the processor, the second the fallback-processor. -/
theorem exactly_one_hook_list_witness :
    new_processor_calls (engine_hooks.process_url sample_filter_env.hooks ⟨∅, 0⟩
      (sample_reply "http://example.com/" "http://example.com/" "http://example.com/a")).trace
      = [0] ∧
    fallback_calls (engine_hooks.process_url sample_filter_env.hooks ⟨∅, 0⟩
      (sample_reply "http://example.com/" "http://example.com/" "http://example.com/a")).trace
      = [] ∧
    fallback_calls (engine_hooks.process_url sample_filter_env.hooks ⟨∅, 0⟩
      (sample_reply "http://example.com/" "http://example.com/" "")).trace
      = [(0, document_type.document_new)] ∧
    new_processor_calls (engine_hooks.process_url (throwing_processor_hooks true) ⟨∅, 0⟩
      (sample_reply "http://example.com/" "http://example.com/" "")).trace = [0] :=
  ⟨((exactly_one_hook_list sample_filter_env.hooks ⟨∅, 0⟩
      (sample_reply "http://example.com/" "http://example.com/" "http://example.com/a")
      (by decide)).2.1 rfl).1.trans (by decide),
    ((exactly_one_hook_list sample_filter_env.hooks ⟨∅, 0⟩
      (sample_reply "http://example.com/" "http://example.com/" "http://example.com/a")
      (by decide)).2.1 rfl).2.1,
    ((exactly_one_hook_list sample_filter_env.hooks ⟨∅, 0⟩
      (sample_reply "http://example.com/" "http://example.com/" "")
      (by decide)).2.2.1 rfl).2.2.2.2.2.2.2.2.2.1.trans (by decide),
    ((exactly_one_hook_list (throwing_processor_hooks true) ⟨∅, 0⟩
      (sample_reply "http://example.com/" "http://example.com/" "")
      (by decide)).2.1 rfl).1.trans (by decide)⟩

/-! ## Hooks that may throw: the cache check -/

theorem eh_process_candidate_cached (env : engine_hooks) (reply : network_reply)
    (d : engine_data) (url : String)
    (hscheme : (compare_ne (env.net.relative reply.url url).1 6 "https:" &&
      compare_ne (env.net.relative reply.url url).1 5 "http:") = false)
    (hvalid : ((env.net.relative reply.url url).1.data.isEmpty ||
      (env.net.relative reply.url url).2.data.isEmpty ||
      (env.net.relative reply.url url).1 == reply.url) = false)
    (hfilters : (engine_hooks.url_filter_loop reply url env.url_filters 0 true).1 =
      Except.ok true)
    (hacquire : (env.net.relative reply.url url).1 ∉ d.inflight)
    (hread : env.storage.read_data_error (env.net.relative reply.url url).1 = false) :
    engine_hooks.process_candidate env reply d url =
      match (engine_data.run_processors reply document_type.document_cache
          env.processors 0).2 with
      | some e =>
        ⟨⟨insert (env.net.relative reply.url url).1 d.inflight, d.total⟩,
          (engine_hooks.url_filter_loop reply url env.url_filters 0 true).2 ++
            [event.inflight_insert (env.net.relative reply.url url).1 true,
              event.read_data (env.net.relative reply.url url).1] ++
            (List.range (processors_invoked reply document_type.document_cache
              env.processors)).map (fun k => event.processor_call k document_type.document_cache),
          some e⟩
      | none =>
        ⟨d, (engine_hooks.url_filter_loop reply url env.url_filters 0 true).2 ++
            [event.inflight_insert (env.net.relative reply.url url).1 true,
              event.read_data (env.net.relative reply.url url).1] ++
            (List.range (processors_invoked reply document_type.document_cache
              env.processors)).map (fun k => event.processor_call k document_type.document_cache)
            ++ [event.infligt_erase (env.net.relative reply.url url).1], none⟩ := by
  have hins : engine_data.inflight_insert d (env.net.relative reply.url url).1 =
      (true, ⟨insert (env.net.relative reply.url url).1 d.inflight, d.total⟩) := by
    simp [engine_data.inflight_insert, hacquire]
  have hera : engine_data.infligt_erase
      ⟨insert (env.net.relative reply.url url).1 d.inflight, d.total⟩
      (env.net.relative reply.url url).1 = d := by
    have := ed_erase_insert d (env.net.relative reply.url url).1 hacquire
    rw [hins] at this
    exact this
  have hpr := run_processors_invoked reply document_type.document_cache env.processors 0
  rw [← List.range_eq_range'] at hpr
  unfold engine_hooks.process_candidate
  simp only [hscheme, hvalid, hfilters, if_false, hins, hread, Bool.not_true,
    Bool.false_eq_true, hpr]
  split <;> simp_all

/-- C10 (as stated, refuted): with two processors registered of which the
first throws when handed a cached document, a candidate that passes
discarding, the url-filters and `inflight_insert` and whose lookup reports no
error leads to the call of processor 0 only: processor 1 is not called, the
url is not released and stays in the inflight set, and the exception ends the
candidate loop before the next candidate. -/
theorem cache_hit_ends_at_throw :
    failing_cache_hooks.processors.length = 2 ∧
    (engine_hooks.process_candidate failing_cache_hooks
      (sample_reply "http://example.com/" "http://example.com/" "") ⟨∅, 0⟩
      "http://example.com/cached").trace =
      [event.inflight_insert "http://example.com/cached" true,
        event.read_data "http://example.com/cached",
        event.processor_call 0 document_type.document_cache] ∧
    "http://example.com/cached" ∈ (engine_hooks.process_candidate failing_cache_hooks
      (sample_reply "http://example.com/" "http://example.com/" "") ⟨∅, 0⟩
      "http://example.com/cached").data.inflight ∧
    (engine_hooks.candidate_loop failing_cache_hooks
      (sample_reply "http://example.com/" "http://example.com/" "") ⟨∅, 0⟩
      ["http://example.com/cached", "http://example.com/z"]).trace =
      [event.inflight_insert "http://example.com/cached" true,
        event.read_data "http://example.com/cached",
        event.processor_call 0 document_type.document_cache] := by
  decide

/-- C10 (as amended): cache short-circuit.  For a candidate that passes
discarding, the url-filters and `inflight_insert`, when the store lookup of the
resolved url reports no error, the iteration issues no fetch, and after the
url-filter calls, the acquire and the lookup the registered processors are
called in registration order with the current reply and the `document_cache`
tag, each at most once, up to and including the first that throws: processor
`k` is called exactly when it is registered and every processor before it
returned.  When all processors return, every one is called exactly once, the
resolved url is then released, the members are as before the iteration (the
url is not in the inflight set), and the loop goes on to the next candidate
from there.  When a processor throws, the url is not released and stays in
the inflight set, and the exception ends the candidate loop: no further
candidate is considered. -/
theorem cache_short_circuit (env : engine_hooks) (reply : network_reply)
    (d : engine_data) (url : String) (rest : List String)
    (hscheme : (compare_ne (env.net.relative reply.url url).1 6 "https:" &&
      compare_ne (env.net.relative reply.url url).1 5 "http:") = false)
    (hvalid : ((env.net.relative reply.url url).1.data.isEmpty ||
      (env.net.relative reply.url url).2.data.isEmpty ||
      (env.net.relative reply.url url).1 == reply.url) = false)
    (hfilters : (engine_hooks.url_filter_loop reply url env.url_filters 0 true).1 =
      Except.ok true)
    (hacquire : (env.net.relative reply.url url).1 ∉ d.inflight)
    (hread : env.storage.read_data_error (env.net.relative reply.url url).1 = false) :
    fetches (engine_hooks.process_candidate env reply d url).trace = [] ∧
    (∀ k, k < processors_invoked reply document_type.document_cache env.processors ↔
      k < env.processors.length ∧ ∀ j, j < k → ∀ p, env.processors[j]? = some p →
        p reply document_type.document_cache = Except.ok ()) ∧
    ((∀ p ∈ env.processors, p reply document_type.document_cache = Except.ok ()) →
      engine_hooks.process_candidate env reply d url =
        ⟨d, (engine_hooks.url_filter_loop reply url env.url_filters 0 true).2 ++
            [event.inflight_insert (env.net.relative reply.url url).1 true,
              event.read_data (env.net.relative reply.url url).1] ++
            (List.range env.processors.length).map
              (fun k => event.processor_call k document_type.document_cache) ++
            [event.infligt_erase (env.net.relative reply.url url).1], none⟩ ∧
      (env.net.relative reply.url url).1 ∉
        (engine_hooks.process_candidate env reply d url).data.inflight ∧
      engine_hooks.candidate_loop env reply d (url :: rest) =
        ⟨(engine_hooks.candidate_loop env reply d rest).data,
          (engine_hooks.process_candidate env reply d url).trace ++
            (engine_hooks.candidate_loop env reply d rest).trace,
          (engine_hooks.candidate_loop env reply d rest).raised⟩) ∧
    ((¬ ∀ p ∈ env.processors, p reply document_type.document_cache = Except.ok ()) →
      ∃ e, engine_hooks.process_candidate env reply d url =
        ⟨⟨insert (env.net.relative reply.url url).1 d.inflight, d.total⟩,
          (engine_hooks.url_filter_loop reply url env.url_filters 0 true).2 ++
            [event.inflight_insert (env.net.relative reply.url url).1 true,
              event.read_data (env.net.relative reply.url url).1] ++
            (List.range (processors_invoked reply document_type.document_cache
              env.processors)).map (fun k => event.processor_call k document_type.document_cache),
          some e⟩ ∧
      (env.net.relative reply.url url).1 ∈
        (engine_hooks.process_candidate env reply d url).data.inflight ∧
      engine_hooks.candidate_loop env reply d (url :: rest) =
        engine_hooks.process_candidate env reply d url) := by
  have hform := eh_process_candidate_cached env reply d url hscheme hvalid hfilters hacquire hread
  have hfuf : fetches (engine_hooks.url_filter_loop reply url env.url_filters 0 true).2 = [] :=
    filterMap_nil_of_forall _ _ (fun e he => by
      rcases mem_eh_url_filter_loop _ _ _ _ _ _ he with ⟨k, r, rfl⟩ | ⟨k, rfl⟩ <;> rfl)
  have hfpr : fetches ((List.range (processors_invoked reply document_type.document_cache
      env.processors)).map (fun k => event.processor_call k document_type.document_cache)) = [] :=
    filterMap_nil_of_forall _ _ (fun e he => by
      obtain ⟨k, _, rfl⟩ := List.mem_map.1 he
      rfl)
  refine ⟨?_, fun k => processors_invoked_lt_iff reply _ env.processors k, fun hok => ?_,
    fun hnot => ?_⟩
  · rw [hform]
    split <;> simp only [fetches_append, hfuf, hfpr] <;> rfl
  · have hnone := (run_processors_none_iff reply document_type.document_cache
      env.processors 0).2 hok
    rw [hnone, processors_invoked_of_ok reply _ env.processors hok] at hform
    simp only at hform
    refine ⟨hform, ?_, ?_⟩
    · rw [hform]
      exact hacquire
    · conv_lhs => unfold engine_hooks.candidate_loop
      simp only [hform]
  · cases hr : (engine_data.run_processors reply document_type.document_cache
        env.processors 0).2 with
    | none =>
      exact absurd ((run_processors_none_iff reply document_type.document_cache
        env.processors 0).1 hr) hnot
    | some e =>
      rw [hr] at hform
      simp only at hform
      refine ⟨e, hform, ?_, ?_⟩
      · rw [hform]
        exact Finset.mem_insert_self _ _
      · conv_lhs => unfold engine_hooks.candidate_loop
        simp only [hform]

/-- Witness for C10: the candidate `http://example.com/cached` has a store
record; the iteration acquires it, looks it up, calls the processor with the
`document_cache` tag, releases it, and feeds nothing to the downloader. -/
theorem cache_short_circuit_witness :
    fetches (engine_hooks.process_candidate sample_env.hooks
      (sample_reply "http://example.com/" "http://example.com/" "") ⟨∅, 0⟩
      "http://example.com/cached").trace = [] ∧
    (engine_hooks.process_candidate sample_env.hooks
      (sample_reply "http://example.com/" "http://example.com/" "") ⟨∅, 0⟩
      "http://example.com/cached").trace =
      [event.inflight_insert "http://example.com/cached" true,
        event.read_data "http://example.com/cached",
        event.processor_call 0 document_type.document_cache,
        event.infligt_erase "http://example.com/cached"] := by
  have h := cache_short_circuit sample_env.hooks
    (sample_reply "http://example.com/" "http://example.com/" "") ⟨∅, 0⟩
    "http://example.com/cached" ["http://example.com/z"]
    (by decide) (by decide) rfl (by decide) (by decide)
  refine ⟨h.1, ?_⟩
  have h2 := (h.2.2.1 (by
    intro p hp
    simp only [engine_env.hooks, sample_env, List.mem_singleton] at hp
    subst hp
    rfl)).1
  rw [h2]
  decide

/-! ## The engine under concurrent handlers -/

theorem list_getElem?_split {α : Type} (l : List α) (i : Nat) (t : α) (h : l[i]? = some t) :
    ∃ pre post, l = pre ++ t :: post ∧ ∀ t1, l.set i t1 = pre ++ t1 :: post := by
  induction l generalizing i with
  | nil => simp at h
  | cons a l ih =>
    cases i with
    | zero =>
      simp only [List.getElem?_cons_zero, Option.some.injEq] at h
      subst h
      exact ⟨[], l, rfl, fun t1 => rfl⟩
    | succ i =>
      rw [List.getElem?_cons_succ] at h
      obtain ⟨pre, post, hl, hset⟩ := ih i h
      refine ⟨a :: pre, post, by rw [hl]; rfl, fun t1 => ?_⟩
      rw [List.set_cons_succ, hset t1]
      rfl

theorem held_of_all_finished (hs : List handler) (h : hs.all handler.finished = true) :
    hs.filterMap handler.held = [] := by
  refine filterMap_nil_of_forall _ _ (fun t ht => ?_)
  have hf := List.all_eq_true.1 h t ht
  unfold handler.finished at hf
  simp only [Bool.and_eq_true, Option.isNone_iff_eq_none] at hf
  unfold handler.held
  rw [hf.1]
  rfl

theorem not_all_finished_of_step (pre post : List handler) (t : handler) (d : engine_data)
    (x : engine_data × Option String × handler) (h : t.step d = some x) :
    (pre ++ t :: post).all handler.finished = false := by
  rw [List.all_eq_false]
  refine ⟨t, by simp, ?_⟩
  intro hf
  unfold handler.finished at hf
  simp only [Bool.and_eq_true, Option.isNone_iff_eq_none, List.isEmpty_iff] at hf
  unfold handler.step at h
  rw [hf.1, hf.2] at h
  exact Option.noConfusion h

theorem ed_mem_infligt_erase_of_ne (d : engine_data) (u v : String) (hv : v ∈ d.inflight)
    (hne : v ≠ u) : v ∈ (engine_data.infligt_erase d u).inflight :=
  (ed_mem_infligt_erase d u v).2 ⟨hne, hv⟩

/-- One step of a handler among the others keeps the urls that are outstanding
or held distinct and in the inflight set, provided a `store_document` erase
touches no url that is outstanding or held. -/
theorem handler_step_invariant (d d1 : engine_data) (O : List String)
    (pre post : List handler) (t t1 : handler) (fed : Option String)
    (hstep : t.step d = some (d1, fed, t1))
    (hadm : ∀ url rest, t = ⟨none, shared_access.erase url :: rest⟩ →
      url ∉ O ∧ url ∉ (pre ++ t :: post).filterMap handler.held)
    (hnodup : (O ++ (pre ++ t :: post).filterMap handler.held).Nodup)
    (hin : ∀ u ∈ O ++ (pre ++ t :: post).filterMap handler.held, u ∈ d.inflight) :
    ((O ++ fed.toList) ++ (pre ++ t1 :: post).filterMap handler.held).Nodup ∧
    ∀ u ∈ (O ++ fed.toList) ++ (pre ++ t1 :: post).filterMap handler.held,
      u ∈ d1.inflight := by
  obtain ⟨holding, rest⟩ := t
  have hheld : ∀ r f rs, (pre ++ (⟨some (r, f), rs⟩ : handler) :: post).filterMap handler.held =
      pre.filterMap handler.held ++ r :: post.filterMap handler.held := by
    intro r f rs
    rw [List.filterMap_append, List.filterMap_cons]
    rfl
  have hfree : ∀ rs, (pre ++ (⟨none, rs⟩ : handler) :: post).filterMap handler.held =
      pre.filterMap handler.held ++ post.filterMap handler.held := by
    intro rs
    rw [List.filterMap_append, List.filterMap_cons]
    rfl
  have hperm : ∀ r, (O ++ (pre.filterMap handler.held ++ r :: post.filterMap handler.held)).Perm
      (r :: (O ++ (pre.filterMap handler.held ++ post.filterMap handler.held))) := by
    intro r
    rw [← List.append_assoc, ← List.append_assoc]
    exact List.perm_middle
  cases holding with
  | some hr =>
    obtain ⟨r, f⟩ := hr
    rw [hheld] at hnodup hin
    have hn := (hperm r).nodup_iff.1 hnodup
    rw [List.nodup_cons] at hn
    have hmem : ∀ u ∈ r :: (O ++ (pre.filterMap handler.held ++ post.filterMap handler.held)),
        u ∈ d.inflight := fun u hu => hin u ((hperm r).mem_iff.2 hu)
    cases f with
    | download =>
      simp only [handler.step, Option.some.injEq, Prod.mk.injEq] at hstep
      obtain ⟨rfl, rfl, rfl⟩ := hstep
      rw [hfree]
      have hp : ((O ++ (some r).toList) ++
          (pre.filterMap handler.held ++ post.filterMap handler.held)).Perm
          (r :: (O ++ (pre.filterMap handler.held ++ post.filterMap handler.held))) := by
        simp only [Option.toList_some, List.append_assoc, List.singleton_append]
        exact List.perm_middle
      exact ⟨hp.nodup_iff.2 (List.nodup_cons.2 hn), fun u hu => hmem u (hp.mem_iff.1 hu)⟩
    | release =>
      simp only [handler.step, Option.some.injEq, Prod.mk.injEq] at hstep
      obtain ⟨rfl, rfl, rfl⟩ := hstep
      rw [hfree]
      simp only [Option.toList_none, List.append_nil]
      refine ⟨hn.2, fun u hu => ?_⟩
      refine ed_mem_infligt_erase_of_ne d r u (hmem u (List.mem_cons_of_mem _ hu)) ?_
      rintro rfl
      exact hn.1 hu
    | raise =>
      simp only [handler.step, Option.some.injEq, Prod.mk.injEq] at hstep
      obtain ⟨rfl, rfl, rfl⟩ := hstep
      rw [hfree]
      simp only [Option.toList_none, List.append_nil]
      exact ⟨hn.2, fun u hu => hmem u (List.mem_cons_of_mem _ hu)⟩
  | none =>
    rw [hfree] at hnodup hin
    cases rest with
    | nil => simp [handler.step] at hstep
    | cons a rest =>
      cases a with
      | increment =>
        simp only [handler.step, Option.some.injEq, Prod.mk.injEq] at hstep
        obtain ⟨rfl, rfl, rfl⟩ := hstep
        rw [hfree]
        simp only [Option.toList_none, List.append_nil]
        exact ⟨hnodup, hin⟩
      | erase url =>
        simp only [handler.step, Option.some.injEq, Prod.mk.injEq] at hstep
        obtain ⟨rfl, rfl, rfl⟩ := hstep
        obtain ⟨h1, h2⟩ := hadm url rest rfl
        rw [hfree] at h2 ⊢
        simp only [Option.toList_none, List.append_nil]
        refine ⟨hnodup, fun u hu => ?_⟩
        refine ed_mem_infligt_erase_of_ne d url u (hin u hu) ?_
        rintro rfl
        rcases List.mem_append.1 hu with hu | hu
        · exact h1 hu
        · exact h2 hu
      | insert r next =>
        by_cases hr : r ∈ d.inflight
        · have hfst : (engine_data.inflight_insert d r).1 = false := by
            cases hb : (engine_data.inflight_insert d r).1 with
            | false => rfl
            | true => exact absurd hr ((ed_inflight_insert_fst d r).1 hb)
          simp only [handler.step, hfst, Bool.false_eq_true, if_false, Option.some.injEq,
            Prod.mk.injEq] at hstep
          obtain ⟨rfl, rfl, rfl⟩ := hstep
          rw [hfree]
          simp only [Option.toList_none, List.append_nil]
          exact ⟨hnodup, fun u hu => (ed_mem_inflight_insert d r u).2 (Or.inr (hin u hu))⟩
        · have hfst : (engine_data.inflight_insert d r).1 = true :=
            (ed_inflight_insert_fst d r).2 hr
          simp only [handler.step, hfst, if_true, Option.some.injEq, Prod.mk.injEq] at hstep
          obtain ⟨rfl, rfl, rfl⟩ := hstep
          rw [hheld]
          simp only [Option.toList_none, List.append_nil]
          have hnot : r ∉ O ++ (pre.filterMap handler.held ++ post.filterMap handler.held) :=
            fun hm => hr (hin r hm)
          refine ⟨(hperm r).nodup_iff.2 (List.nodup_cons.2 ⟨hnot, hnodup⟩), fun u hu => ?_⟩
          rcases List.mem_cons.1 ((hperm r).mem_iff.1 hu) with rfl | hu
          · exact (ed_mem_inflight_insert d u u).2 (Or.inl rfl)
          · exact (ed_mem_inflight_insert d r u).2 (Or.inr (hin u hu))

/-- An admissible step keeps the urls that are outstanding or held distinct,
and in the inflight set unless the engine is at rest with one seed
outstanding. -/
theorem engine_step_invariant (s s1 : engine_state) (a : engine_action)
    (hnodup : (s.outstanding ++ s.held).Nodup)
    (hinv : (∀ u ∈ s.outstanding ++ s.held, u ∈ s.data.inflight) ∨
      (s.handlers.all handler.finished = true ∧ s.outstanding.length ≤ 1))
    (hadm : admissible_action s a = true) (hstep : engine_step s a = some s1) :
    (s1.outstanding ++ s1.held).Nodup ∧
    ((∀ u ∈ s1.outstanding ++ s1.held, u ∈ s1.data.inflight) ∨
      (s1.handlers.all handler.finished = true ∧ s1.outstanding.length ≤ 1)) := by
  cases a with
  | download url =>
    simp only [admissible_action, Bool.and_eq_true, List.isEmpty_iff] at hadm
    simp only [engine_step, Option.some.injEq] at hstep
    subst hstep
    have hh : s.handlers.filterMap handler.held = [] := held_of_all_finished _ hadm.2
    simp only [engine_state.held, hadm.1, hh, List.nil_append, List.append_nil]
    exact ⟨List.nodup_singleton _, Or.inr ⟨hadm.2, by simp⟩⟩
  | complete env reply =>
    simp only [engine_step] at hstep
    by_cases hmem : reply.request_url ∈ s.outstanding
    · simp only [hmem, if_true, Option.some.injEq] at hstep
      subst hstep
      have hh : (s.handlers ++ [(⟨none, engine_hooks.accesses env reply⟩ : handler)]).filterMap
          handler.held = s.handlers.filterMap handler.held := by
        rw [List.filterMap_append]
        simp [handler.held]
      simp only [engine_state.held, hh]
      have hsub : (s.outstanding.erase reply.request_url ++
          s.handlers.filterMap handler.held).Sublist
          (s.outstanding ++ s.handlers.filterMap handler.held) :=
        List.Sublist.append (List.erase_sublist _ _) (List.Sublist.refl _)
      refine ⟨hnodup.sublist hsub, Or.inl ?_⟩
      rcases hinv with hinv | ⟨hq, hlen⟩
      · exact fun u hu => hinv u (hsub.subset hu)
      · have hh2 : s.handlers.filterMap handler.held = [] := held_of_all_finished _ hq
        have hone : s.outstanding = [reply.request_url] := by
          cases hO : s.outstanding with
          | nil => rw [hO] at hmem; simp at hmem
          | cons x xs =>
            rw [hO] at hmem hlen
            cases xs with
            | nil =>
              simp only [List.mem_singleton] at hmem
              rw [hmem]
            | cons y ys => simp at hlen
        rw [hone, hh2]
        simp
    · simp [hmem] at hstep
  | advance i =>
    simp only [engine_step] at hstep
    cases hi : s.handlers[i]? with
    | none => simp [hi] at hstep
    | some t =>
      rw [hi] at hstep
      simp only at hstep
      cases hs : t.step s.data with
      | none => simp [hs] at hstep
      | some x =>
        obtain ⟨d1, fed, t1⟩ := x
        rw [hs] at hstep
        simp only [Option.some.injEq] at hstep
        subst hstep
        obtain ⟨pre, post, hl, hset⟩ := list_getElem?_split s.handlers i t hi
        have hbusy := not_all_finished_of_step pre post t s.data _ hs
        rw [← hl] at hbusy
        have hin : ∀ u ∈ s.outstanding ++ s.held, u ∈ s.data.inflight := by
          rcases hinv with hinv | ⟨hq, _⟩
          · exact hinv
          · rw [hq] at hbusy
            exact Bool.noConfusion hbusy
        have hadm2 : ∀ url rest, t = ⟨none, shared_access.erase url :: rest⟩ →
            url ∉ s.outstanding ∧ url ∉ (pre ++ t :: post).filterMap handler.held := by
          intro url rest ht
          subst ht
          simp only [admissible_action, hi, Bool.and_eq_true, Bool.not_eq_true',
            decide_eq_false_iff_not] at hadm
          rw [← hl]
          exact hadm
        simp only [engine_state.held, hl] at hnodup hin
        have := handler_step_invariant s.data d1 s.outstanding pre post t t1 fed hs hadm2
          hnodup hin
        simp only [engine_state.held, hset t1]
        exact ⟨this.1, Or.inl this.2⟩

theorem engine_run_invariant (acts : List engine_action) (s s1 : engine_state)
    (hnodup : (s.outstanding ++ s.held).Nodup)
    (hinv : (∀ u ∈ s.outstanding ++ s.held, u ∈ s.data.inflight) ∨
      (s.handlers.all handler.finished = true ∧ s.outstanding.length ≤ 1))
    (hadm : admissible_run s acts = true) (hrun : engine_run s acts = some s1) :
    (s1.outstanding ++ s1.held).Nodup ∧
    ((∀ u ∈ s1.outstanding ++ s1.held, u ∈ s1.data.inflight) ∨
      (s1.handlers.all handler.finished = true ∧ s1.outstanding.length ≤ 1)) := by
  induction acts generalizing s with
  | nil =>
    simp only [engine_run, Option.some.injEq] at hrun
    subst hrun
    exact ⟨hnodup, hinv⟩
  | cons a acts ih =>
    simp only [engine_run] at hrun
    simp only [admissible_run, Bool.and_eq_true] at hadm
    cases hs : engine_step s a with
    | none => simp [hs] at hrun
    | some s2 =>
      rw [hs] at hrun hadm
      simp only at hrun hadm
      obtain ⟨h1, h2⟩ := engine_step_invariant s s2 a hnodup hinv hadm.1 hs
      exact ih s2 h1 h2 hadm.2 hrun

/-! ## A handler alone is `process_url` -/

theorem run_alone_finished (fuel : Nat) (d : engine_data) :
    handler.run_alone fuel d ⟨none, []⟩ = (d, []) := by
  cases fuel <;> rfl

/-- The steps of a handler, made in a row, are its accesses run one after the
other. -/
theorem run_alone_eq_run_accesses (rest : List shared_access) (d : engine_data) (fuel : Nat)
    (hfuel : 2 * rest.length + 1 ≤ fuel) :
    handler.run_alone fuel d ⟨none, rest⟩ = run_accesses d rest := by
  induction rest generalizing d fuel with
  | nil => exact run_alone_finished fuel d
  | cons a rest ih =>
    simp only [List.length_cons] at hfuel
    obtain ⟨f, rfl⟩ : ∃ f, fuel = f + 1 := ⟨fuel - 1, by omega⟩
    cases a with
    | increment =>
      simp only [handler.run_alone, handler.step, run_accesses, Option.toList_none,
        List.nil_append]
      exact ih _ f (by omega)
    | erase url =>
      simp only [handler.run_alone, handler.step, run_accesses, Option.toList_none,
        List.nil_append]
      exact ih _ f (by omega)
    | insert url next =>
      obtain ⟨g, rfl⟩ : ∃ g, f = g + 1 := ⟨f - 1, by omega⟩
      cases hb : (engine_data.inflight_insert d url).1 with
      | false =>
        simp only [handler.run_alone, handler.step, run_accesses, hb, Bool.false_eq_true,
          if_false, Option.toList_none, List.nil_append]
        exact ih _ (g + 1) (by omega)
      | true =>
        cases next with
        | download =>
          simp only [handler.run_alone, handler.step, run_accesses, hb, if_true,
            Option.toList_none, Option.toList_some, List.nil_append, List.singleton_append]
          rw [ih _ g (by omega)]
        | release =>
          simp only [handler.run_alone, handler.step, run_accesses, hb, if_true,
            Option.toList_none, List.nil_append]
          exact ih _ g (by omega)
        | raise =>
          simp only [handler.run_alone, handler.step, run_accesses, hb, if_true,
            Option.toList_none, List.nil_append, run_alone_finished]

theorem eh_fetches_url_filter_loop (reply : network_reply) (url : String)
    (fs : List (network_reply → String → Except String Bool)) (j : Nat) (ok : Bool) :
    fetches (engine_hooks.url_filter_loop reply url fs j ok).2 = [] :=
  filterMap_nil_of_forall _ _ (fun e he => by
    rcases mem_eh_url_filter_loop _ _ _ _ _ _ he with ⟨k, r, rfl⟩ | ⟨k, rfl⟩ <;> rfl)

/-- The accesses of one iteration, run alone, are the iteration: the members
and the feeds agree, and an exception ends both. -/
theorem run_accesses_process_candidate (env : engine_hooks) (reply : network_reply)
    (d : engine_data) (url : String) (urls : List String) :
    run_accesses d (engine_hooks.candidate_accesses env reply (url :: urls)) =
      match (engine_hooks.process_candidate env reply d url).raised with
      | some _ => ((engine_hooks.process_candidate env reply d url).data,
          fetches (engine_hooks.process_candidate env reply d url).trace)
      | none =>
        ((run_accesses (engine_hooks.process_candidate env reply d url).data
            (engine_hooks.candidate_accesses env reply urls)).1,
          fetches (engine_hooks.process_candidate env reply d url).trace ++
            (run_accesses (engine_hooks.process_candidate env reply d url).data
              (engine_hooks.candidate_accesses env reply urls)).2) := by
  have hput := eh_fetches_url_filter_loop reply url env.url_filters 0 true
  cases h1 : (compare_ne (env.net.relative reply.url url).1 6 "https:" &&
      compare_ne (env.net.relative reply.url url).1 5 "http:") with
  | true =>
    unfold engine_hooks.process_candidate
    rw [engine_hooks.candidate_accesses]
    simp only [h1, if_true]
    rfl
  | false =>
  cases h2 : ((env.net.relative reply.url url).1.data.isEmpty ||
      (env.net.relative reply.url url).2.data.isEmpty ||
      (env.net.relative reply.url url).1 == reply.url) with
  | true =>
    unfold engine_hooks.process_candidate
    rw [engine_hooks.candidate_accesses]
    simp only [h1, h2, if_true, if_false, Bool.false_eq_true]
    rfl
  | false =>
  cases h3 : (engine_hooks.url_filter_loop reply url env.url_filters 0 true).1 with
  | error e =>
    unfold engine_hooks.process_candidate
    rw [engine_hooks.candidate_accesses]
    simp only [h1, h2, h3, if_false, Bool.false_eq_true, hput]
    rfl
  | ok b =>
  cases b with
  | false =>
    unfold engine_hooks.process_candidate
    rw [engine_hooks.candidate_accesses]
    simp only [h1, h2, h3, if_false, Bool.false_eq_true, hput, List.nil_append]
  | true =>
  have hfpr : fetches (engine_data.run_processors reply document_type.document_cache
      env.processors 0).1 = [] := fetches_run_processors _ _ _ _
  cases h4 : (engine_data.inflight_insert d (env.net.relative reply.url url).1).1 with
  | false =>
    have hca : ∃ next, engine_hooks.candidate_accesses env reply (url :: urls) =
        shared_access.insert (env.net.relative reply.url url).1 next ::
          engine_hooks.candidate_accesses env reply urls := by
      rw [engine_hooks.candidate_accesses]
      simp only [h1, h2, h3, if_false, Bool.false_eq_true]
      split
      · exact ⟨_, rfl⟩
      · split <;> exact ⟨_, rfl⟩
    obtain ⟨next, hca⟩ := hca
    have hf : fetches ((engine_hooks.url_filter_loop reply url env.url_filters 0 true).2 ++
        [event.inflight_insert (env.net.relative reply.url url).1 false]) = [] := by
      rw [fetches_append, hput]
      rfl
    rw [hca]
    unfold engine_hooks.process_candidate
    simp only [h1, h2, h3, if_false, Bool.false_eq_true, h4, Bool.not_false, if_true,
      run_accesses, hf, List.nil_append]
  | true =>
    cases h5 : env.storage.read_data_error (env.net.relative reply.url url).1 with
    | true =>
      unfold engine_hooks.process_candidate
      rw [engine_hooks.candidate_accesses]
      simp only [h1, h2, h3, if_false, Bool.false_eq_true, h4, Bool.not_true, h5, if_true,
        run_accesses]
      have hf : fetches ((engine_hooks.url_filter_loop reply url env.url_filters 0 true).2 ++
          [event.inflight_insert (env.net.relative reply.url url).1 true,
            event.read_data (env.net.relative reply.url url).1,
            event.cout_page_cache (env.net.relative reply.url url).1] ++
          engine_data.download (env.net.relative reply.url url).1) =
          [(env.net.relative reply.url url).1] := by
        rw [fetches_append, fetches_append, hput]
        rfl
      rw [hf]
      rfl
    | false =>
      cases h6 : (engine_data.run_processors reply document_type.document_cache
          env.processors 0).2 with
      | some e =>
        unfold engine_hooks.process_candidate
        rw [engine_hooks.candidate_accesses]
        simp only [h1, h2, h3, if_false, Bool.false_eq_true, h4, Bool.not_true, h5, h6,
          run_accesses, if_true]
        have hf : fetches ((engine_hooks.url_filter_loop reply url env.url_filters 0 true).2 ++
            [event.inflight_insert (env.net.relative reply.url url).1 true,
              event.read_data (env.net.relative reply.url url).1] ++
            (engine_data.run_processors reply document_type.document_cache
              env.processors 0).1) = [] := by
          rw [fetches_append, fetches_append, hput, hfpr]
          rfl
        rw [hf]
      | none =>
        unfold engine_hooks.process_candidate
        rw [engine_hooks.candidate_accesses]
        simp only [h1, h2, h3, if_false, Bool.false_eq_true, h4, Bool.not_true, h5, h6,
          run_accesses, if_true]
        have hf : fetches ((engine_hooks.url_filter_loop reply url env.url_filters 0 true).2 ++
            [event.inflight_insert (env.net.relative reply.url url).1 true,
              event.read_data (env.net.relative reply.url url).1] ++
            (engine_data.run_processors reply document_type.document_cache
              env.processors 0).1 ++
            [event.infligt_erase (env.net.relative reply.url url).1]) = [] := by
          rw [fetches_append, fetches_append, fetches_append, hput, hfpr]
          rfl
        rw [hf]
        rfl

theorem run_accesses_candidate_loop (env : engine_hooks) (reply : network_reply)
    (urls : List String) (d : engine_data) :
    run_accesses d (engine_hooks.candidate_accesses env reply urls) =
      ((engine_hooks.candidate_loop env reply d urls).data,
        fetches (engine_hooks.candidate_loop env reply d urls).trace) := by
  induction urls generalizing d with
  | nil => rfl
  | cons url urls ih =>
    rw [run_accesses_process_candidate]
    cases ho : (engine_hooks.process_candidate env reply d url).raised with
    | some e =>
      rw [eh_candidate_loop_cons_raise env reply d url urls e ho]
    | none =>
      rw [eh_candidate_loop_cons_ok env reply d url urls ho]
      simp only [ih, fetches_append]

theorem run_accesses_run_hooks (env : engine_hooks) (reply : network_reply)
    (d : engine_data) (acc : Bool) :
    run_accesses d (engine_hooks.hook_accesses env reply acc) =
      ((engine_hooks.run_hooks env reply d acc).data,
        fetches (engine_hooks.run_hooks env reply d acc).trace) := by
  have hpr : fetches (engine_data.run_processors reply document_type.document_new
      env.processors 0).1 = [] := fetches_run_processors _ _ _ _
  have hps : fetches (engine_hooks.run_parsers reply env.parsers 0).2 = [] :=
    filterMap_nil_of_forall _ _ (fun e he => by
      rcases mem_eh_run_parsers _ _ _ _ he with ⟨k, rfl⟩ | ⟨k, rfl⟩ <;> rfl)
  unfold engine_hooks.hook_accesses engine_hooks.run_hooks
  cases acc with
  | false =>
    simp only [Bool.false_eq_true, if_false, run_accesses]
    have hfb : fetches (engine_data.run_fallback_processors reply
        env.fallback_processors 0).1 = [] :=
      filterMap_nil_of_forall _ _ (fun e he => by
        obtain ⟨k, rfl⟩ := mem_run_fallback_processors _ _ _ _ he
        rfl)
    rw [hfb]
  | true =>
    simp only [if_true]
    cases h1 : (engine_data.run_processors reply document_type.document_new
        env.processors 0).2 with
    | some e =>
      simp only [run_accesses, hpr]
    | none =>
      cases h2 : (engine_hooks.run_parsers reply env.parsers 0).1 with
      | error e =>
        simp only [run_accesses, fetches_append, hpr, hps, List.append_nil]
      | ok urls =>
        simp only [run_accesses_candidate_loop, fetches_append, hpr, hps, List.nil_append]

/-- The accesses of `process_url`, run one after the other with no other
handler in between, leave the members `process_url` leaves and hand the
downloader the urls it feeds. -/
theorem run_accesses_process_url (env : engine_hooks) (d : engine_data)
    (reply : network_reply) :
    run_accesses d (engine_hooks.accesses env reply) =
      ((engine_hooks.process_url env d reply).data,
        fetches (engine_hooks.process_url env d reply).trace) := by
  by_cases h : reply.error = 0
  · cases hf : (engine_hooks.filter_loop reply env.filters 0 true).1 with
    | error e =>
      rw [eh_process_url_throw env d reply e h hf]
      unfold engine_hooks.accesses
      simp only [h, ne_eq, not_true_eq_false, if_false, hf, run_accesses, fetches_append]
      have h2 : fetches (engine_hooks.filter_loop reply env.filters 0 true).2 = [] :=
        filterMap_nil_of_forall _ _ (fun e he => by
          rcases mem_eh_filter_loop _ _ _ _ _ he with ⟨k, r, rfl⟩ | ⟨k, rfl⟩ <;> rfl)
      rw [h2]
      rfl
    | ok acc =>
      have hfe : fetches (engine_hooks.process_url env d reply).trace =
          fetches (engine_hooks.run_hooks env reply (engine_data.after_persist d reply)
            acc).trace := by
        unfold fetches
        exact eh_process_url_filterMap_hooks event.fed env d reply acc h hf
          (fun _ _ _ => rfl) (fun _ _ => rfl) (fun _ => rfl) (fun _ => Eq.refl _) (fun _ => rfl)
          (fun _ => rfl) (fun _ => Eq.refl _)
      have hd : (engine_hooks.process_url env d reply).data =
          (engine_hooks.run_hooks env reply (engine_data.after_persist d reply) acc).data := by
        rw [eh_process_url_ok env d reply acc h hf]
      rw [hfe, hd, ← run_accesses_run_hooks]
      unfold engine_hooks.accesses engine_data.after_persist
      simp only [h, ne_eq, not_true_eq_false, if_false, hf]
      by_cases hr : reply.url = reply.request_url
      · simp only [hr, not_true_eq_false, if_false, List.append_nil, List.cons_append,
          List.nil_append, List.append_eq, run_accesses]
      · simp only [hr, not_false_eq_true, if_true, List.cons_append, List.nil_append,
          List.append_eq, run_accesses]
  · rw [eh_process_url_error env d reply h]
    unfold engine_hooks.accesses
    simp only [h, ne_eq, not_false_eq_true, if_true, run_accesses]
    rfl

set_option maxRecDepth 100000 in
/-- C1 (as stated, refuted): two fetches of one url can be outstanding.
(1) The caller invokes `download` twice on a url.  (2) The caller downloads
the seeds `/a` and `/b`, and `/a` links to `/b`.  (3) The caller downloads
`/a` while the handler of the seed, which links to `/a`, is running.  (4) With
a single caller download and one handler at a time, a completion redirected
to the url `/u` of an outstanding fetch releases `/u`, after which a page
linking to `/u` makes its handler issue a second fetch of `/u`.  (5) With
handlers on two worker threads: the handler of `/p` acquires `/u` and waits
for the lookup; the handler of a redirect from `/a` to `/u`, delivered while
no fetch of `/u` is outstanding, releases `/u`; the first handler then
downloads `/u`; the handler of `/q`, which links to `/u`, acquires `/u` again
and downloads it. -/
theorem duplicate_outstanding_fetch :
    (engine_run engine_init double_download_run).map engine_state.outstanding =
      some ["http://example.com/", "http://example.com/"] ∧
    (engine_run engine_init two_seeds_run).map engine_state.outstanding =
      some ["http://example.com/b", "http://example.com/b"] ∧
    (engine_run engine_init download_during_handler_run).map engine_state.outstanding =
      some ["http://example.com/a", "http://example.com/a"] ∧
    (engine_run engine_init redirect_run).map engine_state.outstanding =
      some ["http://example.com/u", "http://example.com/u"] ∧
    (engine_run engine_init interleaved_run).map engine_state.outstanding =
      some ["http://example.com/u", "http://example.com/u"] ∧
    ¬ ∀ (acts : List engine_action) (s : engine_state),
      engine_run engine_init acts = some s → s.outstanding.Nodup := by
  refine ⟨by decide, by decide, by decide, by decide, by decide, fun h => ?_⟩
  have h1 := h interleaved_run
    ⟨⟨{"http://example.com/u"}, 4⟩, ["http://example.com/u", "http://example.com/u"],
      [⟨none, []⟩, ⟨none, []⟩, ⟨none, []⟩, ⟨none, []⟩]⟩ (by decide)
  exact absurd h1 (by decide)

/-- C1 (as amended): over the engine's step relation (the caller invokes
`engine.download`, the fetch service completes an outstanding fetch and a
worker thread starts `process_url` on the reply, a running handler makes its
next atomic access to the shared members, in any interleaving), restricted to
admissible runs: the caller invokes `download` only while no fetch is
outstanding and every handler has returned, and the `infligt_erase` of a
`store_document` happens only while no fetch of its url is outstanding and no
handler has acquired that url and not yet downloaded or released it.  Then,
for any behaviour of the fetch service, parsers, filters, url-filters,
processors and store, in every reachable state no url has two fetches
outstanding, and no url is outstanding while a handler holds it.  The steps of
a handler are those of `process_url`: made in a row from any members, they
leave the members `process_url` leaves and feed the downloader the urls it
feeds. -/
theorem no_duplicate_outstanding_fetch (acts : List engine_action) (s : engine_state)
    (hadm : admissible_run engine_init acts = true)
    (hrun : engine_run engine_init acts = some s) :
    s.outstanding.Nodup ∧
    (∀ u ∈ s.held, u ∉ s.outstanding) ∧
    ∀ (env : engine_hooks) (d : engine_data) (reply : network_reply),
      handler.run_alone (2 * (engine_hooks.accesses env reply).length + 1) d
          ⟨none, engine_hooks.accesses env reply⟩ =
        ((engine_hooks.process_url env d reply).data,
          fetches (engine_hooks.process_url env d reply).trace) := by
  have hinv := (engine_run_invariant acts engine_init s List.nodup_nil
    (Or.inl (fun u hu => absurd hu (List.not_mem_nil u))) hadm hrun).1
  refine ⟨(List.nodup_append.1 hinv).1, fun u hu ho => ?_, fun env d reply => ?_⟩
  · exact (List.nodup_append.1 hinv).2.2 ho hu
  · rw [run_alone_eq_run_accesses _ _ _ (Nat.le_refl _), run_accesses_process_url]

/-- Witness for C1 (as amended): the sample run, in which the handlers of `/a`
and `/b` take turns, is admissible and ends with the fetches of `/c`, `/e` and
`/d` outstanding, once each, and no url held. -/
theorem no_duplicate_outstanding_fetch_witness :
    admissible_run engine_init sample_run = true ∧
    (engine_run engine_init sample_run).map engine_state.outstanding =
      some ["http://example.com/c", "http://example.com/e", "http://example.com/d"] ∧
    ["http://example.com/c", "http://example.com/e", "http://example.com/d"].Nodup :=
  ⟨by decide, by decide,
    (no_duplicate_outstanding_fetch sample_run
      ⟨⟨{"http://example.com/c", "http://example.com/e", "http://example.com/d"}, 3⟩,
        ["http://example.com/c", "http://example.com/e", "http://example.com/d"],
        [⟨none, []⟩, ⟨none, []⟩, ⟨none, []⟩]⟩ (by decide) (by decide)).1⟩

end wookie
